import Mathlib

/-!
# Pokedex: historical overlays, their compilation and their resolution

A shallow embedding of the overlay resolver of `internal/data/types.go`
(`Move.TypeForGen`, `Move.CategoryForGen`, `Pokemon.TypesForGen`), of the
compiler of `cmd/gen/gen.go` (`BuildMove`, `BuildPokemon`, `BuildAbility`, the
enum parsers they call, `idFromURL`, the collection passes, the emitters and
`Run`), of the search of `internal/search/fuzzy.go` and of the detail view of
`internal/tui/detail.go`, followed by the theorems that settle the
specification's claims about them.

Conventions of the embedding:

* Go `byte`/`uint8`/`uint16` values are natural numbers; a conversion from
  `int` is written with an explicit `% 2^w`.
* Go `int` values are integers; in package `tui`, where a counter is
  incremented without bound, the arithmetic wraps around in 64 bits.
* A Go slice is a `List`, a `[2]PokeType` array is a pair.
* A run-time fault (an index out of range) is `none`.
* The `(byte, error)` result of an enum parser is the pair itself, the error
  `none` for nil: Go callers read the byte also when the error is set. The
  result of `BuildMove`, whose value no caller reads on error, is an `Except`.
* The Go field name `Type` is a Lean keyword; it is written `Type_`.
-/

namespace Pokedex

/-! ## Package `data` (internal/data/types.go) -/

namespace data

/-- PokeType is a single byte. -/
abbrev PokeType := Nat

abbrev TypeNone : PokeType := 0
abbrev TypeNormal : PokeType := 1
abbrev TypeFire : PokeType := 2
abbrev TypeWater : PokeType := 3
abbrev TypeGrass : PokeType := 4
abbrev TypeElectric : PokeType := 5
abbrev TypeIce : PokeType := 6
abbrev TypeFighting : PokeType := 7
abbrev TypePoison : PokeType := 8
abbrev TypeGround : PokeType := 9
abbrev TypeFlying : PokeType := 10
abbrev TypePsychic : PokeType := 11
abbrev TypeBug : PokeType := 12
abbrev TypeRock : PokeType := 13
abbrev TypeGhost : PokeType := 14
abbrev TypeDragon : PokeType := 15
abbrev TypeDark : PokeType := 16
abbrev TypeSteel : PokeType := 17

/-- MoveCategory is a byte. -/
abbrev MoveCategory := Nat

abbrev CategoryPhysical : MoveCategory := 0
abbrev CategorySpecial : MoveCategory := 1
abbrev CategoryStatus : MoveCategory := 2

/-- Generation is 1, 2, or 3, stored in a byte. -/
abbrev Generation := Nat

/-- GameVersion fits in 4 bits, stored in a byte. -/
abbrev GameVersion := Nat

abbrev GameRed : GameVersion := 1
abbrev GameBlue : GameVersion := 2
abbrev GameYellow : GameVersion := 3
abbrev GameGold : GameVersion := 4
abbrev GameSilver : GameVersion := 5
abbrev GameCrystal : GameVersion := 6
abbrev GameRuby : GameVersion := 7
abbrev GameSapphire : GameVersion := 8
abbrev GameEmerald : GameVersion := 9
abbrev GameFireRed : GameVersion := 10
abbrev GameLeafGreen : GameVersion := 11

/-- GenForVersion maps a GameVersion to its generation number. -/
def GenForVersion (v : GameVersion) : Generation :=
  if v ≤ GameYellow then 1
  else if v ≤ GameCrystal then 2
  else 3

/-- MoveID is a uint16. -/
abbrev MoveID := Nat

/-- MoveTypePast records a move's type before it changed. -/
structure MoveTypePast where
  UntilGen : Generation
  Type_ : PokeType
  deriving DecidableEq, Repr

/-- Move is stored once in AllMoves. -/
structure Move where
  ID : MoveID
  Name : String
  Type_ : PokeType
  Category : MoveCategory
  Power : Nat
  Accuracy : Nat
  PP : Nat
  PastTypes : List MoveTypePast
  deriving DecidableEq, Repr

/-- The `for _, pt := range m.PastTypes` loop of `Move.TypeForGen`, run on the
entries that are still to be visited; `canonical` is `m.Type`, returned when the
loop falls through. -/
def Move.TypeForGen.loop (gen : Generation) (canonical : PokeType) :
    List MoveTypePast → PokeType
  | [] => canonical
  | pt :: rest => if gen ≤ pt.UntilGen then pt.Type_ else loop gen canonical rest

/-- TypeForGen returns the move's type for a given generation. -/
def Move.TypeForGen (m : Move) (gen : Generation) : PokeType :=
  Move.TypeForGen.loop gen m.Type_ m.PastTypes

/-- The table preGen3PhysicalTypes, indexed by PokeType: true for the types that
are Physical in the Gen 1-2 type-based split. -/
def preGen3PhysicalTypes : List Bool :=
  [ false, -- TypeNone
    true,  -- TypeNormal
    false, -- TypeFire
    false, -- TypeWater
    false, -- TypeGrass
    false, -- TypeElectric
    false, -- TypeIce
    true,  -- TypeFighting
    true,  -- TypePoison
    true,  -- TypeGround
    true,  -- TypeFlying
    false, -- TypePsychic
    true,  -- TypeBug
    true,  -- TypeRock
    true,  -- TypeGhost
    false, -- TypeDragon
    true,  -- TypeDark
    true ] -- TypeSteel

/-- CategoryForGen returns the move's damage category for a given generation.
The result is `none` when the lookup `preGen3PhysicalTypes[t]` is out of range
(the table has 18 entries), which is a run-time fault in Go. -/
def Move.CategoryForGen (m : Move) (gen : Generation) : Option MoveCategory :=
  if m.Category = CategoryStatus then
    some CategoryStatus
  else if gen ≥ 3 then
    some m.Category
  else
    match preGen3PhysicalTypes[m.TypeForGen gen]? with
    | none => none
    | some true => some CategoryPhysical
    | some false => some CategorySpecial

/-- PokemonTypePast records a Pokemon's types before they changed. -/
structure PokemonTypePast where
  UntilGen : Generation
  Types : PokeType × PokeType
  deriving DecidableEq, Repr

/-- Pokemon: the fields of a Pokémon entry that the type resolver reads, and its
identity. -/
structure Pokemon where
  ID : Nat
  Name : String
  Types : PokeType × PokeType
  PastTypes : List PokemonTypePast
  deriving DecidableEq, Repr

/-- The `for _, pt := range p.PastTypes` loop of `Pokemon.TypesForGen`;
`canonical` is `p.Types`. -/
def Pokemon.TypesForGen.loop (gen : Generation) (canonical : PokeType × PokeType) :
    List PokemonTypePast → PokeType × PokeType
  | [] => canonical
  | pt :: rest => if gen ≤ pt.UntilGen then pt.Types else loop gen canonical rest

/-- TypesForGen returns the Pokemon's types for a given generation. -/
def Pokemon.TypesForGen (p : Pokemon) (gen : Generation) : PokeType × PokeType :=
  Pokemon.TypesForGen.loop gen p.Types p.PastTypes

end data

/-! ## Package `gen` (cmd/gen/gen.go): JSON shapes -/

namespace gen

/-- A named cross-reference of the source dataset. -/
structure apiNamedResource where
  Name : String
  URL : String
  deriving DecidableEq, Repr

/-- One entry of a `types` list: a declared slot and the type it holds. -/
structure apiTypeSlot where
  Slot : Int
  Type_ : apiNamedResource
  deriving DecidableEq, Repr

/-- One entry of `past_types`: the generation tag and the types it lists. -/
structure apiPastType where
  Generation : apiNamedResource
  Types : List apiTypeSlot
  deriving DecidableEq, Repr

/-- One entry of `abilities`: a declared slot, the hidden flag and the trait. -/
structure apiAbilitySlot where
  Slot : Int
  IsHidden : Bool
  Ability : apiNamedResource
  deriving DecidableEq, Repr

/-- One entry of `version_group_details` of a move of a creature. -/
structure apiVersionGroupDetail where
  LevelLearnedAt : Int
  MoveLearnMethod : apiNamedResource
  VersionGroup : apiNamedResource
  deriving DecidableEq, Repr

/-- One entry of `moves`: the move and the release groups it is learned in. -/
structure apiPokemonMove where
  Move : apiNamedResource
  VersionGroupDetails : List apiVersionGroupDetail
  deriving DecidableEq, Repr

/-- The fields of the raw creature record that the embedded blocks of
`BuildPokemon` read, and its identity. A list absent from the JSON document is
nil in Go, the empty list here. -/
structure apiPokemon where
  ID : Int
  Name : String
  Types : List apiTypeSlot
  PastTypes : List apiPastType
  Abilities : List apiAbilitySlot := []
  Moves : List apiPokemonMove := []
  deriving DecidableEq, Repr

/-- One entry of `effect_entries` of a trait. -/
structure apiEffectEntry where
  Language : apiNamedResource
  ShortEffect : String
  deriving DecidableEq, Repr

/-- The raw trait record. -/
structure apiAbility where
  ID : Int
  Name : String
  EffectEntries : List apiEffectEntry
  deriving DecidableEq, Repr

/-- One entry of `encounter_details`. -/
structure apiEncounterDetail where
  Chance : Int
  MaxLevel : Int
  MinLevel : Int
  Method : apiNamedResource
  deriving DecidableEq, Repr

/-- One entry of `version_details` of an encounter area. -/
structure apiVersionDetail where
  EncounterDetails : List apiEncounterDetail
  MaxChance : Int
  Version : apiNamedResource
  deriving DecidableEq, Repr

/-- One entry of the encounter record of a creature: an area and its details per
release. -/
structure apiEncounterEntry where
  LocationArea : apiNamedResource
  VersionDetails : List apiVersionDetail
  deriving DecidableEq, Repr

/-- One entry of `past_values`; `Type` is a pointer in Go, `none` is nil. -/
structure apiPastValue where
  Type_ : Option apiNamedResource
  VersionGroup : apiNamedResource
  deriving DecidableEq, Repr

/-- The raw move record; `Power`, `Accuracy` and `PP` are pointers in Go. -/
structure apiMove where
  ID : Int
  Name : String
  Power : Option Int
  Accuracy : Option Int
  PP : Option Int
  DamageClass : apiNamedResource
  Type_ : apiNamedResource
  PastValues : List apiPastValue
  deriving DecidableEq, Repr

/-! ## Package `gen`: enum parsing -/

/-- The errors of package `gen`: those the enum parsers and `idFromURL` build
with `fmt.Errorf`, by the text they reject, the syntax and range errors of
`strconv.Atoi`, the failure of `readJSON` on a file, and an error wrapped by
`fmt.Errorf("<what> %d: %w", id, err)`. -/
inductive Error where
  | unknownGeneration (name : String)
  | unknownDamageClass (name : String)
  | unknownType (name : String)
  | invalidURL (url : String)
  | atoiSyntax (s : String)
  | atoiRange (s : String)
  | readJSON (path : String)
  | wrap (what : String) (id : Int) (err : Error)
  | context (what : String) (err : Error)
  deriving DecidableEq, Repr

/-- ParseGeneration converts "generation-i" to 1, "generation-ii" to 2,
"generation-iii" to 3 and returns an error for any other generation. The result
is the Go pair `(byte, error)`; `none` is a nil error. -/
def ParseGeneration (name : String) : Nat × Option Error :=
  match name with
  | "generation-i" => (1, none)
  | "generation-ii" => (2, none)
  | "generation-iii" => (3, none)
  | _ => (0, some (.unknownGeneration name))

/-- parseGenerationFull converts any generation name to its number (1-9); the
second component is the `ok` flag. -/
def parseGenerationFull (name : String) : Nat × Bool :=
  match name with
  | "generation-i" => (1, true)
  | "generation-ii" => (2, true)
  | "generation-iii" => (3, true)
  | "generation-iv" => (4, true)
  | "generation-v" => (5, true)
  | "generation-vi" => (6, true)
  | "generation-vii" => (7, true)
  | "generation-viii" => (8, true)
  | "generation-ix" => (9, true)
  | _ => (0, false)

/-- ParseDamageClass converts "physical" to 0, "special" to 1, "status" to 2.
The result is the Go pair `(byte, error)`; `none` is a nil error. -/
def ParseDamageClass (name : String) : Nat × Option Error :=
  match name with
  | "physical" => (0, none)
  | "special" => (1, none)
  | "status" => (2, none)
  | _ => (0, some (.unknownDamageClass name))

/-- ParsePokeType converts a type name string to its byte constant value.
The result is the Go pair `(byte, error)`; `none` is a nil error. -/
def ParsePokeType (name : String) : Nat × Option Error :=
  match name with
  | "normal" => (1, none)
  | "fire" => (2, none)
  | "water" => (3, none)
  | "grass" => (4, none)
  | "electric" => (5, none)
  | "ice" => (6, none)
  | "fighting" => (7, none)
  | "poison" => (8, none)
  | "ground" => (9, none)
  | "flying" => (10, none)
  | "psychic" => (11, none)
  | "bug" => (12, none)
  | "rock" => (13, none)
  | "ghost" => (14, none)
  | "dragon" => (15, none)
  | "dark" => (16, none)
  | "steel" => (17, none)
  | _ => (0, some (.unknownType name))

/-- parsePokeTypeLenient converts a type name to its byte constant and drops the
error of `ParsePokeType`. -/
def parsePokeTypeLenient (name : String) : Nat :=
  (ParsePokeType name).1

/-- prevGenForVersionGroup returns the generation just before this version
group. -/
def prevGenForVersionGroup (name : String) : Nat :=
  match name with
  | "red-blue" => 0
  | "yellow" => 0
  | "gold-silver" => 1
  | "crystal" => 1
  | "ruby-sapphire" => 2
  | "emerald" => 2
  | "firered-leafgreen" => 2
  | _ => 3

/-- typeConstant converts a byte type value to its Go constant name. -/
def typeConstant (t : Nat) : String :=
  let names : List String :=
    [ "TypeNone", "TypeNormal", "TypeFire", "TypeWater", "TypeGrass",
      "TypeElectric", "TypeIce", "TypeFighting", "TypePoison", "TypeGround",
      "TypeFlying", "TypePsychic", "TypeBug", "TypeRock", "TypeGhost",
      "TypeDragon", "TypeDark", "TypeSteel" ]
  if h : t < names.length then names[t] else "TypeNone"

/-- categoryConstant converts a byte category value to its Go constant name. -/
def categoryConstant (c : Nat) : String :=
  match c with
  | 0 => "CategoryPhysical"
  | 1 => "CategorySpecial"
  | 2 => "CategoryStatus"
  | _ => "CategoryPhysical"

/-- ParseVersionGroup maps a version group name to the list of GameVersion
constant names; the list is nil for version groups outside Gen 1-3, and the
error is always nil. -/
def ParseVersionGroup (name : String) : List String × Option Error :=
  match name with
  | "red-blue" => (["GameRed", "GameBlue"], none)
  | "yellow" => (["GameYellow"], none)
  | "gold-silver" => (["GameGold", "GameSilver"], none)
  | "crystal" => (["GameCrystal"], none)
  | "ruby-sapphire" => (["GameRuby", "GameSapphire"], none)
  | "emerald" => (["GameEmerald"], none)
  | "firered-leafgreen" => (["GameFireRed", "GameLeafGreen"], none)
  | _ => ([], none)

/-- versionNameToGameVersion converts an individual version name (as seen in
encounters) to its GameVersion constant name, the empty string for any other
name. -/
def versionNameToGameVersion (name : String) : String :=
  match name with
  | "red" => "GameRed"
  | "blue" => "GameBlue"
  | "yellow" => "GameYellow"
  | "gold" => "GameGold"
  | "silver" => "GameSilver"
  | "crystal" => "GameCrystal"
  | "ruby" => "GameRuby"
  | "sapphire" => "GameSapphire"
  | "emerald" => "GameEmerald"
  | "firered" => "GameFireRed"
  | "leafgreen" => "GameLeafGreen"
  | _ => ""

/-- encounterMethodConstant converts an encounter method name to its constant
name. -/
def encounterMethodConstant (name : String) : String :=
  match name with
  | "walk" => "EncounterWalk"
  | "grass" => "EncounterWalk"
  | "tall-grass" => "EncounterWalk"
  | "surf" => "EncounterSurf"
  | "water" => "EncounterSurf"
  | "old-rod" => "EncounterOldRod"
  | "good-rod" => "EncounterGoodRod"
  | "super-rod" => "EncounterSuperRod"
  | "rock-smash" => "EncounterRockSmash"
  | "headbutt" => "EncounterHeadbutt"
  | "headbutt-normal" => "EncounterHeadbutt"
  | "headbutt-special" => "EncounterHeadbutt"
  | _ => "EncounterWalk"

/-- learnMethodConstant maps a move_learn_method name to its Go constant. -/
def learnMethodConstant (name : String) : String :=
  match name with
  | "level-up" => "LearnLevelUp"
  | "machine" => "LearnMachine"
  | "tutor" => "LearnTutor"
  | "egg" => "LearnEgg"
  | _ => "LearnLevelUp"

/-! ## Package `gen`: identifier resolution

`idFromURL` calls three functions of the Go standard library, `strings.TrimRight`,
`strings.LastIndex` and `strconv.Atoi`; they are given here as their documentation
describes them. Text is a list of characters; the separator "/" is one byte, so
a position counted in characters cuts the same text as the byte position Go
uses. -/

/-- The size of the Go type `int` in bits, on the 64-bit platforms the program
is built for. -/
def intSize : Nat := 64

/-- The Go library function `strings.TrimRight(s, cutset)` for a cutset of one
character: `s` without its trailing run of that character. -/
def TrimRight (s : List Char) (c : Char) : List Char :=
  (s.reverse.dropWhile (fun ch => ch == c)).reverse

/-- The scan behind `LastIndex`: `i` is the position of the next character and
`last` the position of the last occurrence seen so far. -/
def LastIndex.scan (c : Char) : List Char → Nat → Int → Int
  | [], _, last => last
  | ch :: rest, i, last => LastIndex.scan c rest (i + 1) (if ch = c then (i : Int) else last)

/-- The Go library function `strings.LastIndex(s, substr)` for a substring of one
character: the position of its last occurrence in `s`, or -1. -/
def LastIndex (s : List Char) (c : Char) : Int :=
  LastIndex.scan c s 0 (-1)

/-- The digit loop of `strconv.Atoi`, `n = n*10 + int(ch - '0')`, started at `n`:
`none` when a character is not a decimal digit (a syntax error). -/
def Atoi.digits : Nat → List Char → Option Nat
  | n, [] => some n
  | n, ch :: rest =>
    if '0' ≤ ch ∧ ch ≤ '9' then Atoi.digits (n * 10 + (ch.toNat - '0'.toNat)) rest
    else none

/-- What `strconv.Atoi` does once the sign is read: `s` is the whole text, `neg`
tells whether the sign was `-`, `body` is the text after the sign. An empty body
or a character that is no digit is a syntax error, with value 0; a number
outside the range of `int` is a range error, with the nearest value of the
range. -/
def Atoi.body (s : String) (neg : Bool) (body : List Char) : Int × Option Error :=
  if body = [] then
    (0, some (.atoiSyntax s))
  else
    match Atoi.digits 0 body with
    | none => (0, some (.atoiSyntax s))
    | some n =>
      if neg then
        if n ≤ 2 ^ (intSize - 1) then (-(n : Int), none)
        else (-(2 ^ (intSize - 1) : Int), some (.atoiRange s))
      else
        if n < 2 ^ (intSize - 1) then ((n : Int), none)
        else ((2 ^ (intSize - 1) : Int) - 1, some (.atoiRange s))

/-- The Go library function `strconv.Atoi`: an optional sign `+` or `-`, then
one or more decimal digits. -/
def Atoi (s : String) : Int × Option Error :=
  match s.data with
  | '-' :: rest => Atoi.body s true rest
  | '+' :: rest => Atoi.body s false rest
  | cs => Atoi.body s false cs

/-- idFromURL extracts the numeric ID from a PokeAPI URL like
".../ability/65/". -/
def idFromURL (url : String) : Int × Option Error :=
  let url := TrimRight url.data '/'
  let idx := LastIndex url '/'
  if idx < 0 then
    (0, some (.invalidURL (String.mk url)))
  else
    Atoi (String.mk (url.drop (idx + 1).toNat))

/-! ## Package `gen`: compiled records -/

/-- MovePastTypeData records a move's past type for codegen. -/
structure MovePastTypeData where
  UntilGen : Nat
  TypeConst : String
  deriving DecidableEq, Repr

/-- MoveData is the parsed representation of a move. -/
structure MoveData where
  ID : Int
  Name : String
  Type_ : Nat
  Category : Nat
  Power : Nat
  Accuracy : Nat
  PP : Nat
  PastTypes : List MovePastTypeData
  deriving DecidableEq, Repr

/-- PastTypeData records a pokemon's past types for a generation. -/
structure PastTypeData where
  UntilGen : Nat
  Type1 : String
  Type2 : String
  deriving DecidableEq, Repr

/-- PokemonData: the fields of the parsed representation of a pokemon that the
type blocks of `BuildPokemon` fill, and its identity. -/
structure PokemonData where
  ID : Int
  Name : String
  Type1 : String
  Type2 : String
  PastTypes : List PastTypeData
  deriving DecidableEq, Repr

/-! ## Package `gen`: build functions -/

/-- The conversion `uint8(v)` of a Go `int`: the low 8 bits. -/
def toUint8 (v : Int) : Nat :=
  (v % 256).toNat

/-- The separator test of the Go library function `strings.Title`, on ASCII:
letters, digits and the underscore are not separators, every other ASCII rune
is. Runes above 0x7F, which the library classifies with Unicode tables, are
taken as non-separators here. -/
def isSeparator (r : Char) : Bool :=
  if r.toNat ≤ 0x7F then
    if '0' ≤ r ∧ r ≤ '9' then false
    else if 'a' ≤ r ∧ r ≤ 'z' then false
    else if 'A' ≤ r ∧ r ≤ 'Z' then false
    else if r = '_' then false
    else true
  else false

/-- The rune map of `strings.Title`: a rune that follows a separator is put in
title case (upper case, for the ASCII letters this models), `prev` being the
rune before. -/
def Title.map : Char → List Char → List Char
  | _, [] => []
  | prev, r :: rest => (if isSeparator prev then r.toUpper else r) :: Title.map r rest

/-- The Go library function `strings.Title` on ASCII text: the first letter of
every word in upper case. -/
def Title (s : String) : String :=
  String.mk (Title.map ' ' s.data)

/-- The past-values loop of `BuildMove`, run on the entries still to be visited;
`pastTypes` is the slice built so far. -/
def BuildMove.pastTypes : List apiPastValue → List MovePastTypeData → List MovePastTypeData
  | [], pastTypes => pastTypes
  | pv :: rest, pastTypes =>
    match pv.Type_ with
    | none => BuildMove.pastTypes rest pastTypes
    | some pvType =>
      let untilGen := prevGenForVersionGroup pv.VersionGroup.Name
      if untilGen = 0 then
        BuildMove.pastTypes rest pastTypes
      else
        match ParsePokeType pvType.Name with
        | (_, some _) => BuildMove.pastTypes rest pastTypes
        | (pastTypeByte, none) =>
          BuildMove.pastTypes rest
            (pastTypes ++ [{ UntilGen := untilGen, TypeConst := typeConstant pastTypeByte }])

/-- BuildMove on the record `readJSON` decoded from the move file. -/
def BuildMove (m : apiMove) : Except Error MoveData :=
  match ParsePokeType m.Type_.Name with
  | (_, some err) => .error err
  | (typeByte, none) =>
    match ParseDamageClass m.DamageClass.Name with
    | (_, some err) => .error err
    | (catByte, none) =>
      let power := match m.Power with
        | some v => toUint8 v
        | none => 0
      let accuracy := match m.Accuracy with
        | some v => toUint8 v
        | none => 0
      let pp := match m.PP with
        | some v => toUint8 v
        | none => 0
      let pastTypes := BuildMove.pastTypes m.PastValues []
      .ok { ID := m.ID
            Name := Title m.Name
            Type_ := typeByte
            Category := catByte
            Power := power
            Accuracy := accuracy
            PP := pp
            PastTypes := pastTypes }

/-- The slot loop that `BuildPokemon` runs over a `types` list, for the
canonical pair and for each past-types entry alike; the pair holds `type1` and
`type2` as assigned so far. -/
def BuildPokemon.typeSlots : List apiTypeSlot → String × String → String × String
  | [], types => types
  | t :: rest, (type1, type2) =>
    let tb := parsePokeTypeLenient t.Type_.Name
    if t.Slot = 1 then
      BuildPokemon.typeSlots rest (typeConstant tb, type2)
    else if t.Slot = 2 then
      BuildPokemon.typeSlots rest (type1, typeConstant tb)
    else
      BuildPokemon.typeSlots rest (type1, type2)

/-- The past-types loop of `BuildPokemon`, run on the entries still to be
visited; `pastTypes` is the slice built so far. -/
def BuildPokemon.pastTypes : List apiPastType → List PastTypeData → List PastTypeData
  | [], pastTypes => pastTypes
  | pt :: rest, pastTypes =>
    match parseGenerationFull pt.Generation.Name with
    | (_, false) => BuildPokemon.pastTypes rest pastTypes
    | (gen, true) =>
      let pts := BuildPokemon.typeSlots pt.Types ("TypeNone", "TypeNone")
      BuildPokemon.pastTypes rest
        (pastTypes ++ [{ UntilGen := gen, Type1 := pts.1, Type2 := pts.2 }])

/-- BuildPokemon on the record `readJSON` decoded from the pokemon file: the
canonical type pair and the past types. The later blocks of the Go function
(stats, abilities, moves, locations) read other fields of the record and write
other fields of the result. -/
def BuildPokemon (p : apiPokemon) : PokemonData :=
  let types := BuildPokemon.typeSlots p.Types ("TypeNone", "TypeNone")
  let pastTypes := BuildPokemon.pastTypes p.PastTypes []
  { ID := p.ID
    Name := p.Name
    Type1 := types.1
    Type2 := types.2
    PastTypes := pastTypes }

/-! ## Go maps

A Go map is a list of key-value pairs with distinct keys, in the order the keys
were first inserted. The order in which Go ranges over a map is unspecified; the
loops below only write, per key, a value computed from that key, so their
results do not depend on it. -/

/-- The value a map holds for a key, `none` when the key is absent. -/
def GoMap.lookup {κ ν : Type} [DecidableEq κ] : List (κ × ν) → κ → Option ν
  | [], _ => none
  | (k', v) :: rest, k => if k' = k then some v else GoMap.lookup rest k

/-- The assignment `m[k] = v`: the value of a present key is replaced, an absent
key is added. -/
def GoMap.insert {κ ν : Type} [DecidableEq κ] : List (κ × ν) → κ → ν → List (κ × ν)
  | [], k, v => [(k, v)]
  | (k', v') :: rest, k, v =>
    if k' = k then (k, v) :: rest else (k', v') :: GoMap.insert rest k v

/-- The index expression `m[k]` on a map of slices: the zero value, a nil slice,
for an absent key. -/
def GoMap.slice {κ ν : Type} [DecidableEq κ] (m : List (κ × List ν)) (k : κ) : List ν :=
  (GoMap.lookup m k).getD []

/-! ## Package `gen`: further compiled records -/

/-- AbilityData is the parsed representation of an ability. -/
structure AbilityData where
  ID : Int
  Name : String
  ShortDesc : String
  deriving DecidableEq, Repr

/-- VersionedMoveEntry is a move learned by a specific method in a version. -/
structure VersionedMoveEntry where
  GameVersion : String
  MoveID : Int
  Method : String
  LevelLearnedAt : Nat
  MachineNumber : Nat
  deriving DecidableEq, Repr

/-- LocationData records a single encounter for codegen. -/
structure LocationData where
  GameVersion : String
  EncounterMethod : String
  MinLevel : Nat
  MaxLevel : Nat
  Chance : Nat
  AreaName : String
  deriving DecidableEq, Repr

/-! ## Package `gen`: the further blocks of `BuildPokemon`

The abilities, moves and locations blocks of `BuildPokemon` read their own field
of the record and assign their own fields of the result; each is embedded as a
function of what it reads. -/

/-- The abilities loop of `BuildPokemon`, run on the entries still to be
visited; the pair holds `ab1` and `ab2` as assigned so far. -/
def BuildPokemon.abilities : List apiAbilitySlot → Int × Int → Int × Int
  | [], abs => abs
  | a :: rest, (ab1, ab2) =>
    if a.IsHidden then
      BuildPokemon.abilities rest (ab1, ab2)
    else
      match idFromURL a.Ability.URL with
      | (_, some _) => BuildPokemon.abilities rest (ab1, ab2)
      | (aid, none) =>
        if a.Slot = 1 then
          BuildPokemon.abilities rest (aid, ab2)
        else if a.Slot = 2 then
          BuildPokemon.abilities rest (ab1, aid)
        else
          BuildPokemon.abilities rest (ab1, ab2)

/-- The abilities block of `BuildPokemon`: `Ability1` and `Ability2` of the
result, both 0 before the loop. -/
def BuildPokemon.Abilities (p : apiPokemon) : Int × Int :=
  BuildPokemon.abilities p.Abilities (0, 0)

/-- The loop `for _, ver := range versions` of the moves block: one entry is
appended to the list of each release of the group. -/
def BuildPokemon.moves.versions (mid : Int) (method : String) (level : Int) :
    List String → List (String × List VersionedMoveEntry) →
      List (String × List VersionedMoveEntry)
  | [], versionedMoves => versionedMoves
  | ver :: rest, versionedMoves =>
    let entry : VersionedMoveEntry :=
      { GameVersion := ver
        MoveID := mid
        Method := method
        LevelLearnedAt := toUint8 level
        MachineNumber := 0 }
    BuildPokemon.moves.versions mid method level rest
      (GoMap.insert versionedMoves ver (GoMap.slice versionedMoves ver ++ [entry]))

/-- The loop `for _, vgd := range m.VersionGroupDetails` of the moves block. -/
def BuildPokemon.moves.details (mid : Int) :
    List apiVersionGroupDetail → List (String × List VersionedMoveEntry) →
      List (String × List VersionedMoveEntry)
  | [], versionedMoves => versionedMoves
  | vgd :: rest, versionedMoves =>
    let versions := (ParseVersionGroup vgd.VersionGroup.Name).1
    if versions = [] then
      BuildPokemon.moves.details mid rest versionedMoves
    else
      let method := learnMethodConstant vgd.MoveLearnMethod.Name
      BuildPokemon.moves.details mid rest
        (BuildPokemon.moves.versions mid method vgd.LevelLearnedAt versions versionedMoves)

/-- The loop `for _, m := range p.Moves` of the moves block: group by version. -/
def BuildPokemon.moves : List apiPokemonMove → List (String × List VersionedMoveEntry) →
    List (String × List VersionedMoveEntry)
  | [], versionedMoves => versionedMoves
  | m :: rest, versionedMoves =>
    match idFromURL m.Move.URL with
    | (_, some _) => BuildPokemon.moves rest versionedMoves
    | (mid, none) =>
      BuildPokemon.moves rest (BuildPokemon.moves.details mid m.VersionGroupDetails versionedMoves)

/-- The `less` function the moves block hands to `sort.Slice`: by level, then by
move ID. -/
def BuildPokemon.movesLess (a b : VersionedMoveEntry) : Bool :=
  if a.LevelLearnedAt ≠ b.LevelLearnedAt then
    decide (a.LevelLearnedAt < b.LevelLearnedAt)
  else
    decide (a.MoveID < b.MoveID)

/-- The moves block of `BuildPokemon`: the entries are grouped by version, then
the list of every version is sorted with `sortSlice`, which stands for the Go
library function `sort.Slice`. -/
def BuildPokemon.versionedMoves
    (sortSlice : (VersionedMoveEntry → VersionedMoveEntry → Bool) →
      List VersionedMoveEntry → List VersionedMoveEntry)
    (moves : List apiPokemonMove) : List (String × List VersionedMoveEntry) :=
  (BuildPokemon.moves moves []).map
    (fun kv => (kv.1, sortSlice BuildPokemon.movesLess kv.2))

/-- The loop `for _, ed := range vd.EncounterDetails` of the locations block. -/
def BuildPokemon.locations.details (areaName gameVer : String) :
    List apiEncounterDetail → List LocationData → List LocationData
  | [], locations => locations
  | ed :: rest, locations =>
    BuildPokemon.locations.details areaName gameVer rest
      (locations ++ [{ GameVersion := gameVer
                       EncounterMethod := encounterMethodConstant ed.Method.Name
                       MinLevel := toUint8 ed.MinLevel
                       MaxLevel := toUint8 ed.MaxLevel
                       Chance := toUint8 ed.Chance
                       AreaName := areaName }])

/-- The loop `for _, vd := range enc.VersionDetails` of the locations block. -/
def BuildPokemon.locations.versions (areaName : String) :
    List apiVersionDetail → List LocationData → List LocationData
  | [], locations => locations
  | vd :: rest, locations =>
    let gameVer := versionNameToGameVersion vd.Version.Name
    if gameVer = "" then
      BuildPokemon.locations.versions areaName rest locations
    else
      BuildPokemon.locations.versions areaName rest
        (BuildPokemon.locations.details areaName gameVer vd.EncounterDetails locations)

/-- The loop `for _, enc := range encounters` of the locations block. -/
def BuildPokemon.locations.areas : List apiEncounterEntry → List LocationData → List LocationData
  | [], locations => locations
  | enc :: rest, locations =>
    BuildPokemon.locations.areas rest
      (BuildPokemon.locations.versions enc.LocationArea.Name enc.VersionDetails locations)

/-- The locations block of `BuildPokemon`; `encounters` is what `readJSON`
returned for the encounter file, an error being treated as no encounters. -/
def BuildPokemon.locations (encounters : Except Error (List apiEncounterEntry)) :
    List LocationData :=
  match encounters with
  | .error _ => BuildPokemon.locations.areas [] []
  | .ok encounters => BuildPokemon.locations.areas encounters []

/-! ## The Go library function `sort.Slice`

`sort.Slice` is not guaranteed to be stable and its algorithm is not part of its
documentation; the moves block of `BuildPokemon` takes it as the parameter
`sortSlice`. On a slice of at most 12 elements the library runs the insertion
sort below. -/

/-- What the Go library documents of `sort.Slice`: the result is a rearrangement
of the slice, and when `less` is a transitive ordering (asymmetric, transitive,
and transitive on its negation) no element of the result is less than an element
before it. -/
def SortSliceContract {α : Type} (sortSlice : (α → α → Bool) → List α → List α) : Prop :=
  ∀ (less : α → α → Bool) (l : List α),
    (sortSlice less l).Perm l ∧
    ((∀ a b, less a b = true → less b a = false) →
      (∀ a b c, less a b = true → less b c = true → less a c = true) →
      (∀ a b c, less a b = false → less b c = false → less a c = false) →
      (sortSlice less l).Pairwise (fun a b => less b a = false))

/-- The inner loop of the library function `insertionSort_func`,
`for j := i; j > a && less(j, j-1); j-- { swap(j, j-1) }`: the element `x` moves
left past every element it is less than. The sorted elements to the left of `x`
are given nearest first, and so is the result, which holds `x`. -/
def insertionSort_func.shift {α : Type} (less : α → α → Bool) (x : α) : List α → List α
  | [] => [x]
  | y :: rest =>
    if less x y then y :: insertionSort_func.shift less x rest else x :: y :: rest

/-- The outer loop of `insertionSort_func`: the elements still to be visited, and
the sorted elements to their left, nearest first. -/
def insertionSort_func.run {α : Type} (less : α → α → Bool) : List α → List α → List α
  | [], sorted => sorted.reverse
  | x :: rest, sorted =>
    insertionSort_func.run less rest (insertionSort_func.shift less x sorted)

/-- The library function `insertionSort_func`, which is what `sort.Slice` runs on
a slice of at most 12 elements. -/
def insertionSort_func {α : Type} (less : α → α → Bool) (l : List α) : List α :=
  insertionSort_func.run less l []

/-! ## Package `gen`: traits and the collection passes

The files under the data directory are given by what `readJSON` returns for
them: `DataDir` holds, per identifier, the decoded document or the error. -/

/-- The loop of `BuildAbility` over the effect entries: the short effect of the
first entry in English, the empty string when there is none. -/
def BuildAbility.shortDesc : List apiEffectEntry → String
  | [] => ""
  | e :: rest =>
    if e.Language.Name = "en" then e.ShortEffect else BuildAbility.shortDesc rest

/-- BuildAbility on the record `readJSON` decoded from the ability file. -/
def BuildAbility (a : apiAbility) : AbilityData :=
  { ID := a.ID
    Name := a.Name
    ShortDesc := BuildAbility.shortDesc a.EffectEntries }

/-- The data directory: the result of `readJSON` on the file of each kind, by
identifier. -/
structure DataDir where
  pokemon : Int → Except Error apiPokemon
  encounters : Int → Except Error (List apiEncounterEntry)
  move : Int → Except Error apiMove
  ability : Int → Except Error apiAbility

/-- `BuildMove(path)` on the move file of an identifier: the error of `readJSON`,
or `BuildMove` on the decoded record. -/
def BuildMove.fromFile (dir : DataDir) (id : Int) : Except Error MoveData :=
  match dir.move id with
  | .error err => .error err
  | .ok m => BuildMove m

/-- `BuildAbility(path)` on the ability file of an identifier: the error of
`readJSON`, or `BuildAbility` on the decoded record. -/
def BuildAbility.fromFile (dir : DataDir) (id : Int) : Except Error AbilityData :=
  match dir.ability id with
  | .error err => .error err
  | .ok a => .ok (BuildAbility a)

/-- The loop `for _, m := range p.Moves` of the first pass of `CollectMoves`. -/
def CollectMoves.moveIDs : List apiPokemonMove → List (Int × Bool) →
    Except Error (List (Int × Bool))
  | [], moveIDs => .ok moveIDs
  | m :: rest, moveIDs =>
    match idFromURL m.Move.URL with
    | (_, some err) => .error err
    | (mid, none) => CollectMoves.moveIDs rest (GoMap.insert moveIDs mid true)

/-- The first pass of `CollectMoves`: collect move IDs from all pokemon files. -/
def CollectMoves.firstPass (dir : DataDir) : List Int → List (Int × Bool) →
    Except Error (List (Int × Bool))
  | [], moveIDs => .ok moveIDs
  | id :: rest, moveIDs =>
    match dir.pokemon id with
    | .error err => .error (.wrap "reading pokemon" id err)
    | .ok p =>
      match CollectMoves.moveIDs p.Moves moveIDs with
      | .error err => .error err
      | .ok moveIDs => CollectMoves.firstPass dir rest moveIDs

/-- The second pass of `CollectMoves`, `for id := range moveIDs`: a move that
does not build is skipped. -/
def CollectMoves.secondPass (dir : DataDir) : List (Int × Bool) → List (Int × MoveData) →
    List (Int × MoveData)
  | [], moves => moves
  | (id, _) :: rest, moves =>
    match BuildMove.fromFile dir id with
    | .error _ => CollectMoves.secondPass dir rest moves
    | .ok m => CollectMoves.secondPass dir rest (GoMap.insert moves id m)

/-- CollectMoves reads all move files referenced by Pokemon in the data
directory and returns a map from identifier to MoveData. -/
def CollectMoves (dir : DataDir) (pokemonIDs : List Int) : Except Error (List (Int × MoveData)) :=
  match CollectMoves.firstPass dir pokemonIDs [] with
  | .error err => .error err
  | .ok moveIDs => .ok (CollectMoves.secondPass dir moveIDs [])

/-- The loop `for _, a := range p.Abilities` of the first pass of
`CollectAbilities`. -/
def CollectAbilities.abilityIDs : List apiAbilitySlot → List (Int × Bool) →
    Except Error (List (Int × Bool))
  | [], abilityIDs => .ok abilityIDs
  | a :: rest, abilityIDs =>
    if a.IsHidden then
      CollectAbilities.abilityIDs rest abilityIDs
    else
      match idFromURL a.Ability.URL with
      | (_, some err) => .error err
      | (aid, none) => CollectAbilities.abilityIDs rest (GoMap.insert abilityIDs aid true)

/-- The first pass of `CollectAbilities`. -/
def CollectAbilities.firstPass (dir : DataDir) : List Int → List (Int × Bool) →
    Except Error (List (Int × Bool))
  | [], abilityIDs => .ok abilityIDs
  | id :: rest, abilityIDs =>
    match dir.pokemon id with
    | .error err => .error (.wrap "reading pokemon" id err)
    | .ok p =>
      match CollectAbilities.abilityIDs p.Abilities abilityIDs with
      | .error err => .error err
      | .ok abilityIDs => CollectAbilities.firstPass dir rest abilityIDs

/-- The second pass of `CollectAbilities`, `for id := range abilityIDs`: a trait
that does not build ends the pass with the wrapped error. -/
def CollectAbilities.secondPass (dir : DataDir) : List (Int × Bool) →
    List (Int × AbilityData) → Except Error (List (Int × AbilityData))
  | [], abilities => .ok abilities
  | (id, _) :: rest, abilities =>
    match BuildAbility.fromFile dir id with
    | .error err => .error (.wrap "building ability" id err)
    | .ok a => CollectAbilities.secondPass dir rest (GoMap.insert abilities id a)

/-- CollectAbilities reads all ability files referenced by Pokemon in the data
directory and returns a map from identifier to AbilityData. -/
def CollectAbilities (dir : DataDir) (pokemonIDs : List Int) :
    Except Error (List (Int × AbilityData)) :=
  match CollectAbilities.firstPass dir pokemonIDs [] with
  | .error err => .error err
  | .ok abilityIDs => CollectAbilities.secondPass dir abilityIDs []

/-! ## Package `gen`: the generated move table

`emitMoves` prints, through `movesTemplate`, one composite literal
`&Move{ID: .., Type: <constant name>, .., PastTypes: []MoveTypePast{..}}` per
compiled move into `moves_gen.go`, a file of package `data`. The definitions
below give the value such a literal denotes there. -/

/-- The value of the `PokeType` constant of package `data` with the given name
(the const block of types.go); `none` for any other identifier. -/
def pokeTypeOfConstant (name : String) : Option data.PokeType :=
  match name with
  | "TypeNone" => some data.TypeNone
  | "TypeNormal" => some data.TypeNormal
  | "TypeFire" => some data.TypeFire
  | "TypeWater" => some data.TypeWater
  | "TypeGrass" => some data.TypeGrass
  | "TypeElectric" => some data.TypeElectric
  | "TypeIce" => some data.TypeIce
  | "TypeFighting" => some data.TypeFighting
  | "TypePoison" => some data.TypePoison
  | "TypeGround" => some data.TypeGround
  | "TypeFlying" => some data.TypeFlying
  | "TypePsychic" => some data.TypePsychic
  | "TypeBug" => some data.TypeBug
  | "TypeRock" => some data.TypeRock
  | "TypeGhost" => some data.TypeGhost
  | "TypeDragon" => some data.TypeDragon
  | "TypeDark" => some data.TypeDark
  | "TypeSteel" => some data.TypeSteel
  | _ => none

/-- The value of the `MoveCategory` constant of package `data` with the given
name; `none` for any other identifier. -/
def moveCategoryOfConstant (name : String) : Option data.MoveCategory :=
  match name with
  | "CategoryPhysical" => some data.CategoryPhysical
  | "CategorySpecial" => some data.CategorySpecial
  | "CategoryStatus" => some data.CategoryStatus
  | _ => none

/-- The `MoveTypePast` denoted by the element `{UntilGen: .., Type: ..}` that
`movesTemplate` prints for one past type. -/
def movesTemplate.pastType (pt : MovePastTypeData) : Option data.MoveTypePast :=
  match pokeTypeOfConstant pt.TypeConst with
  | some t => some { UntilGen := pt.UntilGen, Type_ := t }
  | none => none

/-- The `Move` denoted by the literal that `emitMoves` and `movesTemplate` print
for one compiled move; `none` when the literal is not a `Move` (an identifier
outside `uint16`, a name that is no constant). -/
def movesTemplate.move (m : MoveData) : Option data.Move :=
  if 0 ≤ m.ID ∧ m.ID < 65536 then
    match pokeTypeOfConstant (typeConstant m.Type_),
          moveCategoryOfConstant (categoryConstant m.Category),
          m.PastTypes.mapM movesTemplate.pastType with
    | some t, some c, some pastTypes =>
      some { ID := m.ID.toNat
             Name := m.Name
             Type_ := t
             Category := c
             Power := m.Power
             Accuracy := m.Accuracy
             PP := m.PP
             PastTypes := pastTypes }
    | _, _, _ => none
  else
    none

/-- The value of the `GameVersion` constant of package `data` with the given
name (the const block of types.go); `none` for any other identifier. -/
def gameVersionOfConstant (name : String) : Option data.GameVersion :=
  match name with
  | "GameRed" => some data.GameRed
  | "GameBlue" => some data.GameBlue
  | "GameYellow" => some data.GameYellow
  | "GameGold" => some data.GameGold
  | "GameSilver" => some data.GameSilver
  | "GameCrystal" => some data.GameCrystal
  | "GameRuby" => some data.GameRuby
  | "GameSapphire" => some data.GameSapphire
  | "GameEmerald" => some data.GameEmerald
  | "GameFireRed" => some data.GameFireRed
  | "GameLeafGreen" => some data.GameLeafGreen
  | _ => none

/-! ## Package `gen`: the generated creature table

`emitPokemonDirect` prints one composite literal
`&Pokemon{ID: .., Types: [2]PokeType{<name>, <name>}, PastTypes: ..}` per
compiled creature into `pokemon_gen.go`, a file of package `data`. The
definitions below give the value such a literal denotes there, for the fields of
`Pokemon` embedded above. -/

/-- The `PokemonTypePast` denoted by the element
`{UntilGen: .., Types: [2]PokeType{.., ..}}` that `emitPokemonDirect` prints for
one past type. -/
def emitPokemonDirect.pastType (pt : PastTypeData) : Option data.PokemonTypePast :=
  match pokeTypeOfConstant pt.Type1, pokeTypeOfConstant pt.Type2 with
  | some t1, some t2 => some { UntilGen := pt.UntilGen, Types := (t1, t2) }
  | _, _ => none

/-- The `Pokemon` denoted by the literal that `emitPokemonDirect` prints for one
compiled creature; `none` when the literal is not a `Pokemon` (an identifier
outside `uint16`, a name that is no constant). -/
def emitPokemonDirect.pokemon (p : PokemonData) : Option data.Pokemon :=
  if 0 ≤ p.ID ∧ p.ID < 65536 then
    match pokeTypeOfConstant p.Type1, pokeTypeOfConstant p.Type2,
          p.PastTypes.mapM emitPokemonDirect.pastType with
    | some t1, some t2, some pastTypes =>
      some { ID := p.ID.toNat
             Name := p.Name
             Types := (t1, t2)
             PastTypes := pastTypes }
    | _, _, _ => none
  else
    none

end gen

/-! ## Package `data`: type names, encounter methods and the move table -/

namespace data

/-- The table typeNames, indexed by PokeType. -/
def typeNames : List String :=
  ["", "Normal", "Fire", "Water", "Grass", "Electric", "Ice",
   "Fighting", "Poison", "Ground", "Flying", "Psychic", "Bug",
   "Rock", "Ghost", "Dragon", "Dark", "Steel"]

/-- String returns the name of a type, `typeNames[t]`. The result is `none` when
the lookup is out of range (the table has 18 entries), which is a run-time fault
in Go. -/
def PokeType.String (t : PokeType) : Option String :=
  typeNames[t]?

/-- EncounterMethod fits in 3 bits, stored in a byte. -/
abbrev EncounterMethod := Nat

abbrev EncounterWalk : EncounterMethod := 0
abbrev EncounterSurf : EncounterMethod := 1
abbrev EncounterOldRod : EncounterMethod := 2
abbrev EncounterGoodRod : EncounterMethod := 3
abbrev EncounterSuperRod : EncounterMethod := 4
abbrev EncounterRockSmash : EncounterMethod := 5
abbrev EncounterHeadbutt : EncounterMethod := 6

/-- LearnMethod fits in 2 bits, stored in a byte. -/
abbrev LearnMethod := Nat

/-- LearnedMove references the global AllMoves table by MoveID. -/
structure LearnedMove where
  MoveID : MoveID
  Method : LearnMethod
  LevelLearnedAt : Nat
  MachineNumber : Nat
  deriving DecidableEq, Repr

/-- Move is a convenience helper for render time, `AllMoves[lm.MoveID]`. The
global table `AllMoves`, a slice of pointers indexed by MoveID, is given as a
list whose empty slots (nil pointers) are `none`; the nil slice is the empty
list. The result is `none` when the index is out of range, which is a run-time
fault in Go, and `some none` when the slot holds the nil pointer. -/
def LearnedMove.Move (AllMoves : List (Option Move)) (lm : LearnedMove) :
    Option (Option Move) :=
  AllMoves[lm.MoveID]?

end data

namespace gen

/-- The value of the `EncounterMethod` constant of package `data` with the given
name (the const block of types.go); `none` for any other identifier. -/
def encounterMethodOfConstant (name : String) : Option data.EncounterMethod :=
  match name with
  | "EncounterWalk" => some data.EncounterWalk
  | "EncounterSurf" => some data.EncounterSurf
  | "EncounterOldRod" => some data.EncounterOldRod
  | "EncounterGoodRod" => some data.EncounterGoodRod
  | "EncounterSuperRod" => some data.EncounterSuperRod
  | "EncounterRockSmash" => some data.EncounterRockSmash
  | "EncounterHeadbutt" => some data.EncounterHeadbutt
  | _ => none

/-! ## Package `gen`: the emitters and `Run`

The emitters hand a table to a template, which prints its entries in order; the
definitions below give that table. Writing the output files is taken to
succeed. -/

/-- The Go library function `sort.Ints`, given by its documented result: the
elements in increasing order. -/
def sortInts (l : List Int) : List Int :=
  l.insertionSort (fun a b => a ≤ b)

/-- The loop `for _, id := range ids` of the emitters that finds the largest
identifier, from `maxID := 0`. -/
def emitMoves.maxID : List Int → Int → Int
  | [], maxID => maxID
  | id :: rest, maxID => if id > maxID then emitMoves.maxID rest id else emitMoves.maxID rest maxID

/-- The identifiers `emitMoves` and `emitAbilities` go through: the keys of the
map, sorted with `sort.Ints`. -/
def emitMoves.ids {ν : Type} (table : List (Int × ν)) : List Int :=
  sortInts (table.map Prod.fst)

/-- One entry of the table `emitMoves` hands to `movesTemplate`. -/
structure moveTpl where
  ID : Int
  Name : String
  TypeConst : String
  CategoryConst : String
  Power : Nat
  Accuracy : Nat
  PP : Nat
  PastTypes : List MovePastTypeData
  deriving DecidableEq, Repr

/-- The entry `emitMoves` builds from the compiled move `m := moves[id]`. -/
def emitMoves.entry (m : MoveData) : moveTpl :=
  { ID := m.ID
    Name := m.Name
    TypeConst := typeConstant m.Type_
    CategoryConst := categoryConstant m.Category
    Power := m.Power
    Accuracy := m.Accuracy
    PP := m.PP
    PastTypes := m.PastTypes }

/-- The index expression `moves[id]` on the map of compiled moves: the zero
value for an absent key. -/
def emitMoves.at (moves : List (Int × MoveData)) (id : Int) : MoveData :=
  (GoMap.lookup moves id).getD
    { ID := 0, Name := "", Type_ := 0, Category := 0, Power := 0, Accuracy := 0, PP := 0
      PastTypes := [] }

/-- The table `emitMoves` hands to `movesTemplate`: `Size`, and the entries in
the order of the sorted identifiers. -/
def emitMoves (moves : List (Int × MoveData)) : Int × List moveTpl :=
  let ids := emitMoves.ids moves
  (emitMoves.maxID ids 0 + 10, ids.map (fun id => emitMoves.entry (emitMoves.at moves id)))

/-- The index expression `abilities[id]` on the map of compiled traits. -/
def emitAbilities.at (abilities : List (Int × AbilityData)) (id : Int) : AbilityData :=
  (GoMap.lookup abilities id).getD { ID := 0, Name := "", ShortDesc := "" }

/-- The table `emitAbilities` hands to `abilitiesTemplate`: `Size`, and the
compiled traits in the order of the sorted identifiers. -/
def emitAbilities (abilities : List (Int × AbilityData)) : Int × List AbilityData :=
  let ids := emitMoves.ids abilities
  (emitMoves.maxID ids 0 + 10, ids.map (emitAbilities.at abilities))

/-- `BuildPokemon(dataDir, id, abilities)` on the creature file of an
identifier: the error of `readJSON`, or the compiled record. The parameter
`abilities` is not read by the function. -/
def BuildPokemon.fromFile (dir : DataDir) (id : Int) : Except Error PokemonData :=
  match dir.pokemon id with
  | .error err => .error err
  | .ok p => .ok (BuildPokemon p)

/-- Config holds codegen parameters: the IDs to process, `none` for nil, which
means scan 1-386. The data directory is given by `DataDir` and by the result of
`os.Stat` on the creature files. -/
structure Config where
  PokemonIDs : Option (List Int)

/-- The default identifiers of `Run`: 1 to 386. -/
def Run.defaultIDs : List Int :=
  (List.range 386).map (fun (i : Nat) => (i : Int) + 1)

/-- The loop of `Run` that builds the creatures, in the order of `ids`. -/
def Run.allPokemon (dir : DataDir) : List Int → List PokemonData →
    Except Error (List PokemonData)
  | [], allPokemon => .ok allPokemon
  | id :: rest, allPokemon =>
    match BuildPokemon.fromFile dir id with
    | .error err => .error (.wrap "building pokemon" id err)
    | .ok pk => Run.allPokemon dir rest (allPokemon ++ [pk])

/-- The three tables `Run` emits: what `emitAbilities` and `emitMoves` hand to
their templates and the entries `emitPokemon` prints, in order. -/
structure Run.Output where
  abilities : Int × List AbilityData
  moves : Int × List moveTpl
  pokemon : List PokemonData

/-- Run executes the full codegen pipeline. `stat id` tells whether `os.Stat`
finds the creature file of `id`. -/
def Run (stat : Int → Bool) (dir : DataDir) (cfg : Config) : Except Error Run.Output :=
  let ids := match cfg.PokemonIDs with
    | none => Run.defaultIDs
    | some ids => ids
  let ids := ids.filter stat
  match CollectMoves dir ids with
  | .error err => .error (.context "collecting moves" err)
  | .ok moves =>
    match CollectAbilities dir ids with
    | .error err => .error (.context "collecting abilities" err)
    | .ok abilities =>
      match Run.allPokemon dir ids [] with
      | .error err => .error err
      | .ok allPokemon =>
        .ok { abilities := emitAbilities abilities
              moves := emitMoves moves
              pokemon := allPokemon }

end gen

/-! ## Package `search` (internal/search/fuzzy.go)

A Go string is a sequence of bytes; the strings here are valid UTF-8 and are
given by their characters, the bytes being the UTF-8 encoding of the characters.
The elements of the injected slice are taken non-nil. The library function
`strings.ToLower` is the parameter `toLower` of the functions that call it. -/

namespace search

/-- The bytes of the UTF-8 encoding of a rune. -/
def utf8Bytes (c : Char) : List Nat :=
  let v := c.toNat
  if v < 0x80 then [v]
  else if v < 0x800 then [0xC0 + v / 64, 0x80 + v % 64]
  else if v < 0x10000 then [0xE0 + v / 4096, 0x80 + v / 64 % 64, 0x80 + v % 64]
  else [0xF0 + v / 262144, 0x80 + v / 4096 % 64, 0x80 + v / 64 % 64, 0x80 + v % 64]

/-- The bytes of a string. -/
def bytes (s : String) : List Nat :=
  s.data.flatMap utf8Bytes

/-- The Go library function `strings.ToLower` on ASCII text: every letter in
lower case. -/
def ToLower (s : String) : String :=
  String.mk (s.data.map Char.toLower)

/-- The Go library function `strings.HasPrefix`: `s` begins with `prefix`, byte
for byte. -/
def HasPrefix (s pre : String) : Bool :=
  (bytes pre).isPrefixOf (bytes s)

/-- The search of `strings.Contains` for the bytes `substr`, from every position
of `s` on. -/
def Contains.scan (substr : List Nat) : List Nat → Bool
  | [] => substr.isPrefixOf []
  | b :: rest => substr.isPrefixOf (b :: rest) || Contains.scan substr rest

/-- The Go library function `strings.Contains`: `substr` is within `s`, byte for
byte. -/
def Contains (s substr : String) : Bool :=
  Contains.scan (bytes substr) (bytes s)

/-- Score tiers: an exact match. -/
def scoreExact : Int := 100

/-- Score tiers: the query is a prefix of the name. -/
def scorePrefix : Int := 80

/-- Score tiers: the name contains the query. -/
def scoreContains : Int := 60

/-- Score tiers: the query is a subsequence of the name. -/
def scoreSubseq : Int := 40

/-- Score tiers: no match. -/
def scoreNoMatch : Int := 0

/-- The loop `for _, c := range name` of `isSubsequence`, over the runes of the
name still to be visited: `qi` advances when it is below `len(query)` and the
byte `query[qi]`, converted to a rune, is the rune `c`. -/
def isSubsequence.loop (query : List Nat) : List Char → Nat → Nat
  | [], qi => qi
  | c :: rest, qi =>
    if qi < query.length ∧ query[qi]? = some c.toNat then
      isSubsequence.loop query rest (qi + 1)
    else
      isSubsequence.loop query rest qi

/-- isSubsequence returns true if query is a subsequence of name. -/
def isSubsequence (name query : String) : Bool :=
  decide (isSubsequence.loop (bytes query) name.data 0 = (bytes query).length)

/-- scoreMatch computes the match score for a single name against a query. Both
name and query must already be lowercased. -/
def scoreMatch (name query : String) : Int :=
  if name = query then scoreExact
  else if HasPrefix name query then scorePrefix
  else if Contains name query then scoreContains
  else if isSubsequence name query then scoreSubseq
  else scoreNoMatch

/-- The local type `scored` of `filterOver`: an entry, its score and its index
in the injected slice. -/
structure scored where
  p : data.Pokemon
  score : Int
  idx : Int
  deriving DecidableEq, Repr

/-- The loop `for i, p := range pokemon` of `filterOver`, over the entries still
to be visited; `i` is the index of the first of them and `found` the slice
`matches` built so far. -/
def filterOver.matches (toLower : String → String) (q : String) :
    List data.Pokemon → Int → List scored → List scored
  | [], _, found => found
  | p :: rest, i, found =>
    let name := toLower p.Name
    let s := scoreMatch name q
    if s > scoreNoMatch then
      filterOver.matches toLower q rest (i + 1) (found ++ [{ p := p, score := s, idx := i }])
    else
      filterOver.matches toLower q rest (i + 1) found

/-- The `less` function `filterOver` hands to `sort.SliceStable`: higher score
first; original index (dex order) as tiebreaker. -/
def filterOver.less (a b : scored) : Bool :=
  if a.score ≠ b.score then decide (a.score > b.score) else decide (a.idx < b.idx)

/-- The Go library function `sort.SliceStable`, given by its documented result:
the elements in the order of `less`, equal elements in their original order,
which is what the insertion sort computes. -/
def SliceStable {α : Type} (less : α → α → Bool) (l : List α) : List α :=
  gen.insertionSort_func less l

/-- filterOver is the pure, testable implementation. It accepts an injected
slice. -/
def filterOver (toLower : String → String) (pokemon : List data.Pokemon) (query : String) :
    List data.Pokemon :=
  if query = "" then
    pokemon
  else
    let q := toLower query
    let found := filterOver.matches toLower q pokemon 0 []
    (SliceStable filterOver.less found).map (fun m => m.p)

end search

/-! ## Package `tui` (internal/tui/detail.go) -/

namespace tui

/-- The test at the head of the loop of `renderMovesTab` over the moves of the
selected version, on which the entry is skipped:
`data.AllMoves == nil || int(lm.MoveID) >= len(data.AllMoves) ||
data.AllMoves[lm.MoveID] == nil`. The slot is read only when the first two
tests are false, so the test itself does not fault. -/
def renderMovesTab.skips (AllMoves : List (Option data.Move)) (lm : data.LearnedMove) : Bool :=
  AllMoves.isEmpty || decide (lm.MoveID ≥ AllMoves.length) ||
    (match AllMoves[lm.MoveID]? with
     | some (some _) => false
     | _ => true)

/-- The result of an addition or subtraction on Go `int`, which wraps around in
`intSize` bits. -/
def wrapInt (v : Int) : Int :=
  (v + 2 ^ (gen.intSize - 1)) % 2 ^ gen.intSize - 2 ^ (gen.intSize - 1)

/-- The three detail tabs, constants of the type `tabIndex`, a Go `int`. -/
abbrev tabStats : Int := 0
abbrev tabMoves : Int := 1
abbrev tabLocations : Int := 2

/-- DetailModel is the tabbed detail view for a single Pokémon. The pointer
`pokemon` is `none` for nil. -/
structure DetailModel where
  pokemon : Option data.Pokemon
  activeTab : Int
  selectedVersion : data.GameVersion
  moveScroll : Int
  locationScroll : Int
  width : Int
  height : Int
  deriving DecidableEq, Repr

/-- The key types of the library `bubbletea` that `DetailModel.Update` tells
apart; `other` stands for every other key type. -/
inductive KeyType where
  | KeyEsc
  | KeyTab
  | KeyShiftTab
  | KeyUp
  | KeyDown
  | KeyRunes
  | other
  deriving DecidableEq, Repr

/-- The messages `DetailModel.Update` tells apart: a window size, a key (its
type and its runes), and `other` for a message of any other type. -/
inductive Msg where
  | WindowSizeMsg (Width Height : Int)
  | KeyMsg (Type_ : KeyType) (Runes : List Char)
  | other
  deriving DecidableEq, Repr

/-- The commands `DetailModel.Update` returns besides nil: the function that
yields `switchToSearchMsg`. -/
inductive Cmd where
  | switchToSearch
  deriving DecidableEq, Repr

/-- NewDetailModel creates a detail screen for the given pokemon ID. The map
`data.ByID` is given as a function, `none` (the nil pointer) for an ID that is
not a key. -/
def NewDetailModel (ByID : Nat → Option data.Pokemon) (pokemonID : Nat) (width height : Int) :
    DetailModel :=
  { pokemon := ByID pokemonID
    activeTab := tabStats
    selectedVersion := data.GameRed
    moveScroll := 0
    locationScroll := 0
    width := width
    height := height }

/-- The case `tea.KeyRunes` of `DetailModel.Update`: the version keys 1-9 map
to GameVersion constants. -/
def DetailModel.Update.runes (m : DetailModel) (Runes : List Char) : DetailModel :=
  match Runes with
  | [r] =>
    if r.toNat ≥ 49 ∧ r.toNat ≤ 57 then
      let v : data.GameVersion := (r.toNat - 48) % 256
      if v ≤ data.GameLeafGreen then { m with selectedVersion := v } else m
    else m
  | _ => m

/-- Update of the detail view: the model and the command it returns, `none` for
the nil command. -/
def DetailModel.Update (m : DetailModel) (msg : Msg) : DetailModel × Option Cmd :=
  match msg with
  | .WindowSizeMsg Width Height => ({ m with width := Width, height := Height }, none)
  | .KeyMsg .KeyEsc _ => (m, some .switchToSearch)
  | .KeyMsg .KeyTab _ =>
    ({ m with activeTab := Int.tmod (wrapInt (m.activeTab + 1)) 3
              moveScroll := 0
              locationScroll := 0 }, none)
  | .KeyMsg .KeyShiftTab _ =>
    ({ m with activeTab := Int.tmod (wrapInt (m.activeTab + 2)) 3
              moveScroll := 0
              locationScroll := 0 }, none)
  | .KeyMsg .KeyUp _ =>
    if m.activeTab = tabMoves then
      if m.moveScroll > 0 then ({ m with moveScroll := wrapInt (m.moveScroll - 1) }, none)
      else (m, none)
    else if m.activeTab = tabLocations then
      if m.locationScroll > 0 then
        ({ m with locationScroll := wrapInt (m.locationScroll - 1) }, none)
      else (m, none)
    else (m, none)
  | .KeyMsg .KeyDown _ =>
    if m.activeTab = tabMoves then
      ({ m with moveScroll := wrapInt (m.moveScroll + 1) }, none)
    else if m.activeTab = tabLocations then
      ({ m with locationScroll := wrapInt (m.locationScroll + 1) }, none)
    else (m, none)
  | .KeyMsg .KeyRunes Runes => (DetailModel.Update.runes m Runes, none)
  | .KeyMsg .other _ => (m, none)
  | .other => (m, none)

/-- The model after a sequence of messages, each handled by `Update`: every
model the program can reach is `run` of a model `NewDetailModel` creates. -/
def DetailModel.run (m : DetailModel) (msgs : List Msg) : DetailModel :=
  msgs.foldl (fun m msg => (m.Update msg).1) m

end tui

/-! ## The overlay of one past value, as the specification words it -/

namespace spec

open gen

/-- Written from the specification, for comparison with the past-values loop of
`BuildMove`: what one past value contributes. It is the one overlay
`{UntilGen = prevGenForVersionGroup(group), type}` when the past value has a
type present, the type name is recognised and `prevGenForVersionGroup(group)` is
not 0, and nothing otherwise. -/
def moveOverlay (pv : apiPastValue) : Option MovePastTypeData :=
  match pv.Type_ with
  | none => none
  | some pvType =>
    if (ParsePokeType pvType.Name).2 = none ∧
        prevGenForVersionGroup pv.VersionGroup.Name ≠ 0 then
      some { UntilGen := prevGenForVersionGroup pv.VersionGroup.Name
             TypeConst := typeConstant (ParsePokeType pvType.Name).1 }
    else
      none

/-- Written from the specification, for comparison with the abilities loop of
`BuildPokemon`: the identifier of the last entry, in source order, that is not
hidden, declares the given slot and has a parseable locator; `none` when there
is no such entry. -/
def abilityOfSlot (abilities : List apiAbilitySlot) (slot : Int) : Option Int :=
  (abilities.filter (fun a =>
      !a.IsHidden && decide (a.Slot = slot) && (idFromURL a.Ability.URL).2.isNone)).getLast?.map
    (fun a => (idFromURL a.Ability.URL).1)

/-- Written from the specification, for comparison with the slot loop of
`BuildPokemon`: the constant of the lenient-parsed type of the entry that
declares the given slot (the last one, should several declare it); `none` when
no entry declares the slot. -/
def typeOfSlot (types : List apiTypeSlot) (slot : Int) : Option String :=
  (types.filter (fun t => decide (t.Slot = slot))).getLast?.map
    (fun t => typeConstant (parsePokeTypeLenient t.Type_.Name))

/-- Written from the specification: the (move, version-group detail) pairs of a
moves list, in source order. -/
def movePairs (moves : List apiPokemonMove) : List (apiNamedResource × apiVersionGroupDetail) :=
  moves.flatMap (fun m => m.VersionGroupDetails.map (fun d => (m.Move, d)))

/-- Written from the specification: the acquisition entry of a (move,
version-group detail) pair for a release, carrying the identifier of the move,
the folded learn method and the level of the detail (as stored in 8 bits). -/
def entryOf (ver : String) (pair : apiNamedResource × apiVersionGroupDetail) :
    VersionedMoveEntry :=
  { GameVersion := ver
    MoveID := (idFromURL pair.1.URL).1
    Method := learnMethodConstant pair.2.MoveLearnMethod.Name
    LevelLearnedAt := toUint8 pair.2.LevelLearnedAt
    MachineNumber := 0 }

/-- Written from the specification, with the condition on the locator that the
code adds: one entry for each (move, version-group detail) pair whose move has a
parseable locator and whose release group expands under `ParseVersionGroup` to a
list containing the release, in source order. -/
def entriesFor (ver : String) (moves : List apiPokemonMove) : List VersionedMoveEntry :=
  ((movePairs moves).filter (fun pair =>
      (idFromURL pair.1.URL).2.isNone &&
        decide (ver ∈ (ParseVersionGroup pair.2.VersionGroup.Name).1))).map (entryOf ver)

/-- Written from the specification: the identifiers of the moves referenced by
the creatures of the working set whose file is readable, in source order. -/
def referencedMoves (dir : DataDir) (pokemonIDs : List Int) : List Int :=
  pokemonIDs.flatMap (fun pid =>
    match dir.pokemon pid with
    | .ok p => p.Moves.map (fun m => (idFromURL m.Move.URL).1)
    | .error _ => [])

/-- Written from the specification: the identifiers of the traits that are not
hidden and are referenced by the creatures of the working set whose file is
readable, in source order. -/
def referencedAbilities (dir : DataDir) (pokemonIDs : List Int) : List Int :=
  pokemonIDs.flatMap (fun pid =>
    match dir.pokemon pid with
    | .ok p => (p.Abilities.filter (fun a => !a.IsHidden)).map
        (fun a => (idFromURL a.Ability.URL).1)
    | .error _ => [])

/-- Written from the specification, for comparison with the loop of
`BuildAbility`: the short effect of the first effect entry, in source order,
tagged with the language "en", and the empty string when there is none. -/
def shortDescOf (entries : List apiEffectEntry) : String :=
  ((entries.find? (fun e => decide (e.Language.Name = "en"))).map
    (fun e => e.ShortEffect)).getD ""

/-- Written from the claim: `query` is a subsequence of `name`, its characters
occur in `name` in order. -/
def isSubseq : List Char → List Char → Bool
  | [], _ => true
  | _ :: _, [] => false
  | q :: qs, c :: cs => if q = c then isSubseq qs cs else isSubseq (q :: qs) cs

/-- Written from the claim: `query` occurs within `name` as a run of consecutive
characters. -/
def isInfix (query : List Char) : List Char → Bool
  | [] => query.isPrefixOf []
  | c :: cs => query.isPrefixOf (c :: cs) || isInfix query cs

/-- Written from the claim: the score of a lower-cased name against a
lower-cased query: exact 100, prefix 80, contains 60, subsequence 40, and 0 for
no match. -/
def score (name query : String) : Int :=
  if name = query then 100
  else if query.data.isPrefixOf name.data then 80
  else if isInfix query.data name.data then 60
  else if isSubseq query.data name.data then 40
  else 0

/-- Written from the claim, for comparison with `filterOver`: for the empty
query the input list; otherwise the entries whose lower-cased name scores above
0 against the lower-cased query, ordered by score descending with ties kept in
the order of the list, which is the entries of score 100, then those of score
80, of score 60 and of score 40, each group in the order of the list. -/
def filterReference (toLower : String → String) (pokemon : List data.Pokemon)
    (query : String) : List data.Pokemon :=
  if query = "" then pokemon
  else
    [100, 80, 60, 40].flatMap (fun tier =>
      pokemon.filter (fun p => decide (score (toLower p.Name) (toLower query) = tier)))

end spec

/-! ## Concrete records

Records of the repository's tests and of the source dataset, on which the
theorems below are instantiated. -/

namespace sample

open data gen

/-- Bite as compiled: Dark today, Normal through generation 1
(`TestMoveTypeForGen_ChangedMove`). -/
def bite : Move :=
  { ID := 44, Name := "Bite", Type_ := TypeDark, Category := CategoryPhysical
    Power := 60, Accuracy := 100, PP := 25
    PastTypes := [{ UntilGen := 1, Type_ := TypeNormal }] }

/-- Magnemite as compiled: Electric/Steel today, Electric alone through
generation 1 (`TestPokemonTypesForGen_Changed`). -/
def magnemite : Pokemon :=
  { ID := 81, Name := "magnemite", Types := (TypeElectric, TypeSteel)
    PastTypes := [{ UntilGen := 1, Types := (TypeElectric, TypeNone) }] }

/-- A move with two overlays stored in ascending order: Normal through
generation 1, Ghost through generation 2, Dark today. -/
def twoOverlayMove : Move :=
  { ID := 900, Name := "Two", Type_ := TypeDark, Category := CategoryPhysical
    Power := 60, Accuracy := 100, PP := 25
    PastTypes := [{ UntilGen := 1, Type_ := TypeNormal }, { UntilGen := 2, Type_ := TypeGhost }] }

/-- A creature with two overlays stored in ascending order. -/
def twoOverlayPokemon : Pokemon :=
  { ID := 901, Name := "two", Types := (TypeElectric, TypeSteel)
    PastTypes := [{ UntilGen := 1, Types := (TypeElectric, TypeNone) },
                  { UntilGen := 5, Types := (TypeNormal, TypeNone) }] }

/-- Tackle: Normal, Physical, no overlay (`TestMoveTypeForGen_StableMove`,
`TestMoveCategoryForGen_Gen1TypeBased`). -/
def tackle : Move :=
  { ID := 33, Name := "Tackle", Type_ := TypeNormal, Category := CategoryPhysical
    Power := 40, Accuracy := 100, PP := 35, PastTypes := [] }

/-- Surf: Water, Special, no overlay (`TestMoveCategoryForGen_Gen3PerMove`). -/
def surf : Move :=
  { ID := 57, Name := "Surf", Type_ := TypeWater, Category := CategorySpecial
    Power := 90, Accuracy := 100, PP := 15, PastTypes := [] }

/-- Growl: Normal, Status, no overlay
(`TestMoveCategoryForGen_StatusAlwaysStatus`). -/
def growl : Move :=
  { ID := 45, Name := "Growl", Type_ := TypeNormal, Category := CategoryStatus
    Power := 0, Accuracy := 100, PP := 40, PastTypes := [] }

/-- Fire Punch: Fire, stored category Physical, no overlay. -/
def firePunch : Move :=
  { ID := 7, Name := "Fire-Punch", Type_ := TypeFire, Category := CategoryPhysical
    Power := 75, Accuracy := 100, PP := 15, PastTypes := [] }

/-- Ember: Fire, stored category Special, no overlay. -/
def ember : Move :=
  { ID := 52, Name := "Ember", Type_ := TypeFire, Category := CategorySpecial
    Power := 40, Accuracy := 100, PP := 25, PastTypes := [] }

/-- Bulbasaur: Grass/Poison, no overlay (`TestPokemonTypesForGen_Stable`). -/
def bulbasaur : Pokemon :=
  { ID := 1, Name := "bulbasaur", Types := (TypeGrass, TypePoison), PastTypes := [] }

/-- The raw record of Bite (testdata move 44, `TestBuildMove_WithPastType`):
Dark, physical, one past value `{type normal, group gold-silver}`. -/
def biteRaw : apiMove :=
  { ID := 44, Name := "bite", Power := some 60, Accuracy := some 100, PP := some 25
    DamageClass := { Name := "physical", URL := "https://pokeapi.co/api/v2/move-damage-class/2/" }
    Type_ := { Name := "dark", URL := "https://pokeapi.co/api/v2/type/17/" }
    PastValues :=
      [{ Type_ := some { Name := "normal", URL := "https://pokeapi.co/api/v2/type/1/" }
         VersionGroup :=
           { Name := "gold-silver", URL := "https://pokeapi.co/api/v2/version-group/3/" } }] }

/-- What `BuildMove` returns for `biteRaw`. -/
def biteData : MoveData :=
  { ID := 44, Name := "Bite", Type_ := 16, Category := 0, Power := 60, Accuracy := 100, PP := 25
    PastTypes := [{ UntilGen := 1, TypeConst := "TypeNormal" }] }

/-- A raw move record whose two past values are listed latest change first: a
type held until a change in diamond-pearl, then a type held until a change in
gold-silver. -/
def descendingMoveRaw : apiMove :=
  { ID := 900, Name := "sample", Power := some 60, Accuracy := some 100, PP := some 25
    DamageClass := { Name := "physical", URL := "" }
    Type_ := { Name := "dark", URL := "" }
    PastValues :=
      [{ Type_ := some { Name := "ghost", URL := "" }
         VersionGroup := { Name := "diamond-pearl", URL := "" } },
       { Type_ := some { Name := "normal", URL := "" }
         VersionGroup := { Name := "gold-silver", URL := "" } }] }

/-- The record `descendingMoveRaw` with its past values listed earliest change
first. -/
def ascendingMoveRaw : apiMove :=
  { ID := 900, Name := "sample", Power := some 60, Accuracy := some 100, PP := some 25
    DamageClass := { Name := "physical", URL := "" }
    Type_ := { Name := "dark", URL := "" }
    PastValues :=
      [{ Type_ := some { Name := "normal", URL := "" }
         VersionGroup := { Name := "gold-silver", URL := "" } },
       { Type_ := some { Name := "ghost", URL := "" }
         VersionGroup := { Name := "diamond-pearl", URL := "" } }] }

/-- A raw creature record whose two past-types entries are listed latest
generation first. -/
def descendingPokemonRaw : apiPokemon :=
  { ID := 901, Name := "sample"
    Types := [{ Slot := 1, Type_ := { Name := "electric", URL := "" } },
              { Slot := 2, Type_ := { Name := "steel", URL := "" } }]
    PastTypes :=
      [{ Generation := { Name := "generation-v", URL := "" }
         Types := [{ Slot := 1, Type_ := { Name := "normal", URL := "" } }] },
       { Generation := { Name := "generation-i", URL := "" }
         Types := [{ Slot := 1, Type_ := { Name := "electric", URL := "" } }] }] }

/-- The record `descendingPokemonRaw` with its past-types entries listed
earliest generation first. -/
def ascendingPokemonRaw : apiPokemon :=
  { ID := 901, Name := "sample"
    Types := [{ Slot := 1, Type_ := { Name := "electric", URL := "" } },
              { Slot := 2, Type_ := { Name := "steel", URL := "" } }]
    PastTypes :=
      [{ Generation := { Name := "generation-i", URL := "" }
         Types := [{ Slot := 1, Type_ := { Name := "electric", URL := "" } }] },
       { Generation := { Name := "generation-v", URL := "" }
         Types := [{ Slot := 1, Type_ := { Name := "normal", URL := "" } }] }] }

/-- What `BuildMove` returns for `descendingMoveRaw`. -/
def descendingMoveData : MoveData :=
  { ID := 900, Name := "Sample", Type_ := 16, Category := 0, Power := 60, Accuracy := 100
    PP := 25
    PastTypes := [{ UntilGen := 3, TypeConst := "TypeGhost" },
                  { UntilGen := 1, TypeConst := "TypeNormal" }] }

/-- The raw record of Magnemite (testdata pokemon 81,
`TestBuildPokemon_PastTypes`): Electric/Steel, one past-types entry tagged
generation-i that lists Electric alone. -/
def magnemiteRaw : apiPokemon :=
  { ID := 81, Name := "magnemite"
    Types := [{ Slot := 1, Type_ := { Name := "electric",
                                      URL := "https://pokeapi.co/api/v2/type/13/" } },
              { Slot := 2, Type_ := { Name := "steel",
                                      URL := "https://pokeapi.co/api/v2/type/9/" } }]
    PastTypes :=
      [{ Generation := { Name := "generation-i",
                         URL := "https://pokeapi.co/api/v2/generation/1/" }
         Types := [{ Slot := 1, Type_ := { Name := "electric",
                                           URL := "https://pokeapi.co/api/v2/type/13/" } }] }] }

/-- The raw record of Clefairy: Fairy today, one past-types entry tagged
generation-v that lists Normal alone. -/
def clefairyRaw : apiPokemon :=
  { ID := 35, Name := "clefairy"
    Types := [{ Slot := 1, Type_ := { Name := "fairy",
                                      URL := "https://pokeapi.co/api/v2/type/18/" } }]
    PastTypes :=
      [{ Generation := { Name := "generation-v",
                         URL := "https://pokeapi.co/api/v2/generation/5/" }
         Types := [{ Slot := 1, Type_ := { Name := "normal",
                                           URL := "https://pokeapi.co/api/v2/type/1/" } }] }] }

/-- A raw move record with one past value per kind: a change in red-blue, a
change in yellow, a change in gold-silver, a past value without a type, and a
change in a release group after generation 3. -/
def mixedMoveRaw : apiMove :=
  { ID := 902, Name := "sample", Power := none, Accuracy := some 100, PP := some 300
    DamageClass := { Name := "special", URL := "" }
    Type_ := { Name := "water", URL := "" }
    PastValues :=
      [{ Type_ := some { Name := "normal", URL := "" }
         VersionGroup := { Name := "red-blue", URL := "" } },
       { Type_ := some { Name := "fire", URL := "" }
         VersionGroup := { Name := "yellow", URL := "" } },
       { Type_ := some { Name := "ice", URL := "" }
         VersionGroup := { Name := "gold-silver", URL := "" } },
       { Type_ := none
         VersionGroup := { Name := "ruby-sapphire", URL := "" } },
       { Type_ := some { Name := "ghost", URL := "" }
         VersionGroup := { Name := "sword-shield", URL := "" } }] }

/-- What `BuildMove` returns for `mixedMoveRaw`. -/
def mixedMoveData : MoveData :=
  { ID := 902, Name := "Sample", Type_ := 3, Category := 1, Power := 0, Accuracy := 100
    PP := 44
    PastTypes := [{ UntilGen := 1, TypeConst := "TypeIce" },
                  { UntilGen := 3, TypeConst := "TypeGhost" }] }

/-- The abilities of Bulbasaur (testdata pokemon 1,
`TestBuildPokemon_Abilities`): Overgrow in slot 1, Chlorophyll hidden in
slot 3. -/
def bulbasaurRaw : apiPokemon :=
  { ID := 1, Name := "bulbasaur"
    Types := [{ Slot := 1, Type_ := { Name := "grass", URL := "https://pokeapi.co/api/v2/type/12/" } },
              { Slot := 2, Type_ := { Name := "poison", URL := "https://pokeapi.co/api/v2/type/4/" } }]
    PastTypes := []
    Abilities :=
      [{ Slot := 1, IsHidden := false
         Ability := { Name := "overgrow", URL := "https://pokeapi.co/api/v2/ability/65/" } },
       { Slot := 3, IsHidden := true
         Ability := { Name := "chlorophyll", URL := "https://pokeapi.co/api/v2/ability/34/" } }] }

/-- A creature record with two traits that are not hidden, in slots 1 and 2, a
hidden trait that declares slot 1, and an earlier trait in slot 1. -/
def threeAbilitiesRaw : apiPokemon :=
  { ID := 903, Name := "sample", Types := [], PastTypes := []
    Abilities :=
      [{ Slot := 1, IsHidden := false, Ability := { Name := "a", URL := "x/ability/7/" } },
       { Slot := 1, IsHidden := false, Ability := { Name := "b", URL := "x/ability/11/" } },
       { Slot := 2, IsHidden := false, Ability := { Name := "c", URL := "x/ability/12/" } },
       { Slot := 1, IsHidden := true, Ability := { Name := "d", URL := "x/ability/13/" } }] }

/-- An encounter record with one area and four per-release details: two
in-scope releases, a release of a later era, and an in-scope release with a
level outside 8 bits. -/
def encountersRaw : List apiEncounterEntry :=
  [{ LocationArea := { Name := "viridian-forest-area", URL := "" }
     VersionDetails :=
       [{ MaxChance := 10, Version := { Name := "red", URL := "" }
          EncounterDetails :=
            [{ Chance := 5, MaxLevel := 5, MinLevel := 3, Method := { Name := "walk", URL := "" } },
             { Chance := 5, MaxLevel := 7, MinLevel := 4,
               Method := { Name := "old-rod", URL := "" } }] },
        { MaxChance := 4, Version := { Name := "diamond", URL := "" }
          EncounterDetails :=
            [{ Chance := 4, MaxLevel := 9, MinLevel := 8,
               Method := { Name := "walk", URL := "" } }] },
        { MaxChance := 1, Version := { Name := "leafgreen", URL := "" }
          EncounterDetails :=
            [{ Chance := 1, MaxLevel := 300, MinLevel := 6,
               Method := { Name := "pokeflute", URL := "" } }] }] }]

/-- A creature record with four moves learned in red-blue, listed out of order:
Growl and Tackle at level 1, Leech Seed at level 7, Toxic by machine (level 0);
Tackle is learned in gold-silver and in a later release group too. -/
def learnsetRaw : apiPokemon :=
  { ID := 904, Name := "sample", Types := [], PastTypes := []
    Moves :=
      [{ Move := { Name := "growl", URL := "https://pokeapi.co/api/v2/move/45/" }
         VersionGroupDetails :=
           [{ LevelLearnedAt := 1, MoveLearnMethod := { Name := "level-up", URL := "" }
              VersionGroup := { Name := "red-blue", URL := "" } }] },
       { Move := { Name := "leech-seed", URL := "https://pokeapi.co/api/v2/move/73/" }
         VersionGroupDetails :=
           [{ LevelLearnedAt := 7, MoveLearnMethod := { Name := "level-up", URL := "" }
              VersionGroup := { Name := "red-blue", URL := "" } }] },
       { Move := { Name := "tackle", URL := "https://pokeapi.co/api/v2/move/33/" }
         VersionGroupDetails :=
           [{ LevelLearnedAt := 1, MoveLearnMethod := { Name := "level-up", URL := "" }
              VersionGroup := { Name := "red-blue", URL := "" } },
            { LevelLearnedAt := 1, MoveLearnMethod := { Name := "level-up", URL := "" }
              VersionGroup := { Name := "gold-silver", URL := "" } },
            { LevelLearnedAt := 1, MoveLearnMethod := { Name := "level-up", URL := "" }
              VersionGroup := { Name := "diamond-pearl", URL := "" } }] },
       { Move := { Name := "toxic", URL := "https://pokeapi.co/api/v2/move/92/" }
         VersionGroupDetails :=
           [{ LevelLearnedAt := 0, MoveLearnMethod := { Name := "machine", URL := "" }
              VersionGroup := { Name := "red-blue", URL := "" } }] }] }

/-- A creature record whose one move is learned in gold-silver both by machine
and as an egg move, the machine detail listed first; both details have
level 0. -/
def machineFirstRaw : apiPokemon :=
  { ID := 905, Name := "sample", Types := [], PastTypes := []
    Moves :=
      [{ Move := { Name := "curse", URL := "https://pokeapi.co/api/v2/move/174/" }
         VersionGroupDetails :=
           [{ LevelLearnedAt := 0, MoveLearnMethod := { Name := "machine", URL := "" }
              VersionGroup := { Name := "gold-silver", URL := "" } },
            { LevelLearnedAt := 0, MoveLearnMethod := { Name := "egg", URL := "" }
              VersionGroup := { Name := "gold-silver", URL := "" } }] }] }

/-- The record `machineFirstRaw` with the two details of its move in the other
order. -/
def eggFirstRaw : apiPokemon :=
  { ID := 905, Name := "sample", Types := [], PastTypes := []
    Moves :=
      [{ Move := { Name := "curse", URL := "https://pokeapi.co/api/v2/move/174/" }
         VersionGroupDetails :=
           [{ LevelLearnedAt := 0, MoveLearnMethod := { Name := "egg", URL := "" }
              VersionGroup := { Name := "gold-silver", URL := "" } },
            { LevelLearnedAt := 0, MoveLearnMethod := { Name := "machine", URL := "" }
              VersionGroup := { Name := "gold-silver", URL := "" } }] }] }

/-- A creature record whose one move has a locator without a number, and one
detail in red-blue. -/
def moveWithoutNumberRaw : apiPokemon :=
  { ID := 906, Name := "sample", Types := [], PastTypes := []
    Moves :=
      [{ Move := { Name := "pound", URL := "https://pokeapi.co/api/v2/move/pound/" }
         VersionGroupDetails :=
           [{ LevelLearnedAt := 1, MoveLearnMethod := { Name := "level-up", URL := "" }
              VersionGroup := { Name := "red-blue", URL := "" } }] }] }

/-- A move record with an element type of a later era, which fails strict
parsing. -/
def fairyWindRaw : apiMove :=
  { ID := 584, Name := "fairy-wind", Power := some 40, Accuracy := some 100, PP := some 30
    DamageClass := { Name := "special", URL := "https://pokeapi.co/api/v2/move-damage-class/3/" }
    Type_ := { Name := "fairy", URL := "https://pokeapi.co/api/v2/type/18/" }
    PastValues := [] }

/-- A creature record that references two moves, Bite and a move of a later
era, and three traits: two that are not hidden and a hidden one. -/
def clefairyRefsRaw : apiPokemon :=
  { ID := 35, Name := "clefairy", Types := [], PastTypes := []
    Abilities :=
      [{ Slot := 1, IsHidden := false
         Ability := { Name := "cute-charm", URL := "https://pokeapi.co/api/v2/ability/56/" } },
       { Slot := 2, IsHidden := false
         Ability := { Name := "magic-guard", URL := "https://pokeapi.co/api/v2/ability/98/" } },
       { Slot := 3, IsHidden := true
         Ability := { Name := "friend-guard", URL := "https://pokeapi.co/api/v2/ability/132/" } }]
    Moves :=
      [{ Move := { Name := "bite", URL := "https://pokeapi.co/api/v2/move/44/" }
         VersionGroupDetails := [] },
       { Move := { Name := "fairy-wind", URL := "https://pokeapi.co/api/v2/move/584/" }
         VersionGroupDetails := [] }] }

/-- The trait record of Overgrow (testdata ability 65, `TestBuildAbility_English`),
with its description in French before the one in English. -/
def overgrowRaw : apiAbility :=
  { ID := 65, Name := "overgrow"
    EffectEntries :=
      [{ Language := { Name := "fr", URL := "" }
         ShortEffect := "Renforce les capacités de type Plante." },
       { Language := { Name := "en", URL := "" }
         ShortEffect := "Strengthens grass moves." }] }

/-- The trait record of Cute Charm. -/
def cuteCharmRaw : apiAbility :=
  { ID := 56, Name := "cute-charm"
    EffectEntries :=
      [{ Language := { Name := "en", URL := "" }
         ShortEffect := "Has a chance of infatuating attacking Pokemon on contact." }] }

/-- A data directory with the creature files 1 and 35, the move files 44 and 584
and the trait files 65 and 56; every other file is missing, the trait file 98
among them. -/
def collectDir : DataDir :=
  { pokemon := fun id =>
      if id = 1 then .ok bulbasaurRaw
      else if id = 35 then .ok clefairyRefsRaw
      else .error (.readJSON "pokemon/index.json")
    encounters := fun _ => .error (.readJSON "pokemon/encounters/index.json")
    move := fun id =>
      if id = 44 then .ok biteRaw
      else if id = 584 then .ok fairyWindRaw
      else .error (.readJSON "move/index.json")
    ability := fun id =>
      if id = 65 then .ok overgrowRaw
      else if id = 56 then .ok cuteCharmRaw
      else .error (.readJSON "ability/index.json") }

/-- A trait record with no description in English. -/
def frenchOnlyRaw : apiAbility :=
  { ID := 66, Name := "blaze"
    EffectEntries :=
      [{ Language := { Name := "fr", URL := "" }
         ShortEffect := "Renforce les capacités de type Feu." },
       { Language := { Name := "de", URL := "" }
         ShortEffect := "Verstärkt Feuer-Attacken." }] }

/-- A move record with no power (null), an accuracy within 8 bits and a PP
value outside 8 bits. -/
def wideNumbersRaw : apiMove :=
  { ID := 907, Name := "sample", Power := none, Accuracy := some 100, PP := some 300
    DamageClass := { Name := "status", URL := "" }
    Type_ := { Name := "normal", URL := "" }
    PastValues := [] }

/-- A move table of 50 slots with Bite in slot 44 and every other slot empty
(the table `seedTestData` of the detail tests builds). -/
def allMovesTable : List (Option Move) :=
  List.replicate 44 none ++ [some bite] ++ List.replicate 5 none

/-- A learned move that references Bite, in slot 44 of the table. -/
def learnsBite : LearnedMove :=
  { MoveID := 44, Method := 0, LevelLearnedAt := 1, MachineNumber := 0 }

/-- A learned move that references the empty slot 33 of the table. -/
def learnsEmptySlot : LearnedMove :=
  { MoveID := 33, Method := 0, LevelLearnedAt := 1, MachineNumber := 0 }

/-- A learned move whose identifier, 584, is beyond the table. -/
def learnsBeyondTable : LearnedMove :=
  { MoveID := 584, Method := 1, LevelLearnedAt := 0, MachineNumber := 0 }

/-- The trait record of Magic Guard. -/
def magicGuardRaw : apiAbility :=
  { ID := 98, Name := "magic-guard"
    EffectEntries :=
      [{ Language := { Name := "en", URL := "" }
         ShortEffect := "Protects against damage not directly caused by a move." }] }

/-- The sample directory with the trait file 98 present. -/
def runDir : DataDir :=
  { collectDir with
    ability := fun id => if id = 98 then .ok magicGuardRaw else collectDir.ability id }

/-- The result of `os.Stat` on the creature files of the sample directory: the
files 1 and 35 exist. -/
def runStat (id : Int) : Bool :=
  decide (id = 1) || decide (id = 35)

/-- The fixture of the search tests: eight creatures, in dex order but for
Rattata. -/
def fixture : List Pokemon :=
  [{ ID := 1, Name := "bulbasaur", Types := (0, 0), PastTypes := [] },
   { ID := 2, Name := "ivysaur", Types := (0, 0), PastTypes := [] },
   { ID := 3, Name := "venusaur", Types := (0, 0), PastTypes := [] },
   { ID := 4, Name := "charmander", Types := (0, 0), PastTypes := [] },
   { ID := 5, Name := "charmeleon", Types := (0, 0), PastTypes := [] },
   { ID := 6, Name := "charizard", Types := (0, 0), PastTypes := [] },
   { ID := 19, Name := "rattata", Types := (0, 0), PastTypes := [] },
   { ID := 7, Name := "squirtle", Types := (0, 0), PastTypes := [] }]

/-- An injected slice with one creature whose name has a letter outside
ASCII. -/
def accentedFixture : List Pokemon :=
  [{ ID := 669, Name := "flabébé", Types := (0, 0), PastTypes := [] }]

/-- The sample directory with one more creature file, 906, whose one move has a
locator without a number. -/
def brokenLocatorDir : DataDir :=
  { collectDir with
    pokemon := fun id => if id = 906 then .ok moveWithoutNumberRaw else collectDir.pokemon id }

end sample

open data gen

/-! ## Resolver lemmas -/

/-- The move loop either stops at the first entry that is valid through `gen`,
every entry before it being valid only through an earlier generation, or visits
every entry and returns the canonical type. -/
theorem Move_TypeForGen_loop_spec (gen : Generation) (canonical : PokeType)
    (l : List MoveTypePast) :
    (∃ pre pt post, l = pre ++ pt :: post ∧ (∀ q ∈ pre, q.UntilGen < gen) ∧
        gen ≤ pt.UntilGen ∧ Move.TypeForGen.loop gen canonical l = pt.Type_) ∨
    ((∀ q ∈ l, q.UntilGen < gen) ∧ Move.TypeForGen.loop gen canonical l = canonical) := by
  induction l with
  | nil => right; simp [Move.TypeForGen.loop]
  | cons a rest ih =>
    by_cases h : gen ≤ a.UntilGen
    · left
      exact ⟨[], a, rest, rfl, by simp, h, by simp [Move.TypeForGen.loop, h]⟩
    · have hlt : a.UntilGen < gen := Nat.lt_of_not_le h
      rcases ih with ⟨pre, pt, post, hl, hpre, hpt, hres⟩ | ⟨hall, hres⟩
      · left
        refine ⟨a :: pre, pt, post, by simp [hl], ?_, hpt, by simp [Move.TypeForGen.loop, h, hres]⟩
        intro q hq
        rcases List.mem_cons.mp hq with rfl | hq
        · exact hlt
        · exact hpre q hq
      · right
        refine ⟨?_, by simp [Move.TypeForGen.loop, h, hres]⟩
        intro q hq
        rcases List.mem_cons.mp hq with rfl | hq
        · exact hlt
        · exact hall q hq

/-- The creature loop obeys the same rule as the move loop. -/
theorem Pokemon_TypesForGen_loop_spec (gen : Generation) (canonical : PokeType × PokeType)
    (l : List PokemonTypePast) :
    (∃ pre pt post, l = pre ++ pt :: post ∧ (∀ q ∈ pre, q.UntilGen < gen) ∧
        gen ≤ pt.UntilGen ∧ Pokemon.TypesForGen.loop gen canonical l = pt.Types) ∨
    ((∀ q ∈ l, q.UntilGen < gen) ∧ Pokemon.TypesForGen.loop gen canonical l = canonical) := by
  induction l with
  | nil => right; simp [Pokemon.TypesForGen.loop]
  | cons a rest ih =>
    by_cases h : gen ≤ a.UntilGen
    · left
      exact ⟨[], a, rest, rfl, by simp, h, by simp [Pokemon.TypesForGen.loop, h]⟩
    · have hlt : a.UntilGen < gen := Nat.lt_of_not_le h
      rcases ih with ⟨pre, pt, post, hl, hpre, hpt, hres⟩ | ⟨hall, hres⟩
      · left
        refine ⟨a :: pre, pt, post, by simp [hl], ?_, hpt,
          by simp [Pokemon.TypesForGen.loop, h, hres]⟩
        intro q hq
        rcases List.mem_cons.mp hq with rfl | hq
        · exact hlt
        · exact hpre q hq
      · right
        refine ⟨?_, by simp [Pokemon.TypesForGen.loop, h, hres]⟩
        intro q hq
        rcases List.mem_cons.mp hq with rfl | hq
        · exact hlt
        · exact hall q hq

/-- In a list split as `pre ++ pt :: post` whose keys ascend, where every key of
`pre` is below `g` and the key of `pt` is not, `pt` has the least key that is at
least `g`. -/
theorem first_match_is_least {α : Type} (key : α → Nat) (g : Nat) (pre post : List α) (pt : α)
    (hs : ((pre ++ pt :: post).map key).Sorted (· ≤ ·))
    (hpre : ∀ q ∈ pre, key q < g) :
    ∀ q ∈ pre ++ pt :: post, g ≤ key q → key pt ≤ key q := by
  intro q hq hgq
  rcases List.mem_append.mp hq with hq | hq
  · exact absurd (hpre q hq) (Nat.not_lt.mpr hgq)
  · rcases List.mem_cons.mp hq with rfl | hq
    · exact Nat.le_refl _
    · have h1 : ((pt :: post).map key).Sorted (· ≤ ·) := by
        have := hs
        rw [List.map_append] at this
        exact (List.pairwise_append.mp this).2.1
      rw [List.map_cons] at h1
      exact List.rel_of_sorted_cons h1 (key q) (List.mem_map_of_mem key hq)

/-! ## Claims about the resolver -/

/-- C1: `Move.TypeForGen(g)` is the `Type` of the first entry of `PastTypes`, in
stored order, whose `UntilGen` is at least `g` (every entry before it has
`UntilGen < g`), and is the move's `Type` when no entry has `UntilGen >= g`;
`Pokemon.TypesForGen` obeys the same rule on `PastTypes` and `Types`. Hence the
result is never taken from an overlay whose `UntilGen` is below `g`. -/
theorem C1_resolver_returns_first_match (m : Move) (p : Pokemon) (g : Generation) :
    ((∃ pre pt post, m.PastTypes = pre ++ pt :: post ∧ (∀ q ∈ pre, q.UntilGen < g) ∧
          g ≤ pt.UntilGen ∧ m.TypeForGen g = pt.Type_) ∨
      ((∀ q ∈ m.PastTypes, q.UntilGen < g) ∧ m.TypeForGen g = m.Type_)) ∧
    ((∃ pre pt post, p.PastTypes = pre ++ pt :: post ∧ (∀ q ∈ pre, q.UntilGen < g) ∧
          g ≤ pt.UntilGen ∧ p.TypesForGen g = pt.Types) ∨
      ((∀ q ∈ p.PastTypes, q.UntilGen < g) ∧ p.TypesForGen g = p.Types)) :=
  ⟨Move_TypeForGen_loop_spec g m.Type_ m.PastTypes,
   Pokemon_TypesForGen_loop_spec g p.Types p.PastTypes⟩

/-- C2: when the overlays are stored in ascending order of `UntilGen` and some
overlay has `UntilGen >= g`, `Move.TypeForGen(g)` and `Pokemon.TypesForGen(g)`
return the value of an overlay whose `UntilGen` is the smallest one that is at
least `g`. -/
theorem C2_first_match_is_nearest_when_ascending (m : Move) (p : Pokemon) (g : Generation) :
    ((m.PastTypes.map MoveTypePast.UntilGen).Sorted (· ≤ ·) →
      (∃ pt ∈ m.PastTypes, g ≤ pt.UntilGen) →
      ∃ pt ∈ m.PastTypes, g ≤ pt.UntilGen ∧
        (∀ q ∈ m.PastTypes, g ≤ q.UntilGen → pt.UntilGen ≤ q.UntilGen) ∧
        m.TypeForGen g = pt.Type_) ∧
    ((p.PastTypes.map PokemonTypePast.UntilGen).Sorted (· ≤ ·) →
      (∃ pt ∈ p.PastTypes, g ≤ pt.UntilGen) →
      ∃ pt ∈ p.PastTypes, g ≤ pt.UntilGen ∧
        (∀ q ∈ p.PastTypes, g ≤ q.UntilGen → pt.UntilGen ≤ q.UntilGen) ∧
        p.TypesForGen g = pt.Types) := by
  constructor
  · intro hs ⟨w, hw, hgw⟩
    rcases Move_TypeForGen_loop_spec g m.Type_ m.PastTypes with
      ⟨pre, pt, post, hl, hpre, hpt, hres⟩ | ⟨hall, _⟩
    · refine ⟨pt, by simp [hl], hpt, ?_, hres⟩
      rw [hl] at hs ⊢
      exact first_match_is_least MoveTypePast.UntilGen g pre post pt hs hpre
    · exact absurd (hall w hw) (Nat.not_lt.mpr hgw)
  · intro hs ⟨w, hw, hgw⟩
    rcases Pokemon_TypesForGen_loop_spec g p.Types p.PastTypes with
      ⟨pre, pt, post, hl, hpre, hpt, hres⟩ | ⟨hall, _⟩
    · refine ⟨pt, by simp [hl], hpt, ?_, hres⟩
      rw [hl] at hs ⊢
      exact first_match_is_least PokemonTypePast.UntilGen g pre post pt hs hpre
    · exact absurd (hall w hw) (Nat.not_lt.mpr hgw)

/-- C2, on a move and a creature with two ascending overlays each, queried at
generation 2: the hypotheses hold and the overlay returned is the one valid
through generation 2, respectively 5. -/
theorem C2_first_match_is_nearest_witness :
    (sample.twoOverlayMove.PastTypes.map MoveTypePast.UntilGen).Sorted (· ≤ ·) ∧
    (sample.twoOverlayPokemon.PastTypes.map PokemonTypePast.UntilGen).Sorted (· ≤ ·) ∧
    sample.twoOverlayMove.TypeForGen 2 = TypeGhost ∧
    sample.twoOverlayPokemon.TypesForGen 2 = (TypeNormal, TypeNone) ∧
    (∃ pt ∈ sample.twoOverlayMove.PastTypes, 2 ≤ pt.UntilGen ∧
      (∀ q ∈ sample.twoOverlayMove.PastTypes, 2 ≤ q.UntilGen → pt.UntilGen ≤ q.UntilGen) ∧
      sample.twoOverlayMove.TypeForGen 2 = pt.Type_) ∧
    (∃ pt ∈ sample.twoOverlayPokemon.PastTypes, 2 ≤ pt.UntilGen ∧
      (∀ q ∈ sample.twoOverlayPokemon.PastTypes, 2 ≤ q.UntilGen → pt.UntilGen ≤ q.UntilGen) ∧
      sample.twoOverlayPokemon.TypesForGen 2 = pt.Types) :=
  ⟨by decide, by decide, by decide, by decide,
   (C2_first_match_is_nearest_when_ascending sample.twoOverlayMove sample.twoOverlayPokemon 2).1
     (by decide) ⟨⟨2, TypeGhost⟩, by decide, by decide⟩,
   (C2_first_match_is_nearest_when_ascending sample.twoOverlayMove sample.twoOverlayPokemon 2).2
     (by decide) ⟨⟨5, (TypeNormal, TypeNone)⟩, by decide, by decide⟩⟩

/-! ## Claims about the legacy damage-category rule -/

/-- The legacy branch of `CategoryForGen`: for a move that is not a status move
and a generation below 3, the result is read off the table at the resolved
type. -/
theorem CategoryForGen_legacy (m : Move) (g : Generation)
    (hns : m.Category ≠ CategoryStatus) (hg : g < 3) :
    m.CategoryForGen g =
      match preGen3PhysicalTypes[m.TypeForGen g]? with
      | none => none
      | some true => some CategoryPhysical
      | some false => some CategorySpecial := by
  unfold Move.CategoryForGen
  rw [if_neg hns, if_neg (Nat.not_le.mpr hg)]

/-- With no overlay the resolved type is the canonical type. -/
theorem TypeForGen_of_nil (m : Move) (g : Generation) (h : m.PastTypes = []) :
    m.TypeForGen g = m.Type_ := by
  simp [Move.TypeForGen, h, Move.TypeForGen.loop]

/-- From generation 3 on the stored category is returned. -/
theorem CategoryForGen_at_gen3 (m : Move) :
    m.CategoryForGen 3 = some m.Category := by
  unfold Move.CategoryForGen
  by_cases hs : m.Category = CategoryStatus
  · rw [if_pos hs, hs]
  · rw [if_neg hs, if_pos (by decide)]

/-- C4: for a generation below 3 and two moves that are not status moves, equal
resolved types give equal results of `CategoryForGen`: the result depends on the
resolved type only, not on the stored `Category`. -/
theorem C4_legacy_category_depends_on_type_only (m1 m2 : Move) (g : Generation)
    (hg : g < 3) (h1 : m1.Category ≠ CategoryStatus) (h2 : m2.Category ≠ CategoryStatus)
    (ht : m1.TypeForGen g = m2.TypeForGen g) :
    m1.CategoryForGen g = m2.CategoryForGen g := by
  rw [CategoryForGen_legacy m1 g h1 hg, CategoryForGen_legacy m2 g h2 hg, ht]

/-- C4, on Fire Punch (stored Physical) and Ember (stored Special) at generation
1: the stored categories differ, the resolved types agree, the results agree. -/
theorem C4_legacy_category_witness :
    sample.firePunch.Category ≠ sample.ember.Category ∧
    sample.firePunch.CategoryForGen 1 = sample.ember.CategoryForGen 1 :=
  ⟨by decide,
   C4_legacy_category_depends_on_type_only sample.firePunch sample.ember 1
     (by decide) (by decide) (by decide) (by decide)⟩

/-- C5: for a move that is not a status move and a generation below 3,
`CategoryForGen` is Physical exactly when the resolved type is one of Normal,
Fighting, Poison, Ground, Flying, Rock, Ghost, Bug, Dark, Steel, and is Special
exactly when it is one of None, Fire, Water, Grass, Electric, Ice, Psychic,
Dragon. -/
theorem C5_legacy_table (m : Move) (g : Generation)
    (hns : m.Category ≠ CategoryStatus) (hg : g < 3) :
    (m.CategoryForGen g = some CategoryPhysical ↔
      m.TypeForGen g ∈ [TypeNormal, TypeFighting, TypePoison, TypeGround, TypeFlying,
        TypeRock, TypeGhost, TypeBug, TypeDark, TypeSteel]) ∧
    (m.CategoryForGen g = some CategorySpecial ↔
      m.TypeForGen g ∈ [TypeNone, TypeFire, TypeWater, TypeGrass, TypeElectric, TypeIce,
        TypePsychic, TypeDragon]) := by
  rw [CategoryForGen_legacy m g hns hg]
  obtain ⟨t, ht⟩ : ∃ t : Nat, m.TypeForGen g = t := ⟨_, rfl⟩
  rw [ht]
  by_cases h18 : t < 18
  · interval_cases t <;> simp [preGen3PhysicalTypes]
  · have hlen : preGen3PhysicalTypes.length ≤ t := Nat.le_of_not_lt h18
    rw [List.getElem?_eq_none hlen]
    simp only [List.mem_cons, List.mem_singleton, List.not_mem_nil, or_false]
    constructor <;> constructor <;> intro h
    · cases h
    · rcases h with rfl | rfl | rfl | rfl | rfl | rfl | rfl | rfl | rfl | rfl <;>
        exact absurd (by decide) h18
    · cases h
    · rcases h with rfl | rfl | rfl | rfl | rfl | rfl | rfl | rfl <;>
        exact absurd (by decide) h18

/-- C5, on Tackle at generation 1: Normal is in the physical set and the result
is Physical. -/
theorem C5_legacy_table_witness :
    sample.tackle.TypeForGen 1 = TypeNormal ∧
    sample.tackle.CategoryForGen 1 = some CategoryPhysical :=
  ⟨by decide,
   (C5_legacy_table sample.tackle 1 (by decide) (by decide)).1.mpr (by decide)⟩

/-- C6: a move whose stored `Category` is Status resolves to Status at every
generation, whatever its `Type` and its overlays (also a type outside the
table: the table is not consulted). -/
theorem C6_status_is_always_status (m : Move) (g : Generation)
    (hs : m.Category = CategoryStatus) :
    m.CategoryForGen g = some CategoryStatus := by
  unfold Move.CategoryForGen
  rw [if_pos hs]

/-- C6, on Growl at generation 1. -/
theorem C6_status_witness :
    sample.growl.Category = CategoryStatus ∧
    sample.growl.CategoryForGen 1 = some CategoryStatus :=
  ⟨rfl, C6_status_is_always_status sample.growl 1 rfl⟩

/-- C7: at every generation from 3 on, `CategoryForGen` returns the stored
`Category` unchanged, whatever the `Type` and the overlays. -/
theorem C7_stored_category_from_gen3 (m : Move) (g : Generation) (hg : g ≥ 3) :
    m.CategoryForGen g = some m.Category := by
  unfold Move.CategoryForGen
  by_cases hs : m.Category = CategoryStatus
  · rw [if_pos hs, hs]
  · rw [if_neg hs, if_pos hg]

/-- C7, on Surf at generation 3 (`TestMoveCategoryForGen_Gen3PerMove`). -/
theorem C7_stored_category_witness :
    sample.surf.CategoryForGen 3 = some CategorySpecial :=
  C7_stored_category_from_gen3 sample.surf 3 (by decide)

/-- C8: with an empty `PastTypes` list, `TypeForGen(g)` is the move's `Type` and
`TypesForGen(g)` is the creature's `Types`, at every generation. -/
theorem C8_no_overlay_is_era_invariant (m : Move) (p : Pokemon) (g : Generation) :
    (m.PastTypes = [] → m.TypeForGen g = m.Type_) ∧
    (p.PastTypes = [] → p.TypesForGen g = p.Types) := by
  constructor
  · exact TypeForGen_of_nil m g
  · intro h
    simp [Pokemon.TypesForGen, h, Pokemon.TypesForGen.loop]

/-- C8, on Tackle and Bulbasaur at generation 2. -/
theorem C8_no_overlay_witness :
    sample.tackle.TypeForGen 2 = TypeNormal ∧
    sample.bulbasaur.TypesForGen 2 = (TypeGrass, TypePoison) :=
  ⟨(C8_no_overlay_is_era_invariant sample.tackle sample.bulbasaur 2).1 rfl,
   (C8_no_overlay_is_era_invariant sample.tackle sample.bulbasaur 2).2 rfl⟩

/-- C9 fails as stated: Fire Punch has no overlay, its type Fire is Special
under the legacy rule and its stored category is Physical, so `CategoryForGen`
is Special at generations 1 and 2 and Physical at generation 3. -/
theorem C9_category_not_era_invariant :
    sample.firePunch.PastTypes = [] ∧
    sample.firePunch.CategoryForGen 1 = some CategorySpecial ∧
    sample.firePunch.CategoryForGen 2 = some CategorySpecial ∧
    sample.firePunch.CategoryForGen 3 = some CategoryPhysical ∧
    sample.firePunch.CategoryForGen 2 ≠ sample.firePunch.CategoryForGen 3 := by
  decide

/-- C9, amended: for a move with an empty `PastTypes` list, `CategoryForGen(1)`
equals `CategoryForGen(2)`, `CategoryForGen(3)` is the stored `Category`, and
the three agree exactly when the stored `Category` is Status or is the category
the legacy table gives for the move's `Type`. -/
theorem C9_category_without_overlays (m : Move) (h : m.PastTypes = []) :
    m.CategoryForGen 1 = m.CategoryForGen 2 ∧
    m.CategoryForGen 3 = some m.Category ∧
    (m.CategoryForGen 2 = m.CategoryForGen 3 ↔
      (m.Category = CategoryStatus ∨
        (preGen3PhysicalTypes[m.Type_]? = some true ∧ m.Category = CategoryPhysical) ∨
        (preGen3PhysicalTypes[m.Type_]? = some false ∧ m.Category = CategorySpecial))) := by
  have h3 : m.CategoryForGen 3 = some m.Category :=
    CategoryForGen_at_gen3 m
  by_cases hs : m.Category = CategoryStatus
  · refine ⟨?_, h3, ?_⟩
    · simp [Move.CategoryForGen, hs]
    · simp [Move.CategoryForGen, hs]
  · have e1 := CategoryForGen_legacy m 1 hs (by decide)
    have e2 := CategoryForGen_legacy m 2 hs (by decide)
    rw [TypeForGen_of_nil m 1 h] at e1
    rw [TypeForGen_of_nil m 2 h] at e2
    refine ⟨by rw [e1, e2], h3, ?_⟩
    rw [e2, h3]
    rcases hl : preGen3PhysicalTypes[m.Type_]? with _ | b
    · simp [hs]
    · cases b <;> simp [hs, eq_comm]

/-- C9 amended, on Tackle: no overlay, Normal is Physical under the legacy rule
and the stored category is Physical, so the three generations agree. -/
theorem C9_category_without_overlays_witness :
    sample.tackle.PastTypes = [] ∧
    sample.tackle.CategoryForGen 1 = sample.tackle.CategoryForGen 2 ∧
    sample.tackle.CategoryForGen 2 = sample.tackle.CategoryForGen 3 :=
  ⟨rfl, (C9_category_without_overlays sample.tackle rfl).1,
   (C9_category_without_overlays sample.tackle rfl).2.2.mpr
     (Or.inr (Or.inl ⟨by decide, rfl⟩))⟩

/-! ## Compiler lemmas -/

/-- The past-values loop of `BuildMove` appends, to the slice built so far, the
overlays of the past values in source order. -/
theorem BuildMove_pastTypes_eq (l : List apiPastValue) (acc : List MovePastTypeData) :
    BuildMove.pastTypes l acc = acc ++ l.filterMap spec.moveOverlay := by
  induction l generalizing acc with
  | nil => simp [BuildMove.pastTypes]
  | cons pv rest ih =>
    rcases pv with ⟨ty, vg⟩
    cases ty with
    | none => simp [BuildMove.pastTypes, spec.moveOverlay, ih]
    | some ty =>
      by_cases h0 : prevGenForVersionGroup vg.Name = 0
      · simp [BuildMove.pastTypes, spec.moveOverlay, ih, h0]
      · rcases hp : ParsePokeType ty.Name with ⟨b, _ | e⟩
        · simp [BuildMove.pastTypes, spec.moveOverlay, ih, h0, hp]
        · simp [BuildMove.pastTypes, spec.moveOverlay, ih, h0, hp]

/-- A record that compiles has a recognised type, which becomes the canonical
type, and its overlays are what the past-values loop builds from the empty
slice. -/
theorem BuildMove_ok (m : apiMove) (d : MoveData) (h : BuildMove m = .ok d) :
    (ParsePokeType m.Type_.Name).2 = none ∧ d.Type_ = (ParsePokeType m.Type_.Name).1 ∧
    d.PastTypes = BuildMove.pastTypes m.PastValues [] := by
  unfold BuildMove at h
  rcases hp : ParsePokeType m.Type_.Name with ⟨b, _ | e⟩
  · rcases hc : ParseDamageClass m.DamageClass.Name with ⟨c, _ | e⟩
    · rw [hp, hc] at h
      simp only [Except.ok.injEq] at h
      subst h
      simp
    · rw [hp, hc] at h
      cases h
  · rw [hp] at h
    cases h

/-- Every code `ParsePokeType` returns is below 18. -/
theorem ParsePokeType_lt (name : String) : (ParsePokeType name).1 < 18 := by
  unfold ParsePokeType
  split <;> simp

/-- The constant name `typeConstant` gives for a code below 18 denotes that
code. -/
theorem pokeTypeOfConstant_typeConstant (t : Nat) (h : t < 18) :
    pokeTypeOfConstant (typeConstant t) = some t := by
  interval_cases t <;> rfl

/-- The past-types loop of `BuildPokemon` appends, to the slice built so far,
one overlay per entry whose generation name parses, in source order. -/
theorem BuildPokemon_pastTypes_eq (l : List apiPastType) (acc : List PastTypeData) :
    BuildPokemon.pastTypes l acc =
      acc ++ l.filterMap (fun pt =>
        if (parseGenerationFull pt.Generation.Name).2 = true then
          some { UntilGen := (parseGenerationFull pt.Generation.Name).1
                 Type1 := (BuildPokemon.typeSlots pt.Types ("TypeNone", "TypeNone")).1
                 Type2 := (BuildPokemon.typeSlots pt.Types ("TypeNone", "TypeNone")).2 }
        else none) := by
  induction l generalizing acc with
  | nil => simp [BuildPokemon.pastTypes]
  | cons pt rest ih =>
    rcases hp : parseGenerationFull pt.Generation.Name with ⟨gen, _ | _⟩
    · simp [BuildPokemon.pastTypes, ih, hp]
    · simp [BuildPokemon.pastTypes, ih, hp]

/-- When every element that `f` keeps carries the key of its source element, the
keys of `filterMap f` are a sublist of the keys of the source. -/
theorem keys_filterMap_sublist {α β : Type} (f : α → Option β) (key : α → Nat) (k : β → Nat)
    (hk : ∀ a b, f a = some b → k b = key a) (l : List α) :
    ((l.filterMap f).map k).Sublist (l.map key) := by
  induction l with
  | nil => simp
  | cons a rest ih =>
    rcases hfa : f a with _ | b
    · rw [List.filterMap_cons_none hfa, List.map_cons]
      exact List.Sublist.cons _ ih
    · rw [List.filterMap_cons_some hfa, List.map_cons, List.map_cons, hk a b hfa]
      exact List.Sublist.cons₂ _ ih

/-- The overlay a past value contributes is valid through
`prevGenForVersionGroup` of its release group. -/
theorem moveOverlay_UntilGen (pv : apiPastValue) (o : MovePastTypeData)
    (h : spec.moveOverlay pv = some o) :
    o.UntilGen = prevGenForVersionGroup pv.VersionGroup.Name := by
  unfold spec.moveOverlay at h
  split at h
  · cases h
  · split at h
    · simp only [Option.some.injEq] at h
      rw [← h]
    · cases h

/-! ## Claims about the compiler -/

/-- C3 fails as stated: `BuildMove` and `BuildPokemon` keep the source order.
A move record whose past values are listed latest change first compiles to
overlays with `UntilGen` 3, 1, and a creature record whose past types are listed
latest generation first to overlays with `UntilGen` 5, 1; neither list is
ascending. The generated move then resolves generation 1 to the overlay valid
through 3 (Ghost), not to the nearer one valid through 1 (Normal). -/
theorem C3_overlays_keep_source_order_unsorted :
    BuildMove sample.descendingMoveRaw = .ok sample.descendingMoveData ∧
    sample.descendingMoveData.PastTypes.map MovePastTypeData.UntilGen = [3, 1] ∧
    ¬ (sample.descendingMoveData.PastTypes.map MovePastTypeData.UntilGen).Sorted (· ≤ ·) ∧
    (BuildPokemon sample.descendingPokemonRaw).PastTypes.map PastTypeData.UntilGen = [5, 1] ∧
    ¬ ((BuildPokemon sample.descendingPokemonRaw).PastTypes.map
        PastTypeData.UntilGen).Sorted (· ≤ ·) ∧
    (movesTemplate.move sample.descendingMoveData).map (fun mv => mv.TypeForGen 1) =
      some TypeGhost :=
  ⟨rfl, by decide, by decide, by decide, by decide, by decide⟩

/-- C3, amended: compilation keeps the source order and does not sort. When the
past values of a move record that compiles are listed in ascending order of
`prevGenForVersionGroup` of their release group, the `PastTypes` of `BuildMove`
are in ascending order of `UntilGen`; when the past-types entries of a creature
record are listed in ascending order of the number `parseGenerationFull` gives
their generation, the `PastTypes` of `BuildPokemon` are in ascending order of
`UntilGen`. -/
theorem C3_ascending_source_gives_ascending_overlays (m : apiMove) (d : MoveData)
    (p : apiPokemon) :
    (BuildMove m = .ok d →
      (m.PastValues.map
        (fun pv => prevGenForVersionGroup pv.VersionGroup.Name)).Sorted (· ≤ ·) →
      (d.PastTypes.map MovePastTypeData.UntilGen).Sorted (· ≤ ·)) ∧
    ((p.PastTypes.map
        (fun pt => (parseGenerationFull pt.Generation.Name).1)).Sorted (· ≤ ·) →
      ((BuildPokemon p).PastTypes.map PastTypeData.UntilGen).Sorted (· ≤ ·)) := by
  constructor
  · intro hok hs
    rw [(BuildMove_ok m d hok).2.2, BuildMove_pastTypes_eq, List.nil_append]
    exact List.Pairwise.sublist
      (keys_filterMap_sublist spec.moveOverlay
        (fun pv => prevGenForVersionGroup pv.VersionGroup.Name) MovePastTypeData.UntilGen
        moveOverlay_UntilGen m.PastValues) hs
  · intro hs
    show ((BuildPokemon.pastTypes p.PastTypes []).map PastTypeData.UntilGen).Sorted (· ≤ ·)
    rw [BuildPokemon_pastTypes_eq, List.nil_append]
    refine List.Pairwise.sublist (keys_filterMap_sublist _
      (fun pt : apiPastType => (parseGenerationFull pt.Generation.Name).1)
      PastTypeData.UntilGen ?_ p.PastTypes) hs
    intro a b hab
    split at hab
    · simp only [Option.some.injEq] at hab
      rw [← hab]
    · cases hab

/-- C3 amended, on a move record and a creature record whose past entries are
listed earliest first: the sources ascend (1, 3 and 1, 5) and so do the compiled
overlays. -/
theorem C3_ascending_source_witness :
    (∃ d, BuildMove sample.ascendingMoveRaw = .ok d ∧
      d.PastTypes.map MovePastTypeData.UntilGen = [1, 3] ∧
      (d.PastTypes.map MovePastTypeData.UntilGen).Sorted (· ≤ ·)) ∧
    (BuildPokemon sample.ascendingPokemonRaw).PastTypes.map PastTypeData.UntilGen = [1, 5] ∧
    ((BuildPokemon sample.ascendingPokemonRaw).PastTypes.map
      PastTypeData.UntilGen).Sorted (· ≤ ·) :=
  ⟨⟨_, rfl, by decide,
    (C3_ascending_source_gives_ascending_overlays sample.ascendingMoveRaw _
      sample.ascendingPokemonRaw).1 rfl (by decide)⟩,
   by decide,
   (C3_ascending_source_gives_ascending_overlays sample.ascendingMoveRaw sample.biteData
      sample.ascendingPokemonRaw).2 (by decide)⟩

/-- C10: for a raw move record that compiles, the `PastTypes` of `BuildMove`
are, in source order, exactly one overlay
`{UntilGen = prevGenForVersionGroup(group), type}` for each past value with a
type present, a recognised type name and a release group whose
`prevGenForVersionGroup` is not 0, and nothing for any other past value. In
particular a record whose only past value is `{type normal, group gold-silver}`
compiles to the single overlay `{UntilGen 1, TypeNormal}`, and the move
generated from it resolves to Normal at generation 1 and to its current type at
generations 2 and 3. -/
theorem C10_BuildMove_overlays (m : apiMove) (d : MoveData) (h : BuildMove m = .ok d) :
    d.PastTypes = m.PastValues.filterMap spec.moveOverlay ∧
    (∀ url1 url2 : String,
      m.PastValues =
        [{ Type_ := some { Name := "normal", URL := url1 }
           VersionGroup := { Name := "gold-silver", URL := url2 } }] →
      d.PastTypes = [{ UntilGen := 1, TypeConst := "TypeNormal" }] ∧
      ∀ mv : Move, movesTemplate.move d = some mv →
        mv.PastTypes = [{ UntilGen := 1, Type_ := TypeNormal }] ∧
        mv.Type_ = d.Type_ ∧
        mv.TypeForGen 1 = TypeNormal ∧
        mv.TypeForGen 2 = mv.Type_ ∧
        mv.TypeForGen 3 = mv.Type_) := by
  obtain ⟨_, hty, hpast⟩ := BuildMove_ok m d h
  have hall : d.PastTypes = m.PastValues.filterMap spec.moveOverlay := by
    rw [hpast, BuildMove_pastTypes_eq, List.nil_append]
  refine ⟨hall, ?_⟩
  intro url1 url2 hpv
  have hd : d.PastTypes = [{ UntilGen := 1, TypeConst := "TypeNormal" }] := by
    rw [hall, hpv]
    rfl
  refine ⟨hd, ?_⟩
  intro mv hmv
  have hlt : d.Type_ < 18 := by
    rw [hty]
    exact ParsePokeType_lt _
  unfold movesTemplate.move at hmv
  rw [pokeTypeOfConstant_typeConstant d.Type_ hlt, hd] at hmv
  split at hmv
  · split at hmv
    · rename_i t c pastTypes ht _ hp
      simp only [Option.some.injEq] at hmv ht
      have hp2 : pastTypes = [{ UntilGen := 1, Type_ := TypeNormal }] := by
        have : some pastTypes = some [{ UntilGen := 1, Type_ := TypeNormal }] := by
          rw [← hp]
          rfl
        exact Option.some.inj this
      subst hmv
      subst hp2
      subst ht
      exact ⟨rfl, rfl, rfl, rfl, rfl⟩
    · cases hmv
  · cases hmv

/-- C10, on the raw record of Bite: it compiles, its only past value is
`{type normal, group gold-silver}`, the compiled overlay is
`{UntilGen 1, TypeNormal}`, and the generated move is Normal at generation 1 and
Dark at generations 2 and 3. -/
theorem C10_BuildMove_overlays_witness :
    BuildMove sample.biteRaw = .ok sample.biteData ∧
    sample.biteData.PastTypes = [{ UntilGen := 1, TypeConst := "TypeNormal" }] ∧
    movesTemplate.move sample.biteData = some sample.bite ∧
    sample.bite.TypeForGen 1 = TypeNormal ∧
    sample.bite.TypeForGen 2 = TypeDark ∧
    sample.bite.TypeForGen 3 = TypeDark :=
  ⟨rfl,
   ((C10_BuildMove_overlays sample.biteRaw sample.biteData rfl).2 _ _ rfl).1,
   by decide,
   (((C10_BuildMove_overlays sample.biteRaw sample.biteData rfl).2 _ _ rfl).2
     sample.bite (by decide)).2.2.1,
   (((C10_BuildMove_overlays sample.biteRaw sample.biteData rfl).2 _ _ rfl).2
     sample.bite (by decide)).2.2.2.1,
   (((C10_BuildMove_overlays sample.biteRaw sample.biteData rfl).2 _ _ rfl).2
     sample.bite (by decide)).2.2.2.2⟩

/-! ## Claims about the valid-through era -/

/-- C11: for each of the seven in-scope release groups `g` and every release
`r` of `ParseVersionGroup(g)`, read as the `GameVersion` constant of that name,
`prevGenForVersionGroup(g)` is `GenForVersion(r) - 1`, the subtraction not
wrapping (`GenForVersion(r)` is at least 1). -/
theorem C11_prevGen_is_one_era_before (g r : String)
    (hg : g ∈ ["red-blue", "yellow", "gold-silver", "crystal", "ruby-sapphire", "emerald",
      "firered-leafgreen"])
    (hr : r ∈ (ParseVersionGroup g).1) :
    ∃ v : GameVersion, gameVersionOfConstant r = some v ∧ 1 ≤ GenForVersion v ∧
      prevGenForVersionGroup g = GenForVersion v - 1 := by
  simp only [List.mem_cons, List.mem_singleton, List.not_mem_nil, or_false] at hg
  rcases hg with rfl | rfl | rfl | rfl | rfl | rfl | rfl <;>
    simp only [ParseVersionGroup, List.mem_cons, List.mem_singleton, List.not_mem_nil,
      or_false] at hr
  · rcases hr with rfl | rfl <;> exact ⟨_, rfl, by decide, by decide⟩
  · subst hr
    exact ⟨_, rfl, by decide, by decide⟩
  · rcases hr with rfl | rfl <;> exact ⟨_, rfl, by decide, by decide⟩
  · subst hr
    exact ⟨_, rfl, by decide, by decide⟩
  · rcases hr with rfl | rfl <;> exact ⟨_, rfl, by decide, by decide⟩
  · subst hr
    exact ⟨_, rfl, by decide, by decide⟩
  · rcases hr with rfl | rfl <;> exact ⟨_, rfl, by decide, by decide⟩

/-- C11, on the group gold-silver and its release Gold: Gold is of generation 2
and the valid-through era is 1. -/
theorem C11_prevGen_witness :
    gameVersionOfConstant "GameGold" = some GameGold ∧ GenForVersion GameGold = 2 ∧
    prevGenForVersionGroup "gold-silver" = 1 ∧
    ∃ v : GameVersion, gameVersionOfConstant "GameGold" = some v ∧ 1 ≤ GenForVersion v ∧
      prevGenForVersionGroup "gold-silver" = GenForVersion v - 1 :=
  ⟨by decide, by decide, by decide,
   C11_prevGen_is_one_era_before "gold-silver" "GameGold" (by decide) (by decide)⟩

/-- The valid-through era `prevGenForVersionGroup` computes is at most 3. -/
theorem prevGenForVersionGroup_le (name : String) : prevGenForVersionGroup name ≤ 3 := by
  unfold prevGenForVersionGroup
  split <;> simp

/-- An overlay that a past value contributes is never valid through era 0. -/
theorem moveOverlay_UntilGen_ne_zero (pv : apiPastValue) (o : MovePastTypeData)
    (h : spec.moveOverlay pv = some o) : o.UntilGen ≠ 0 := by
  unfold spec.moveOverlay at h
  split at h
  · cases h
  · split at h
    · rename_i hc
      simp only [Option.some.injEq] at h
      rw [← h]
      exact hc.2
    · cases h

/-- A past value whose release group is red-blue or yellow contributes no
overlay. -/
theorem moveOverlay_oldest_era (pv : apiPastValue)
    (h : pv.VersionGroup.Name = "red-blue" ∨ pv.VersionGroup.Name = "yellow") :
    spec.moveOverlay pv = none := by
  unfold spec.moveOverlay
  split
  · rfl
  · rcases h with h | h <;> simp [h, prevGenForVersionGroup]

/-- Compiling a record with another list of past values changes the overlays
only. -/
theorem BuildMove_with_PastValues (m : apiMove) (d : MoveData) (l : List apiPastValue)
    (h : BuildMove m = .ok d) :
    BuildMove { m with PastValues := l } =
      .ok { d with PastTypes := BuildMove.pastTypes l [] } := by
  unfold BuildMove at h ⊢
  rcases hp : ParsePokeType m.Type_.Name with ⟨b, _ | e⟩
  · rcases hc : ParseDamageClass m.DamageClass.Name with ⟨c, _ | e⟩
    · rw [hp, hc] at h
      simp only [Except.ok.injEq] at h
      subst h
      simp only [hp, hc]
    · rw [hp, hc] at h
      cases h
  · rw [hp] at h
    cases h

/-- C12: every overlay `BuildMove` emits has `UntilGen` 1, 2 or 3. A past value
whose release group is red-blue or yellow (valid-through era 0) is discarded:
the record without those past values compiles to the same result. -/
theorem C12_BuildMove_overlays_in_range (m : apiMove) (d : MoveData)
    (h : BuildMove m = .ok d) :
    (∀ o ∈ d.PastTypes, o.UntilGen = 1 ∨ o.UntilGen = 2 ∨ o.UntilGen = 3) ∧
    BuildMove { m with PastValues := m.PastValues.filter (fun pv =>
        decide (pv.VersionGroup.Name ≠ "red-blue" ∧ pv.VersionGroup.Name ≠ "yellow")) } =
      .ok d := by
  have hall : d.PastTypes = m.PastValues.filterMap spec.moveOverlay := by
    rw [(BuildMove_ok m d h).2.2, BuildMove_pastTypes_eq, List.nil_append]
  constructor
  · intro o ho
    rw [hall, List.mem_filterMap] at ho
    obtain ⟨pv, _, hpv⟩ := ho
    have h0 := moveOverlay_UntilGen_ne_zero pv o hpv
    have h3 := prevGenForVersionGroup_le pv.VersionGroup.Name
    rw [← moveOverlay_UntilGen pv o hpv] at h3
    omega
  · rw [BuildMove_with_PastValues m d _ h, BuildMove_pastTypes_eq, List.nil_append]
    have hkeep : ∀ l : List apiPastValue,
        (l.filter (fun pv => decide (pv.VersionGroup.Name ≠ "red-blue" ∧
          pv.VersionGroup.Name ≠ "yellow"))).filterMap spec.moveOverlay =
        l.filterMap spec.moveOverlay := by
      intro l
      induction l with
      | nil => rfl
      | cons pv rest ih =>
        by_cases hpv : pv.VersionGroup.Name ≠ "red-blue" ∧ pv.VersionGroup.Name ≠ "yellow"
        · rw [List.filter_cons_of_pos (by simpa using hpv), List.filterMap_cons,
            List.filterMap_cons, ih]
        · have hold : pv.VersionGroup.Name = "red-blue" ∨ pv.VersionGroup.Name = "yellow" := by
            by_contra hc
            exact hpv ⟨fun e => hc (Or.inl e), fun e => hc (Or.inr e)⟩
          rw [List.filter_cons_of_neg (by simpa using hpv),
            List.filterMap_cons_none (moveOverlay_oldest_era pv hold), ih]
    rw [hkeep, ← hall]

/-- C12, on a record with a red-blue and a yellow past value among five: it
compiles to two overlays, valid through 1 and 3, and the record without the
red-blue and yellow past values compiles to the same result. -/
theorem C12_BuildMove_overlays_witness :
    BuildMove sample.mixedMoveRaw = .ok sample.mixedMoveData ∧
    sample.mixedMoveRaw.PastValues.length = 5 ∧
    sample.mixedMoveData.PastTypes.map MovePastTypeData.UntilGen = [1, 3] ∧
    (∀ o ∈ sample.mixedMoveData.PastTypes,
      o.UntilGen = 1 ∨ o.UntilGen = 2 ∨ o.UntilGen = 3) :=
  ⟨rfl, by decide, by decide,
   (C12_BuildMove_overlays_in_range sample.mixedMoveRaw sample.mixedMoveData rfl).1⟩

/-- The number `parseGenerationFull` gives a generation name it accepts lies
between 1 and 9. -/
theorem parseGenerationFull_range (name : String)
    (h : (parseGenerationFull name).2 = true) :
    1 ≤ (parseGenerationFull name).1 ∧ (parseGenerationFull name).1 ≤ 9 := by
  unfold parseGenerationFull at h ⊢
  split <;> simp_all

/-- C13 fails as stated: the record of Clefairy, whose past-types entry is
tagged generation-v, compiles to an overlay with `UntilGen` 5, outside 1..3; the
entry is carried into the compiled record, not discarded. -/
theorem C13_overlay_beyond_supported_range :
    (BuildPokemon sample.clefairyRaw).PastTypes =
      [{ UntilGen := 5, Type1 := "TypeNormal", Type2 := "TypeNone" }] ∧
    ¬ (∀ o ∈ (BuildPokemon sample.clefairyRaw).PastTypes, 1 ≤ o.UntilGen ∧ o.UntilGen ≤ 3) := by
  decide

/-- C13, amended: every overlay `BuildPokemon` emits has `UntilGen` inside
1..9, and the overlays are, in source order, one per past-types entry whose
generation name `parseGenerationFull` accepts (generation-i to generation-ix),
valid through the number of that generation; only entries whose generation name
it rejects are discarded. -/
theorem C13_BuildPokemon_overlays_in_full_range (p : apiPokemon) :
    (∀ o ∈ (BuildPokemon p).PastTypes, 1 ≤ o.UntilGen ∧ o.UntilGen ≤ 9) ∧
    (BuildPokemon p).PastTypes.map PastTypeData.UntilGen =
      (p.PastTypes.filter (fun pt => (parseGenerationFull pt.Generation.Name).2)).map
        (fun pt => (parseGenerationFull pt.Generation.Name).1) := by
  have hall : (BuildPokemon p).PastTypes = BuildPokemon.pastTypes p.PastTypes [] := rfl
  rw [hall, BuildPokemon_pastTypes_eq, List.nil_append]
  constructor
  · intro o ho
    rw [List.mem_filterMap] at ho
    obtain ⟨pt, _, hpt⟩ := ho
    split at hpt
    · rename_i hok
      simp only [Option.some.injEq] at hpt
      rw [← hpt]
      exact parseGenerationFull_range _ hok
    · cases hpt
  · induction p.PastTypes with
    | nil => rfl
    | cons pt rest ih =>
      by_cases hok : (parseGenerationFull pt.Generation.Name).2 = true
      · simp only [List.filterMap_cons, List.filter_cons, hok, if_true, List.map_cons]
        rw [ih]
      · simp only [List.filterMap_cons, List.filter_cons, hok, Bool.false_eq_true, if_false]
        rw [ih]

/-! ## Claims about the single-overlay creature scenario -/

/-- The loop over a `types` list that holds one slot-1 entry. -/
theorem typeSlots_single_slot1 (name url : String) :
    BuildPokemon.typeSlots [{ Slot := 1, Type_ := { Name := name, URL := url } }]
        ("TypeNone", "TypeNone") =
      (typeConstant (parsePokeTypeLenient name), "TypeNone") := by
  simp [BuildPokemon.typeSlots]

/-- C14: a creature record whose only past-types entry is tagged generation-i
and lists a single slot-1 type compiles to exactly one overlay
`{UntilGen 1, Type1 = T, Type2 = TypeNone}`, `T` being the lenient-parsed type;
a creature with canonical pair `(A, B)` and that single overlay resolves to
`(T, None)` at generation 1 and to `(A, B)` at generations 2 and 3, and so does
the creature generated from the compiled record. -/
theorem C14_single_generation_one_overlay (p : apiPokemon) (name url1 url2 : String)
    (h : p.PastTypes =
      [{ Generation := { Name := "generation-i", URL := url1 }
         Types := [{ Slot := 1, Type_ := { Name := name, URL := url2 } }] }]) :
    (BuildPokemon p).PastTypes =
      [{ UntilGen := 1, Type1 := typeConstant (parsePokeTypeLenient name),
         Type2 := "TypeNone" }] ∧
    (∀ q : Pokemon,
      q.PastTypes = [{ UntilGen := 1, Types := (parsePokeTypeLenient name, TypeNone) }] →
      q.TypesForGen 1 = (parsePokeTypeLenient name, TypeNone) ∧
      q.TypesForGen 2 = q.Types ∧ q.TypesForGen 3 = q.Types) ∧
    (∀ q : Pokemon, emitPokemonDirect.pokemon (BuildPokemon p) = some q →
      q.PastTypes = [{ UntilGen := 1, Types := (parsePokeTypeLenient name, TypeNone) }] ∧
      q.TypesForGen 1 = (parsePokeTypeLenient name, TypeNone) ∧
      q.TypesForGen 2 = q.Types ∧ q.TypesForGen 3 = q.Types) := by
  have hpast : (BuildPokemon p).PastTypes =
      [{ UntilGen := 1, Type1 := typeConstant (parsePokeTypeLenient name),
         Type2 := "TypeNone" }] := by
    show BuildPokemon.pastTypes p.PastTypes [] = _
    rw [h, BuildPokemon_pastTypes_eq]
    simp [parseGenerationFull, typeSlots_single_slot1]
  have hres : ∀ q : Pokemon,
      q.PastTypes = [{ UntilGen := 1, Types := (parsePokeTypeLenient name, TypeNone) }] →
      q.TypesForGen 1 = (parsePokeTypeLenient name, TypeNone) ∧
      q.TypesForGen 2 = q.Types ∧ q.TypesForGen 3 = q.Types := by
    intro q hq
    simp [Pokemon.TypesForGen, hq, Pokemon.TypesForGen.loop]
  refine ⟨hpast, hres, ?_⟩
  · intro q hq
    suffices hq2 : q.PastTypes =
        [{ UntilGen := 1, Types := (parsePokeTypeLenient name, TypeNone) }] from
      ⟨hq2, hres q hq2⟩
    unfold emitPokemonDirect.pokemon at hq
    rw [hpast] at hq
    have hT : pokeTypeOfConstant (typeConstant (parsePokeTypeLenient name)) =
        some (parsePokeTypeLenient name) :=
      pokeTypeOfConstant_typeConstant _ (ParsePokeType_lt name)
    have hmap : List.mapM emitPokemonDirect.pastType
        [{ UntilGen := 1, Type1 := typeConstant (parsePokeTypeLenient name),
           Type2 := "TypeNone" }] =
        some [{ UntilGen := 1, Types := (parsePokeTypeLenient name, TypeNone) }] := by
      simp only [List.mapM, List.mapM.loop, emitPokemonDirect.pastType, hT]
      rfl
    rw [hmap] at hq
    split at hq
    · split at hq
      · rename_i t1 t2 pastTypes _ _ hp
        simp only [Option.some.injEq] at hq hp
        rw [← hq, hp]
      · cases hq
    · cases hq

/-- C14, on the raw record of Magnemite: one past-types entry tagged
generation-i listing Electric alone. It compiles to
`{UntilGen 1, TypeElectric, TypeNone}`, the generated creature is Magnemite, and
Magnemite is Electric alone at generation 1 and Electric/Steel at generations 2
and 3. -/
theorem C14_single_overlay_witness :
    (BuildPokemon sample.magnemiteRaw).PastTypes =
      [{ UntilGen := 1, Type1 := "TypeElectric", Type2 := "TypeNone" }] ∧
    emitPokemonDirect.pokemon (BuildPokemon sample.magnemiteRaw) = some sample.magnemite ∧
    sample.magnemite.TypesForGen 1 = (TypeElectric, TypeNone) ∧
    sample.magnemite.TypesForGen 2 = (TypeElectric, TypeSteel) ∧
    sample.magnemite.TypesForGen 3 = (TypeElectric, TypeSteel) :=
  ⟨(C14_single_generation_one_overlay sample.magnemiteRaw "electric" _ _ rfl).1,
   by decide,
   ((C14_single_generation_one_overlay sample.magnemiteRaw "electric" _ _ rfl).2.1
     sample.magnemite rfl).1,
   ((C14_single_generation_one_overlay sample.magnemiteRaw "electric" _ _ rfl).2.1
     sample.magnemite rfl).2.1,
   ((C14_single_generation_one_overlay sample.magnemiteRaw "electric" _ _ rfl).2.1
     sample.magnemite rfl).2.2⟩

/-! ## Claims about the enumeration codec -/

/-- C17: `ParsePokeType` returns, with no error, the codes of the `PokeType`
constants Normal to Steel, which are 1 to 17 in that order, on the 17 lowercase
names normal, fire, water, grass, electric, ice, fighting, poison, ground,
flying, psychic, bug, rock, ghost, dragon, dark, steel; it succeeds on no other
string, for which it returns the error with code 0. -/
theorem C17_ParsePokeType_strict (s : String) :
    ["normal", "fire", "water", "grass", "electric", "ice", "fighting", "poison", "ground",
      "flying", "psychic", "bug", "rock", "ghost", "dragon", "dark", "steel"].map ParsePokeType =
      [(TypeNormal, none), (TypeFire, none), (TypeWater, none), (TypeGrass, none),
        (TypeElectric, none), (TypeIce, none), (TypeFighting, none), (TypePoison, none),
        (TypeGround, none), (TypeFlying, none), (TypePsychic, none), (TypeBug, none),
        (TypeRock, none), (TypeGhost, none), (TypeDragon, none), (TypeDark, none),
        (TypeSteel, none)] ∧
    [TypeNormal, TypeFire, TypeWater, TypeGrass, TypeElectric, TypeIce, TypeFighting,
      TypePoison, TypeGround, TypeFlying, TypePsychic, TypeBug, TypeRock, TypeGhost,
      TypeDragon, TypeDark, TypeSteel] = (List.range 17).map (fun i => i + 1) ∧
    ((ParsePokeType s).2 = none ↔
      s ∈ ["normal", "fire", "water", "grass", "electric", "ice", "fighting", "poison",
        "ground", "flying", "psychic", "bug", "rock", "ghost", "dragon", "dark", "steel"]) ∧
    (s ∉ ["normal", "fire", "water", "grass", "electric", "ice", "fighting", "poison",
        "ground", "flying", "psychic", "bug", "rock", "ghost", "dragon", "dark", "steel"] →
      ParsePokeType s = (0, some (.unknownType s))) := by
  refine ⟨by decide, by decide, ?_, ?_⟩
  · unfold ParsePokeType
    split <;> simp_all
  · intro hs
    simp only [List.mem_cons, List.mem_singleton, List.not_mem_nil, or_false, not_or] at hs
    unfold ParsePokeType
    split <;> simp_all

/-- C17, on the name fairy, a type of a later era: it is none of the 17 names
and `ParsePokeType` returns the error. -/
theorem C17_ParsePokeType_witness :
    ParsePokeType "fairy" = (0, some (.unknownType "fairy")) :=
  (C17_ParsePokeType_strict "fairy").2.2.2 (by decide)

/-- C18: `parsePokeTypeLenient` returns a code for every string (its result type
has no error): the code `ParsePokeType` returns when `ParsePokeType` succeeds,
and 0, the value of `TypeNone`, when `ParsePokeType` fails. -/
theorem C18_lenient_refines_strict (s : String) :
    ((ParsePokeType s).2 = none → parsePokeTypeLenient s = (ParsePokeType s).1) ∧
    ((ParsePokeType s).2 ≠ none → parsePokeTypeLenient s = TypeNone) ∧
    parsePokeTypeLenient s =
      (match ParsePokeType s with
       | (code, none) => code
       | (_, some _) => TypeNone) := by
  have herr : (ParsePokeType s).2 ≠ none → (ParsePokeType s).1 = 0 := by
    unfold ParsePokeType
    split <;> simp
  refine ⟨fun _ => rfl, fun h => herr h, ?_⟩
  unfold parsePokeTypeLenient
  rcases hp : ParsePokeType s with ⟨code, _ | e⟩
  · rfl
  · have := herr (by rw [hp]; simp)
    rw [hp] at this
    exact this

/-- C18, on the names steel (recognised, code 17) and fairy (not recognised,
code 0). -/
theorem C18_lenient_witness :
    parsePokeTypeLenient "steel" = TypeSteel ∧ parsePokeTypeLenient "fairy" = TypeNone :=
  ⟨(C18_lenient_refines_strict "steel").1 (by decide),
   (C18_lenient_refines_strict "fairy").2.1 (by decide)⟩

/-- C19: `ParseDamageClass` returns, with no error, 0 for physical, 1 for
special and 2 for status, the values of `CategoryPhysical`, `CategorySpecial` and
`CategoryStatus`; it succeeds on no other string, for which it returns the
error. -/
theorem C19_ParseDamageClass_strict (s : String) :
    ParseDamageClass "physical" = (0, none) ∧
    ParseDamageClass "special" = (1, none) ∧
    ParseDamageClass "status" = (2, none) ∧
    (CategoryPhysical, CategorySpecial, CategoryStatus) = (0, 1, 2) ∧
    ((ParseDamageClass s).2 = none ↔ s ∈ ["physical", "special", "status"]) ∧
    (s ∉ ["physical", "special", "status"] →
      ParseDamageClass s = (0, some (.unknownDamageClass s))) := by
  refine ⟨rfl, rfl, rfl, rfl, ?_, ?_⟩
  · unfold ParseDamageClass
    split <;> simp_all
  · intro hs
    simp only [List.mem_cons, List.mem_singleton, List.not_mem_nil, or_false, not_or] at hs
    unfold ParseDamageClass
    split <;> simp_all

/-- C19, on the name shadow: it is none of the three names and
`ParseDamageClass` returns the error. -/
theorem C19_ParseDamageClass_witness :
    ParseDamageClass "shadow" = (0, some (.unknownDamageClass "shadow")) :=
  (C19_ParseDamageClass_strict "shadow").2.2.2.2.2 (by decide)

/-- C20: `ParseGeneration` returns, with no error, 1, 2 and 3 for generation-i,
generation-ii and generation-iii; it succeeds on no other string, for which it
returns the error, generation-iv included; on the three names
`parseGenerationFull` returns the same number. -/
theorem C20_ParseGeneration_strict (s : String) :
    ParseGeneration "generation-i" = (1, none) ∧
    ParseGeneration "generation-ii" = (2, none) ∧
    ParseGeneration "generation-iii" = (3, none) ∧
    ParseGeneration "generation-iv" = (0, some (.unknownGeneration "generation-iv")) ∧
    ((ParseGeneration s).2 = none ↔
      s ∈ ["generation-i", "generation-ii", "generation-iii"]) ∧
    (s ∉ ["generation-i", "generation-ii", "generation-iii"] →
      ParseGeneration s = (0, some (.unknownGeneration s))) ∧
    (s ∈ ["generation-i", "generation-ii", "generation-iii"] →
      parseGenerationFull s = ((ParseGeneration s).1, true)) := by
  refine ⟨rfl, rfl, rfl, rfl, ?_, ?_, ?_⟩
  · unfold ParseGeneration
    split <;> simp_all
  · intro hs
    simp only [List.mem_cons, List.mem_singleton, List.not_mem_nil, or_false, not_or] at hs
    unfold ParseGeneration
    split <;> simp_all
  · intro hs
    simp only [List.mem_cons, List.mem_singleton, List.not_mem_nil, or_false] at hs
    rcases hs with rfl | rfl | rfl <;> rfl

/-- C20, on the names generation-ii (accepted by both parsers, number 2) and
generation-v (rejected by `ParseGeneration`, accepted by
`parseGenerationFull`). -/
theorem C20_ParseGeneration_witness :
    parseGenerationFull "generation-ii" = (2, true) ∧
    ParseGeneration "generation-v" = (0, some (.unknownGeneration "generation-v")) ∧
    parseGenerationFull "generation-v" = (5, true) :=
  ⟨(C20_ParseGeneration_strict "generation-ii").2.2.2.2.2.2 (by decide),
   (C20_ParseGeneration_strict "generation-v").2.2.2.2.2.1 (by decide),
   rfl⟩

/-! ## Identifier resolution lemmas -/

/-- The character of a decimal digit lies between '0' and '9' and is that many
places after '0'. -/
theorem digitChar_decimal (d : Nat) (h : d < 10) :
    '0' ≤ Nat.digitChar d ∧ Nat.digitChar d ≤ '9' ∧
      (Nat.digitChar d).toNat - '0'.toNat = d := by
  interval_cases d <;> decide

/-- The library test `Char.isDigit` is the range test of the digit loop. -/
theorem isDigit_iff (c : Char) : c.isDigit = true ↔ '0' ≤ c ∧ c ≤ '9' := by
  simp [Char.isDigit, Char.le_def]

/-- The decimal representation holds decimal digits only. -/
theorem toDigitsCore_decimal (fuel n : Nat) (ds : List Char)
    (hds : ∀ c ∈ ds, '0' ≤ c ∧ c ≤ '9') :
    ∀ c ∈ Nat.toDigitsCore 10 fuel n ds, '0' ≤ c ∧ c ≤ '9' := by
  induction fuel generalizing n ds with
  | zero => simpa [Nat.toDigitsCore] using hds
  | succ fuel ih =>
    have hd := digitChar_decimal (n % 10) (Nat.mod_lt _ (by decide))
    have hds2 : ∀ c ∈ Nat.digitChar (n % 10) :: ds, '0' ≤ c ∧ c ≤ '9' := by
      intro c hc
      rcases List.mem_cons.mp hc with rfl | hc
      · exact ⟨hd.1, hd.2.1⟩
      · exact hds c hc
    unfold Nat.toDigitsCore
    by_cases h0 : n / 10 = 0
    · simpa [h0] using hds2
    · simp only [h0, if_false]
      exact ih (n / 10) _ hds2

/-- The decimal representation is not empty. -/
theorem toDigitsCore_ne_nil (fuel n : Nat) (ds : List Char) (h : 0 < fuel ∨ ds ≠ []) :
    Nat.toDigitsCore 10 fuel n ds ≠ [] := by
  induction fuel generalizing n ds with
  | zero =>
    rcases h with h | h
    · omega
    · simpa [Nat.toDigitsCore] using h
  | succ fuel ih =>
    unfold Nat.toDigitsCore
    by_cases h0 : n / 10 = 0
    · simp [h0]
    · simp only [h0, if_false]
      exact ih (n / 10) _ (Or.inr (by simp))

/-- The digit loop of `Atoi` reads the decimal representation of `n` back as
`n`, and goes on with the digits that follow it. -/
theorem Atoi_digits_toDigitsCore (fuel n : Nat) (ds : List Char) (h : n < fuel) :
    Atoi.digits 0 (Nat.toDigitsCore 10 fuel n ds) = Atoi.digits n ds := by
  induction fuel generalizing n ds with
  | zero => omega
  | succ fuel ih =>
    have hd := digitChar_decimal (n % 10) (Nat.mod_lt _ (by decide))
    unfold Nat.toDigitsCore
    by_cases h0 : n / 10 = 0
    · have hn : n % 10 = n := by omega
      simp only [h0, if_true]
      rw [Atoi.digits, if_pos ⟨hd.1, hd.2.1⟩, hd.2.2, hn, Nat.zero_mul, Nat.zero_add]
    · simp only [h0, if_false]
      rw [ih (n / 10) _ (by omega), Atoi.digits, if_pos ⟨hd.1, hd.2.1⟩, hd.2.2]
      congr 1
      omega

/-- Dropping a leading run of `c` that is followed by `l` leaves what dropping
from `l` leaves. -/
theorem dropWhile_replicate_append (c : Char) (k : Nat) (l : List Char) :
    (List.replicate k c ++ l).dropWhile (fun ch => ch == c) = l.dropWhile (fun ch => ch == c) := by
  induction k with
  | zero => rfl
  | succ k ih => simp [List.replicate_succ, List.dropWhile_cons, ih]

/-- `TrimRight` removes a trailing run of `c` from a text that does not itself
end in `c`. -/
theorem TrimRight_append_replicate (t : List Char) (c : Char) (k : Nat)
    (ht : t.getLast? ≠ some c) :
    TrimRight (t ++ List.replicate k c) c = t := by
  unfold TrimRight
  rw [List.reverse_append, List.reverse_replicate, dropWhile_replicate_append]
  rcases List.eq_nil_or_concat t with rfl | ⟨b, x, rfl⟩
  · rfl
  · have hx : x ≠ c := by
      intro hxc
      apply ht
      simp [hxc]
    simp [List.dropWhile_cons, hx]

/-- The scan keeps the last position seen when `c` does not occur. -/
theorem LastIndex_scan_not_mem (c : Char) (seg : List Char) (i : Nat) (last : Int)
    (h : c ∉ seg) : LastIndex.scan c seg i last = last := by
  induction seg generalizing i last with
  | nil => rfl
  | cons ch rest ih =>
    have hne : ch ≠ c := fun e => h (by simp [e])
    have hrest : c ∉ rest := fun e => h (List.mem_cons_of_mem _ e)
    rw [LastIndex.scan, if_neg hne, ih _ _ hrest]

/-- The scan stops at the occurrence of `c` after which `c` does not occur. -/
theorem LastIndex_scan_split (c : Char) (pre seg : List Char) (i : Nat) (last : Int)
    (h : c ∉ seg) : LastIndex.scan c (pre ++ c :: seg) i last = ((i + pre.length : Nat) : Int) := by
  induction pre generalizing i last with
  | nil =>
    rw [List.nil_append, LastIndex.scan, if_pos rfl, LastIndex_scan_not_mem c seg _ _ h]
    simp
  | cons ch rest ih =>
    rw [List.cons_append, LastIndex.scan, ih]
    simp only [List.length_cons]
    congr 1
    omega

/-- `LastIndex` is the position of the occurrence of `c` after which `c` does not
occur. -/
theorem LastIndex_split (c : Char) (pre seg : List Char) (h : c ∉ seg) :
    LastIndex (pre ++ c :: seg) c = (pre.length : Int) := by
  unfold LastIndex
  rw [LastIndex_scan_split c pre seg 0 (-1) h, Nat.zero_add]

/-- `LastIndex` is -1 when `c` does not occur. -/
theorem LastIndex_not_mem (c : Char) (t : List Char) (h : c ∉ t) : LastIndex t c = -1 :=
  LastIndex_scan_not_mem c t 0 (-1) h

/-- On a locator `pre/seg` followed by any number of "/", where `seg` is not
empty and holds no "/", `idFromURL` is `Atoi` of `seg`. -/
theorem idFromURL_split (url : String) (pre seg : List Char) (k : Nat)
    (hurl : url.data = (pre ++ '/' :: seg) ++ List.replicate k '/')
    (hseg : '/' ∉ seg) (hne : seg ≠ []) :
    idFromURL url = Atoi (String.mk seg) := by
  have ht : (pre ++ '/' :: seg).getLast? ≠ some '/' := by
    rcases List.eq_nil_or_concat seg with rfl | ⟨b, x, rfl⟩
    · exact absurd rfl hne
    · rw [List.concat_eq_append] at hseg ⊢
      have hcat : pre ++ '/' :: (b ++ [x]) = (pre ++ '/' :: b) ++ [x] := by simp
      rw [hcat, List.getLast?_append, List.getLast?_singleton]
      intro h
      simp at h
      exact hseg (by simp [h])
  unfold idFromURL
  simp only [hurl]
  rw [TrimRight_append_replicate _ _ _ ht, LastIndex_split _ _ _ hseg]
  have hlt : ¬ ((pre.length : Int) < 0) := by omega
  rw [if_neg hlt]
  have : ((pre.length : Int) + 1).toNat = pre.length + 1 := by omega
  rw [this]
  congr 2
  simp

/-- On a locator that holds no "/" before its trailing run of "/", `idFromURL`
returns the invalid-URL error. -/
theorem idFromURL_no_slash (url : String) (t : List Char) (k : Nat)
    (hurl : url.data = t ++ List.replicate k '/') (ht : '/' ∉ t) :
    idFromURL url = (0, some (.invalidURL (String.mk t))) := by
  have hlast : t.getLast? ≠ some '/' := by
    intro h
    exact ht (List.mem_of_getLast?_eq_some h)
  unfold idFromURL
  simp only [hurl]
  rw [TrimRight_append_replicate _ _ _ hlast, LastIndex_not_mem _ _ ht]
  simp

/-- The digit loop succeeds on decimal digits only. -/
theorem Atoi_digits_some (a n : Nat) (ds : List Char) (h : Atoi.digits a ds = some n) :
    ∀ c ∈ ds, '0' ≤ c ∧ c ≤ '9' := by
  induction ds generalizing a with
  | nil => simp
  | cons ch rest ih =>
    unfold Atoi.digits at h
    by_cases hc : '0' ≤ ch ∧ ch ≤ '9'
    · rw [if_pos hc] at h
      intro c hmem
      rcases List.mem_cons.mp hmem with rfl | hmem
      · exact hc
      · exact ih _ h c hmem
    · rw [if_neg hc] at h
      cases h

/-- The three cases of the sign test of `Atoi`. -/
theorem Atoi_cases (s : String) :
    (∃ rest, s.data = '-' :: rest ∧ Atoi s = Atoi.body s true rest) ∨
    (∃ rest, s.data = '+' :: rest ∧ Atoi s = Atoi.body s false rest) ∨
    (s.data.head? ≠ some '-' ∧ s.data.head? ≠ some '+' ∧ Atoi s = Atoi.body s false s.data) := by
  unfold Atoi
  split
  · rename_i rest heq
    exact Or.inl ⟨rest, heq, rfl⟩
  · rename_i rest heq
    exact Or.inr (Or.inl ⟨rest, heq, rfl⟩)
  · rename_i h1 h2
    refine Or.inr (Or.inr ⟨?_, ?_, rfl⟩)
    · intro h
      rcases hd : s.data with _ | ⟨c, cs⟩
      · rw [hd] at h; simp at h
      · rw [hd] at h
        simp at h
        exact h1 cs (by rw [hd, h])
    · intro h
      rcases hd : s.data with _ | ⟨c, cs⟩
      · rw [hd] at h; simp at h
      · rw [hd] at h
        simp at h
        exact h2 cs (by rw [hd, h])

/-- When `Atoi.body` succeeds the body is a non-empty run of decimal digits, and
the value is negative only under the sign `-`. -/
theorem Atoi_body_ok (s : String) (neg : Bool) (body : List Char)
    (h : (Atoi.body s neg body).2 = none) :
    body ≠ [] ∧ (∀ c ∈ body, '0' ≤ c ∧ c ≤ '9') ∧
      ((Atoi.body s neg body).1 < 0 → neg = true) := by
  unfold Atoi.body at h ⊢
  by_cases hb : body = []
  · rw [if_pos hb] at h
    cases h
  · rw [if_neg hb] at h ⊢
    rcases hv : Atoi.digits 0 body with _ | n
    · rw [hv] at h
      cases h
    · refine ⟨hb, Atoi_digits_some 0 n body hv, ?_⟩
      cases neg with
      | true => intro _; rfl
      | false =>
        simp only [Bool.false_eq_true, if_false]
        split
        · intro hneg
          simp only at hneg
          omega
        · intro hneg
          simp only at hneg
          have : (0 : Int) < 2 ^ (intSize - 1) := by positivity
          omega

/-- `Atoi` reads the decimal representation of a number inside the range of
`int` back as that number. -/
theorem Atoi_toDigits (n : Nat) (hn : n < 2 ^ (intSize - 1)) :
    Atoi (String.mk (Nat.toDigits 10 n)) = ((n : Int), none) := by
  have hdig : ∀ c ∈ Nat.toDigits 10 n, '0' ≤ c ∧ c ≤ '9' :=
    toDigitsCore_decimal (n + 1) n [] (by simp)
  have hne : Nat.toDigits 10 n ≠ [] := toDigitsCore_ne_nil (n + 1) n [] (Or.inl (by omega))
  have hval : Atoi.digits 0 (Nat.toDigits 10 n) = some n := by
    unfold Nat.toDigits
    rw [Atoi_digits_toDigitsCore (n + 1) n [] (by omega)]
    rfl
  have hbody : Atoi.body (String.mk (Nat.toDigits 10 n)) false (Nat.toDigits 10 n) =
      ((n : Int), none) := by
    unfold Atoi.body
    rw [if_neg hne, hval]
    simp [hn]
  rcases Atoi_cases (String.mk (Nat.toDigits 10 n)) with
    ⟨rest, hd, _⟩ | ⟨rest, hd, _⟩ | ⟨_, _, hres⟩
  · have h0 := (hdig '-' (by simp only [] at hd; rw [hd]; simp)).1
    exact absurd h0 (by decide)
  · have h0 := (hdig '+' (by simp only [] at hd; rw [hd]; simp)).1
    exact absurd h0 (by decide)
  · rw [hres]
    exact hbody

/-! ## Claims about identifier resolution -/

/-- C15: for every natural number `n` inside the range of `int`, every string
`p` and every `k`, `idFromURL` applied to `p`, a "/", the decimal digits of `n`
and `k` copies of "/" returns `n` with no error. -/
theorem C15_idFromURL_reads_trailing_number (n : Nat) (p : String) (k : Nat)
    (hn : n < 2 ^ (intSize - 1)) :
    idFromURL (p ++ "/" ++ Nat.repr n ++ String.mk (List.replicate k '/')) =
      ((n : Int), none) := by
  have hdig : ∀ c ∈ Nat.toDigits 10 n, '0' ≤ c ∧ c ≤ '9' :=
    toDigitsCore_decimal (n + 1) n [] (by simp)
  have hne : Nat.toDigits 10 n ≠ [] := toDigitsCore_ne_nil (n + 1) n [] (Or.inl (by omega))
  have hslash : '/' ∉ Nat.toDigits 10 n := fun hmem => absurd (hdig '/' hmem).1 (by decide)
  have hdata : (p ++ "/" ++ Nat.repr n ++ String.mk (List.replicate k '/')).data =
      (p.data ++ '/' :: Nat.toDigits 10 n) ++ List.replicate k '/' := by
    simp [Nat.repr, List.asString]
  rw [idFromURL_split _ p.data (Nat.toDigits 10 n) k hdata hslash hne]
  exact Atoi_toDigits n hn

/-- C15, on the locator of the ability Overgrow: the number 65 after the path,
one trailing "/". -/
theorem C15_idFromURL_witness :
    "https://pokeapi.co/api/v2/ability" ++ "/" ++ Nat.repr 65 ++
        String.mk (List.replicate 1 '/') = "https://pokeapi.co/api/v2/ability/65/" ∧
    idFromURL ("https://pokeapi.co/api/v2/ability" ++ "/" ++ Nat.repr 65 ++
        String.mk (List.replicate 1 '/')) = (65, none) :=
  ⟨by decide,
   C15_idFromURL_reads_trailing_number 65 "https://pokeapi.co/api/v2/ability" 1 (by decide)⟩

/-- When `Atoi` succeeds its text is a non-empty run of decimal digits after an
optional sign, and the value is negative only when the text starts with `-`. -/
theorem Atoi_ok (s : String) (h : (Atoi s).2 = none) :
    (∃ ds : List Char, ds ≠ [] ∧ (∀ c ∈ ds, c.isDigit = true) ∧
      (s.data = ds ∨ s.data = '+' :: ds ∨ s.data = '-' :: ds)) ∧
    ((Atoi s).1 < 0 → s.data.head? = some '-') := by
  rcases Atoi_cases s with ⟨rest, hd, hres⟩ | ⟨rest, hd, hres⟩ | ⟨_, _, hres⟩
  · rw [hres] at h
    obtain ⟨hne, hdig, _⟩ := Atoi_body_ok s true rest h
    refine ⟨⟨rest, hne, fun c hc => (isDigit_iff c).mpr (hdig c hc), Or.inr (Or.inr hd)⟩, ?_⟩
    intro _
    rw [hd]
    rfl
  · rw [hres] at h ⊢
    obtain ⟨hne, hdig, hneg⟩ := Atoi_body_ok s false rest h
    refine ⟨⟨rest, hne, fun c hc => (isDigit_iff c).mpr (hdig c hc), Or.inr (Or.inl hd)⟩, ?_⟩
    intro hlt
    exact absurd (hneg hlt) (by decide)
  · rw [hres] at h ⊢
    obtain ⟨hne, hdig, hneg⟩ := Atoi_body_ok s false s.data h
    refine ⟨⟨s.data, hne, fun c hc => (isDigit_iff c).mpr (hdig c hc), Or.inl rfl⟩, ?_⟩
    intro hlt
    exact absurd (hneg hlt) (by decide)

/-- C16 fails as stated: `idFromURL` succeeds on a locator whose last segment is
a signed number. The segment "-5" is not a string of decimal digits, yet the
result is the negative identifier -5 with no error; the segment "+5" gives 5. -/
theorem C16_idFromURL_accepts_signed_segment :
    idFromURL "https://pokeapi.co/api/v2/ability/-5/" = (-5, none) ∧
    idFromURL "https://pokeapi.co/api/v2/ability/+5/" = (5, none) ∧
    ¬ (∀ c ∈ "-5".data, c.isDigit = true) ∧
    ¬ (∀ c ∈ "+5".data, c.isDigit = true) := by
  decide

/-- C16, amended: take a locator that is a text `t` not ending in "/", followed
by any number of "/". `idFromURL` returns an error when `t` holds no "/", and
when the text after the last "/" of `t` is not a non-empty string of decimal
digits with an optional sign `+` or `-` before it; it succeeds with a negative
identifier only when that text starts with `-`. -/
theorem C16_idFromURL_errors (url : String) (t : List Char) (k : Nat)
    (hurl : url.data = t ++ List.replicate k '/') (ht : t.getLast? ≠ some '/') :
    ('/' ∉ t → (idFromURL url).2 ≠ none) ∧
    (∀ pre seg : List Char, t = pre ++ '/' :: seg → '/' ∉ seg →
      (¬ (∃ ds : List Char, ds ≠ [] ∧ (∀ c ∈ ds, c.isDigit = true) ∧
            (seg = ds ∨ seg = '+' :: ds ∨ seg = '-' :: ds)) →
        (idFromURL url).2 ≠ none) ∧
      ((idFromURL url).2 = none → (idFromURL url).1 < 0 → seg.head? = some '-')) := by
  constructor
  · intro hno
    rw [idFromURL_no_slash url t k hurl hno]
    simp
  · intro pre seg hsplit hseg
    have hne : seg ≠ [] := by
      rintro rfl
      apply ht
      rw [hsplit]
      simp
    have heq : idFromURL url = Atoi (String.mk seg) :=
      idFromURL_split url pre seg k (by rw [hurl, hsplit]) hseg hne
    rw [heq]
    constructor
    · intro hnot hok
      exact hnot (Atoi_ok (String.mk seg) hok).1
    · intro hok hlt
      exact (Atoi_ok (String.mk seg) hok).2 hlt

/-- C16 amended, on two locators: one without any "/" before its trailing "/",
and one whose last segment is a name and no number; both give an error. -/
theorem C16_idFromURL_errors_witness :
    (idFromURL "overgrow/").2 ≠ none ∧
    (idFromURL "https://pokeapi.co/api/v2/ability/overgrow/").2 ≠ none :=
  ⟨(C16_idFromURL_errors "overgrow/" "overgrow".data 1 (by decide) (by decide)).1 (by decide),
   ((C16_idFromURL_errors "https://pokeapi.co/api/v2/ability/overgrow/"
      "https://pokeapi.co/api/v2/ability/overgrow".data 1 (by decide) (by decide)).2
      "https://pokeapi.co/api/v2/ability".data "overgrow".data (by decide) (by decide)).1
     (by
       rintro ⟨ds, _, hdig, h | h | h⟩
       · exact absurd (hdig 'o' (by rw [← h]; decide)) (by decide)
       · exact absurd (List.head_eq_of_cons_eq h) (by decide)
       · exact absurd (List.head_eq_of_cons_eq h) (by decide))⟩

/-! ## Claims about release groups -/

/-- C21: `ParseVersionGroup` returns no error for any name; it returns the
listed releases for the seven in-scope groups and the empty list for every other
name; the seven lists are pairwise disjoint and together hold each of the 11
in-scope releases, the constants `GameRed` (1) to `GameLeafGreen` (11), exactly
once. -/
theorem C21_ParseVersionGroup_closed_mapping (name : String) :
    (ParseVersionGroup name).2 = none ∧
    ParseVersionGroup "red-blue" = (["GameRed", "GameBlue"], none) ∧
    ParseVersionGroup "yellow" = (["GameYellow"], none) ∧
    ParseVersionGroup "gold-silver" = (["GameGold", "GameSilver"], none) ∧
    ParseVersionGroup "crystal" = (["GameCrystal"], none) ∧
    ParseVersionGroup "ruby-sapphire" = (["GameRuby", "GameSapphire"], none) ∧
    ParseVersionGroup "emerald" = (["GameEmerald"], none) ∧
    ParseVersionGroup "firered-leafgreen" = (["GameFireRed", "GameLeafGreen"], none) ∧
    (name ∉ ["red-blue", "yellow", "gold-silver", "crystal", "ruby-sapphire", "emerald",
        "firered-leafgreen"] → ParseVersionGroup name = ([], none)) ∧
    (["red-blue", "yellow", "gold-silver", "crystal", "ruby-sapphire", "emerald",
        "firered-leafgreen"].map (fun g => (ParseVersionGroup g).1)).Pairwise List.Disjoint ∧
    (["red-blue", "yellow", "gold-silver", "crystal", "ruby-sapphire", "emerald",
        "firered-leafgreen"].map (fun g => (ParseVersionGroup g).1)).flatten.Nodup ∧
    ((["red-blue", "yellow", "gold-silver", "crystal", "ruby-sapphire", "emerald",
        "firered-leafgreen"].map (fun g => (ParseVersionGroup g).1)).flatten.map
        gameVersionOfConstant) =
      [some GameRed, some GameBlue, some GameYellow, some GameGold, some GameSilver,
        some GameCrystal, some GameRuby, some GameSapphire, some GameEmerald,
        some GameFireRed, some GameLeafGreen] ∧
    [GameRed, GameBlue, GameYellow, GameGold, GameSilver, GameCrystal, GameRuby, GameSapphire,
      GameEmerald, GameFireRed, GameLeafGreen] = (List.range 11).map (fun i => i + 1) := by
  have hnodup : (["red-blue", "yellow", "gold-silver", "crystal", "ruby-sapphire", "emerald",
      "firered-leafgreen"].map (fun g => (ParseVersionGroup g).1)).flatten.Nodup := by decide
  refine ⟨?_, rfl, rfl, rfl, rfl, rfl, rfl, rfl, ?_, (List.nodup_flatten.mp hnodup).2, hnodup,
    by decide, by decide⟩
  · unfold ParseVersionGroup
    split <;> rfl
  · intro hn
    simp only [List.mem_cons, List.mem_singleton, List.not_mem_nil, or_false, not_or] at hn
    unfold ParseVersionGroup
    split <;> simp_all

/-- C21, on the group diamond-pearl, of a later era: the result is the empty
list with no error. -/
theorem C21_ParseVersionGroup_witness :
    ParseVersionGroup "diamond-pearl" = ([], none) :=
  (C21_ParseVersionGroup_closed_mapping "diamond-pearl").2.2.2.2.2.2.2.2.1 (by decide)

/-! ## Claims about trait references -/

/-- The last element that passes a test, in a list with one more element in
front. -/
theorem getLast?_filter_cons_map {α β : Type} (q : α → Bool) (f : α → β) (a : α)
    (rest : List α) :
    ((a :: rest).filter q).getLast?.map f =
      if q a = true then some (((rest.filter q).getLast?.map f).getD (f a))
      else (rest.filter q).getLast?.map f := by
  by_cases h : q a = true
  · rw [if_pos h, List.filter_cons_of_pos h, List.getLast?_cons]
    cases (rest.filter q).getLast? <;> rfl
  · rw [if_neg h, List.filter_cons_of_neg h]

/-- The abilities loop leaves in each slot the identifier of the last entry that
counts for the slot, and what the slot held before the loop when there is
none. -/
theorem abilities_eq (l : List apiAbilitySlot) (ab1 ab2 : Int) :
    BuildPokemon.abilities l (ab1, ab2) =
      ((spec.abilityOfSlot l 1).getD ab1, (spec.abilityOfSlot l 2).getD ab2) := by
  induction l generalizing ab1 ab2 with
  | nil => rfl
  | cons a rest ih =>
    unfold spec.abilityOfSlot at ih ⊢
    rw [getLast?_filter_cons_map, getLast?_filter_cons_map]
    unfold BuildPokemon.abilities
    by_cases hh : a.IsHidden = true
    · rw [if_pos hh, ih]
      simp [hh]
    · have hf : a.IsHidden = false := by simpa using hh
      rw [if_neg hh]
      rcases hp : idFromURL a.Ability.URL with ⟨aid, _ | e⟩
      · by_cases h1 : a.Slot = 1
        · have h2 : ¬ a.Slot = 2 := by omega
          simp only
          rw [if_pos h1, ih]
          simp [hf, hp, h1]
        · by_cases h2 : a.Slot = 2
          · simp only
            rw [if_neg h1, if_pos h2, ih]
            simp [hf, hp, h2]
          · simp only
            rw [if_neg h1, if_neg h2, ih]
            simp [h1, h2]
      · simp only
        rw [ih]
        simp [hp]

/-- The abilities loop skips hidden entries: it gives the same result on the
list without them. -/
theorem abilities_filter_hidden (l : List apiAbilitySlot) (abs : Int × Int) :
    BuildPokemon.abilities (l.filter (fun a => !a.IsHidden)) abs =
      BuildPokemon.abilities l abs := by
  induction l generalizing abs with
  | nil => rfl
  | cons a rest ih =>
    obtain ⟨ab1, ab2⟩ := abs
    by_cases hh : a.IsHidden = true
    · rw [List.filter_cons_of_neg (by simp [hh]), ih]
      conv_rhs => unfold BuildPokemon.abilities
      rw [if_pos hh]
    · have hf : a.IsHidden = false := by simpa using hh
      rw [List.filter_cons_of_pos (by simp [hf])]
      simp only [BuildPokemon.abilities, hf, Bool.false_eq_true, if_false]
      rcases idFromURL a.Ability.URL with ⟨aid, _ | e⟩
      · simp only
        by_cases h1 : a.Slot = 1
        · rw [if_pos h1, if_pos h1]
          exact ih _
        · by_cases h2 : a.Slot = 2
          · rw [if_neg h1, if_pos h2, if_neg h1, if_pos h2]
            exact ih _
          · rw [if_neg h1, if_neg h2, if_neg h1, if_neg h2]
            exact ih _
      · simp only
        exact ih _

/-- C22: `BuildPokemon` sets `Ability1` (resp. `Ability2`) to the identifier of
the last abilities entry, in source order, that is not hidden, declares slot 1
(resp. slot 2) and has a parseable locator, and to 0 when there is no such
entry; the record without its hidden entries gives the same `Ability1` and
`Ability2`. -/
theorem C22_abilities_last_declared_slot (p : apiPokemon) :
    (BuildPokemon.Abilities p).1 = (spec.abilityOfSlot p.Abilities 1).getD 0 ∧
    (BuildPokemon.Abilities p).2 = (spec.abilityOfSlot p.Abilities 2).getD 0 ∧
    BuildPokemon.Abilities { p with Abilities := p.Abilities.filter (fun a => !a.IsHidden) } =
      BuildPokemon.Abilities p := by
  unfold BuildPokemon.Abilities
  rw [abilities_eq]
  exact ⟨rfl, rfl, by rw [abilities_filter_hidden, abilities_eq]⟩

/-- C22, on Bulbasaur (Overgrow in slot 1, Chlorophyll hidden): `Ability1` is 65
and `Ability2` is 0; and on a record where two entries declare slot 1 and a
hidden one declares it too: the later entry that is not hidden wins. -/
theorem C22_abilities_witness :
    BuildPokemon.Abilities sample.bulbasaurRaw = (65, 0) ∧
    BuildPokemon.Abilities sample.threeAbilitiesRaw = (11, 12) ∧
    spec.abilityOfSlot sample.threeAbilitiesRaw.Abilities 1 = some 11 :=
  ⟨by decide, by decide,
   by
     have h := (C22_abilities_last_declared_slot sample.threeAbilitiesRaw).1
     decide⟩

/-! ## Claims about the canonical pair and about failure of `BuildMove` -/

/-- The slot loop leaves in each slot the constant of the last entry that
declares the slot, and what the slot held before the loop when there is none. -/
theorem typeSlots_eq (l : List apiTypeSlot) (type1 type2 : String) :
    BuildPokemon.typeSlots l (type1, type2) =
      ((spec.typeOfSlot l 1).getD type1, (spec.typeOfSlot l 2).getD type2) := by
  induction l generalizing type1 type2 with
  | nil => rfl
  | cons t rest ih =>
    unfold spec.typeOfSlot at ih ⊢
    rw [getLast?_filter_cons_map, getLast?_filter_cons_map]
    unfold BuildPokemon.typeSlots
    simp only
    by_cases h1 : t.Slot = 1
    · have h2 : ¬ t.Slot = 2 := by omega
      rw [if_pos h1, ih]
      simp [h1]
    · by_cases h2 : t.Slot = 2
      · rw [if_neg h1, if_pos h2, ih]
        simp [h2]
      · rw [if_neg h1, if_neg h2, ih]
        simp [h1, h2]

/-- `ParsePokeType` returns no error exactly on the 17 recognised names. -/
theorem ParsePokeType_ok_iff (s : String) :
    (ParsePokeType s).2 = none ↔
      s ∈ ["normal", "fire", "water", "grass", "electric", "ice", "fighting", "poison",
        "ground", "flying", "psychic", "bug", "rock", "ghost", "dragon", "dark", "steel"] := by
  unfold ParsePokeType
  split <;> simp_all

/-- `ParseDamageClass` returns no error exactly on the 3 recognised names. -/
theorem ParseDamageClass_ok_iff (s : String) :
    (ParseDamageClass s).2 = none ↔ s ∈ ["physical", "special", "status"] := by
  unfold ParseDamageClass
  split <;> simp_all

/-- `BuildMove` fails exactly when one of its two strict parsers returns an
error. -/
theorem BuildMove_error_iff (m : apiMove) :
    (∃ e, BuildMove m = .error e) ↔
      ((ParsePokeType m.Type_.Name).2 ≠ none ∨ (ParseDamageClass m.DamageClass.Name).2 ≠ none) := by
  unfold BuildMove
  rcases hp : ParsePokeType m.Type_.Name with ⟨b, _ | e⟩
  · rcases hc : ParseDamageClass m.DamageClass.Name with ⟨c, _ | e⟩
    · simp
    · simp
  · simp

/-- C27: the canonical pair of `BuildPokemon` is keyed by declared slot: `Type1`
is the constant of the lenient-parsed type of the current-types entry with
slot 1 and `Type2` that of the entry with slot 2, `TypeNone` for a slot no entry
declares; a creature with only a slot-1 type has `Type2 = TypeNone`; an entry
whose type name is not recognised gives `TypeNone`; and the pair of each overlay
is computed from its own types list by the same rule. -/
theorem C27_types_keyed_by_slot (p : apiPokemon) :
    (BuildPokemon p).Type1 = (spec.typeOfSlot p.Types 1).getD "TypeNone" ∧
    (BuildPokemon p).Type2 = (spec.typeOfSlot p.Types 2).getD "TypeNone" ∧
    ((∀ t ∈ p.Types, t.Slot = 1) → (BuildPokemon p).Type2 = "TypeNone") ∧
    (∀ name : String, (ParsePokeType name).2 ≠ none →
      typeConstant (parsePokeTypeLenient name) = "TypeNone") ∧
    (BuildPokemon p).PastTypes =
      (p.PastTypes.filter (fun pt => (parseGenerationFull pt.Generation.Name).2)).map
        (fun pt =>
          { UntilGen := (parseGenerationFull pt.Generation.Name).1
            Type1 := (spec.typeOfSlot pt.Types 1).getD "TypeNone"
            Type2 := (spec.typeOfSlot pt.Types 2).getD "TypeNone" }) := by
  have htypes : BuildPokemon.typeSlots p.Types ("TypeNone", "TypeNone") =
      ((spec.typeOfSlot p.Types 1).getD "TypeNone", (spec.typeOfSlot p.Types 2).getD "TypeNone") :=
    typeSlots_eq p.Types _ _
  refine ⟨congrArg Prod.fst htypes, congrArg Prod.snd htypes, ?_, ?_, ?_⟩
  · intro hall
    have h2 : (BuildPokemon p).Type2 = (spec.typeOfSlot p.Types 2).getD "TypeNone" :=
      congrArg Prod.snd htypes
    rw [h2]
    have hnil : p.Types.filter (fun t => decide (t.Slot = 2)) = [] := by
      rw [List.filter_eq_nil_iff]
      intro t ht
      have := hall t ht
      simp [this]
    unfold spec.typeOfSlot
    rw [hnil]
    rfl
  · intro name hname
    have h0 : (ParsePokeType name).1 = 0 := by
      revert hname
      unfold ParsePokeType
      split <;> simp
    unfold parsePokeTypeLenient
    rw [h0]
    rfl
  · show BuildPokemon.pastTypes p.PastTypes [] = _
    rw [BuildPokemon_pastTypes_eq, List.nil_append]
    induction p.PastTypes with
    | nil => rfl
    | cons pt rest ih =>
      by_cases hok : (parseGenerationFull pt.Generation.Name).2 = true
      · simp only [List.filterMap_cons, List.filter_cons, hok, if_true, List.map_cons]
        rw [ih, typeSlots_eq]
      · simp only [List.filterMap_cons, List.filter_cons, hok, Bool.false_eq_true, if_false]
        rw [ih]

/-- C27, on Magnemite (slots 1 and 2 declared) and on Clefairy (slot 1 alone,
with the type name fairy, which is not recognised): the pairs are
Electric/Steel and None/None, and the overlay of Clefairy is Normal/None. -/
theorem C27_types_witness :
    ((BuildPokemon sample.magnemiteRaw).Type1, (BuildPokemon sample.magnemiteRaw).Type2) =
      ("TypeElectric", "TypeSteel") ∧
    ((BuildPokemon sample.clefairyRaw).Type1, (BuildPokemon sample.clefairyRaw).Type2) =
      ("TypeNone", "TypeNone") ∧
    (BuildPokemon sample.clefairyRaw).Type2 = "TypeNone" ∧
    typeConstant (parsePokeTypeLenient "fairy") = "TypeNone" :=
  ⟨by decide, by decide,
   (C27_types_keyed_by_slot sample.clefairyRaw).2.2.1 (by decide),
   (C27_types_keyed_by_slot sample.clefairyRaw).2.2.2.1 "fairy" (by decide)⟩

/-- C28: `BuildMove` fails if and only if the type name of the record is not one
of the 17 recognised names or its damage class is not one of the 3 recognised
names. The past-values list cannot make it fail: the record with any other
past-values list fails exactly when the record does, and a past value with no
type or with a type name that is not recognised is skipped by the loop. -/
theorem C28_BuildMove_fails_iff (m : apiMove) :
    ((∃ e, BuildMove m = .error e) ↔
      (m.Type_.Name ∉ ["normal", "fire", "water", "grass", "electric", "ice", "fighting",
          "poison", "ground", "flying", "psychic", "bug", "rock", "ghost", "dragon", "dark",
          "steel"] ∨
        m.DamageClass.Name ∉ ["physical", "special", "status"])) ∧
    (∀ l : List apiPastValue,
      (∃ e, BuildMove { m with PastValues := l } = .error e) ↔ (∃ e, BuildMove m = .error e)) ∧
    (∀ (pv : apiPastValue) (rest : List apiPastValue) (acc : List MovePastTypeData),
      (pv.Type_ = none ∨ ∃ t, pv.Type_ = some t ∧ (ParsePokeType t.Name).2 ≠ none) →
      BuildMove.pastTypes (pv :: rest) acc = BuildMove.pastTypes rest acc) := by
  refine ⟨?_, ?_, ?_⟩
  · rw [BuildMove_error_iff, ← ParsePokeType_ok_iff, ← ParseDamageClass_ok_iff]
  · intro l
    rw [BuildMove_error_iff, BuildMove_error_iff]
  · intro pv rest acc hpv
    have hskip : spec.moveOverlay pv = none := by
      unfold spec.moveOverlay
      rcases hpv with hnone | ⟨t, hsome, herr⟩
      · simp only [hnone]
      · simp only [hsome]
        rw [if_neg (fun h => herr h.1)]
    rw [BuildMove_pastTypes_eq, BuildMove_pastTypes_eq, List.filterMap_cons_none hskip]

/-- C28, on the record of Bite with the type name fairy: it fails; with its own
type, dark, and a past value of type fairy it compiles, the past value being
skipped. -/
theorem C28_BuildMove_witness :
    (∃ e, BuildMove { sample.biteRaw with Type_ := { Name := "fairy", URL := "" } } = .error e) ∧
    (∃ d, BuildMove { sample.biteRaw with
        PastValues := [{ Type_ := some { Name := "fairy", URL := "" }
                         VersionGroup := { Name := "gold-silver", URL := "" } }] } = .ok d ∧
      d.PastTypes = []) :=
  ⟨(C28_BuildMove_fails_iff
      { sample.biteRaw with Type_ := { Name := "fairy", URL := "" } }).1.mpr
      (Or.inl (by decide)),
   ⟨_, rfl, rfl⟩⟩

/-! ## Claims about the location list -/

/-- The encounter-details loop appends one entry per encounter detail, in
source order. -/
theorem locations_details_eq (areaName gameVer : String) (eds : List apiEncounterDetail)
    (acc : List LocationData) :
    BuildPokemon.locations.details areaName gameVer eds acc =
      acc ++ eds.map (fun ed =>
        { GameVersion := gameVer
          EncounterMethod := encounterMethodConstant ed.Method.Name
          MinLevel := toUint8 ed.MinLevel
          MaxLevel := toUint8 ed.MaxLevel
          Chance := toUint8 ed.Chance
          AreaName := areaName }) := by
  induction eds generalizing acc with
  | nil => simp [BuildPokemon.locations.details]
  | cons ed rest ih => simp [BuildPokemon.locations.details, ih]

/-- The version-details loop appends the entries of the details whose release
name maps to a release, in source order. -/
theorem locations_versions_eq (areaName : String) (vds : List apiVersionDetail)
    (acc : List LocationData) :
    BuildPokemon.locations.versions areaName vds acc =
      acc ++ vds.flatMap (fun vd =>
        if versionNameToGameVersion vd.Version.Name = "" then []
        else vd.EncounterDetails.map (fun ed =>
          { GameVersion := versionNameToGameVersion vd.Version.Name
            EncounterMethod := encounterMethodConstant ed.Method.Name
            MinLevel := toUint8 ed.MinLevel
            MaxLevel := toUint8 ed.MaxLevel
            Chance := toUint8 ed.Chance
            AreaName := areaName })) := by
  induction vds generalizing acc with
  | nil => simp [BuildPokemon.locations.versions]
  | cons vd rest ih =>
    by_cases h : versionNameToGameVersion vd.Version.Name = ""
    · simp [BuildPokemon.locations.versions, ih, h]
    · simp [BuildPokemon.locations.versions, ih, h, locations_details_eq]

/-- The areas loop appends the entries of every area, in source order. -/
theorem locations_areas_eq (encs : List apiEncounterEntry) (acc : List LocationData) :
    BuildPokemon.locations.areas encs acc =
      acc ++ encs.flatMap (fun enc =>
        enc.VersionDetails.flatMap (fun vd =>
          if versionNameToGameVersion vd.Version.Name = "" then []
          else vd.EncounterDetails.map (fun ed =>
            { GameVersion := versionNameToGameVersion vd.Version.Name
              EncounterMethod := encounterMethodConstant ed.Method.Name
              MinLevel := toUint8 ed.MinLevel
              MaxLevel := toUint8 ed.MaxLevel
              Chance := toUint8 ed.Chance
              AreaName := enc.LocationArea.Name }))) := by
  induction encs generalizing acc with
  | nil => simp [BuildPokemon.locations.areas]
  | cons enc rest ih => simp [BuildPokemon.locations.areas, ih, locations_versions_eq]

/-- The conversion to 8 bits keeps a value between 0 and 255. -/
theorem toUint8_of_inRange (v : Int) (h0 : 0 ≤ v) (h1 : v ≤ 255) : (toUint8 v : Int) = v := by
  unfold toUint8
  omega

/-- C26 fails as stated: the levels and the chance are stored in 8 bits. The
sample encounter record has, for its in-scope releases, the max levels 5, 7 and
300, and the entries of the `Locations` list carry 5, 7 and 44, which is
300 mod 256. -/
theorem C26_level_stored_in_8_bits :
    sample.encountersRaw.flatMap (fun enc =>
        enc.VersionDetails.flatMap (fun vd =>
          if versionNameToGameVersion vd.Version.Name = "" then []
          else vd.EncounterDetails.map (fun ed => ed.MaxLevel))) = [5, 7, 300] ∧
    (BuildPokemon.locations (.ok sample.encountersRaw)).map (fun l => (l.MaxLevel : Int)) =
      [5, 7, 44] := by
  decide

/-- C26, amended: the `Locations` list of `BuildPokemon` holds, in source order,
exactly one entry for each (per-release detail, encounter detail) pair whose
release name is one of the 11 in-scope releases, carrying the area name, the
mapped release, the folded method, and the min level, the max level and the
chance each converted to 8 bits (the value modulo 256, which is the value itself
between 0 and 255); a detail for any other release name contributes no entry; an
encounter record that cannot be read gives the empty list. -/
theorem C26_locations_per_release_detail (encounters : List apiEncounterEntry) (err : Error)
    (name : String) :
    BuildPokemon.locations (.ok encounters) =
      encounters.flatMap (fun enc =>
        enc.VersionDetails.flatMap (fun vd =>
          if versionNameToGameVersion vd.Version.Name = "" then []
          else vd.EncounterDetails.map (fun ed =>
            { GameVersion := versionNameToGameVersion vd.Version.Name
              EncounterMethod := encounterMethodConstant ed.Method.Name
              MinLevel := toUint8 ed.MinLevel
              MaxLevel := toUint8 ed.MaxLevel
              Chance := toUint8 ed.Chance
              AreaName := enc.LocationArea.Name }))) ∧
    BuildPokemon.locations (.error err) = [] ∧
    (versionNameToGameVersion name ≠ "" ↔
      name ∈ ["red", "blue", "yellow", "gold", "silver", "crystal", "ruby", "sapphire",
        "emerald", "firered", "leafgreen"]) ∧
    ["red", "blue", "yellow", "gold", "silver", "crystal", "ruby", "sapphire", "emerald",
        "firered", "leafgreen"].map (fun n => gameVersionOfConstant (versionNameToGameVersion n)) =
      [some GameRed, some GameBlue, some GameYellow, some GameGold, some GameSilver,
        some GameCrystal, some GameRuby, some GameSapphire, some GameEmerald,
        some GameFireRed, some GameLeafGreen] ∧
    (∀ v : Int, 0 ≤ v → v ≤ 255 → (toUint8 v : Int) = v) := by
  refine ⟨?_, rfl, ?_, by decide, toUint8_of_inRange⟩
  · show BuildPokemon.locations.areas encounters [] = _
    rw [locations_areas_eq, List.nil_append]
  · unfold versionNameToGameVersion
    split <;> simp_all

/-- C26 amended, on an encounter record with details for red, diamond and leafgreen: the
two encounter details of red and the one of leafgreen give an entry each, in
source order, and the detail of diamond gives none. -/
theorem C26_locations_witness :
    BuildPokemon.locations (.ok sample.encountersRaw) =
      [{ GameVersion := "GameRed", EncounterMethod := "EncounterWalk", MinLevel := 3
         MaxLevel := 5, Chance := 5, AreaName := "viridian-forest-area" },
       { GameVersion := "GameRed", EncounterMethod := "EncounterOldRod", MinLevel := 4
         MaxLevel := 7, Chance := 5, AreaName := "viridian-forest-area" },
       { GameVersion := "GameLeafGreen", EncounterMethod := "EncounterWalk", MinLevel := 6
         MaxLevel := 44, Chance := 1, AreaName := "viridian-forest-area" }] ∧
    versionNameToGameVersion "diamond" = "" :=
  ⟨by
     rw [(C26_locations_per_release_detail sample.encountersRaw (.readJSON "") "diamond").1]
     decide,
   by decide⟩

/-! ## Lemmas about the moves block -/

/-- After `m[k] = v` the map holds `v` for `k` and what it held before for any
other key. -/
theorem GoMap_lookup_insert {κ ν : Type} [DecidableEq κ] (m : List (κ × ν)) (k k' : κ) (v : ν) :
    GoMap.lookup (GoMap.insert m k v) k' = if k = k' then some v else GoMap.lookup m k' := by
  induction m with
  | nil => simp [GoMap.insert, GoMap.lookup]
  | cons kv rest ih =>
    obtain ⟨k0, v0⟩ := kv
    unfold GoMap.insert
    by_cases h0 : k0 = k
    · subst h0
      rw [if_pos rfl]
      by_cases hk : k0 = k'
      · simp [GoMap.lookup, hk]
      · simp [GoMap.lookup, hk]
    · rw [if_neg h0]
      by_cases hk : k0 = k'
      · have : ¬ k = k' := fun e => h0 (by rw [hk, e])
        simp [GoMap.lookup, hk, this]
      · simp [GoMap.lookup, hk, ih]

/-- The index expression after an assignment, on a map of slices. -/
theorem GoMap_slice_insert {κ ν : Type} [DecidableEq κ] (m : List (κ × List ν)) (k k' : κ)
    (v : List ν) :
    GoMap.slice (GoMap.insert m k v) k' = if k = k' then v else GoMap.slice m k' := by
  unfold GoMap.slice
  rw [GoMap_lookup_insert]
  split <;> rfl

/-- Changing the value of every key by `f` changes what the map holds for a key
by `f`. -/
theorem GoMap_lookup_map {κ ν μ : Type} [DecidableEq κ] (m : List (κ × ν)) (f : ν → μ) (k : κ) :
    GoMap.lookup (m.map (fun kv => (kv.1, f kv.2))) k = (GoMap.lookup m k).map f := by
  induction m with
  | nil => rfl
  | cons kv rest ih =>
    obtain ⟨k0, v0⟩ := kv
    by_cases hk : k0 = k
    · simp [GoMap.lookup, hk]
    · simp [GoMap.lookup, hk, ih]

/-- No release occurs twice in a list `ParseVersionGroup` returns. -/
theorem ParseVersionGroup_nodup (name : String) : (ParseVersionGroup name).1.Nodup := by
  unfold ParseVersionGroup
  split <;> decide

/-- As many copies of `e` as `a` occurs in a list without repetition: one or
none. -/
theorem replicate_count_nodup {α : Type} [DecidableEq α] (l : List α) (a : α) (e : β)
    (h : l.Nodup) : List.replicate (l.count a) e = if a ∈ l then [e] else [] := by
  by_cases ha : a ∈ l
  · rw [if_pos ha, List.count_eq_one_of_mem h ha]
    rfl
  · rw [if_neg ha, List.count_eq_zero_of_not_mem ha]
    rfl

/-- The versions loop appends, to the list of a release, one entry per
occurrence of the release among the versions. -/
theorem moves_versions_slice (mid : Int) (method : String) (level : Int) (vs : List String)
    (m : List (String × List VersionedMoveEntry)) (ver : String) :
    GoMap.slice (BuildPokemon.moves.versions mid method level vs m) ver =
      GoMap.slice m ver ++ List.replicate (vs.count ver)
        { GameVersion := ver, MoveID := mid, Method := method
          LevelLearnedAt := toUint8 level, MachineNumber := 0 } := by
  induction vs generalizing m with
  | nil => simp [BuildPokemon.moves.versions]
  | cons v rest ih =>
    unfold BuildPokemon.moves.versions
    simp only
    rw [ih, GoMap_slice_insert]
    by_cases hv : v = ver
    · subst hv
      simp [List.replicate_succ]
    · have hv2 : ¬ (v == ver) = true := by simpa using hv
      simp [hv, List.count_cons, hv2]


/-- The details loop appends, to the list of a release, the entries of the
details whose release group holds the release, in source order. -/
theorem moves_details_slice (mid : Int) (url name : String) (ds : List apiVersionGroupDetail)
    (m : List (String × List VersionedMoveEntry)) (ver : String)
    (hmid : idFromURL url = (mid, none)) :
    GoMap.slice (BuildPokemon.moves.details mid ds m) ver =
      GoMap.slice m ver ++
        ((ds.filter (fun d => decide (ver ∈ (ParseVersionGroup d.VersionGroup.Name).1))).map
          (fun d => spec.entryOf ver ({ Name := name, URL := url }, d))) := by
  induction ds generalizing m with
  | nil => simp [BuildPokemon.moves.details]
  | cons d rest ih =>
    unfold BuildPokemon.moves.details
    simp only
    by_cases hnil : (ParseVersionGroup d.VersionGroup.Name).1 = []
    · rw [if_pos hnil, ih]
      simp [List.filter_cons, hnil]
    · rw [if_neg hnil, ih, moves_versions_slice,
        replicate_count_nodup _ _ _ (ParseVersionGroup_nodup _)]
      by_cases hmem : ver ∈ (ParseVersionGroup d.VersionGroup.Name).1
      · simp [List.filter_cons, hmem, spec.entryOf, hmid]
      · simp [List.filter_cons, hmem]

/-- The moves loop appends, to the list of a release, the entries of the release
in source order. -/
theorem moves_slice (l : List apiPokemonMove) (m : List (String × List VersionedMoveEntry))
    (ver : String) :
    GoMap.slice (BuildPokemon.moves l m) ver = GoMap.slice m ver ++ spec.entriesFor ver l := by
  induction l generalizing m with
  | nil => simp [BuildPokemon.moves, spec.entriesFor, spec.movePairs]
  | cons mv rest ih =>
    have hcons : spec.entriesFor ver (mv :: rest) =
        ((mv.VersionGroupDetails.map (fun d => (mv.Move, d))).filter (fun pair =>
            (idFromURL pair.1.URL).2.isNone &&
              decide (ver ∈ (ParseVersionGroup pair.2.VersionGroup.Name).1))).map
          (spec.entryOf ver) ++ spec.entriesFor ver rest := by
      simp only [spec.entriesFor, spec.movePairs, List.flatMap_cons, List.filter_append,
        List.map_append]
    unfold BuildPokemon.moves
    rcases hp : idFromURL mv.Move.URL with ⟨mid, _ | e⟩
    · simp only
      rw [ih, hcons, moves_details_slice mid mv.Move.URL mv.Move.Name _ _ _ hp,
        List.append_assoc]
      congr 2
      simp [List.filter_map, Function.comp_def, hp]
    · simp only
      rw [ih, hcons]
      simp [List.filter_map, Function.comp_def, hp]


/-- The `less` function of the moves block is the lexicographic order on level
and move ID. -/
theorem movesLess_true_iff (a b : VersionedMoveEntry) :
    BuildPokemon.movesLess a b = true ↔
      (a.LevelLearnedAt < b.LevelLearnedAt ∨
        (a.LevelLearnedAt = b.LevelLearnedAt ∧ a.MoveID < b.MoveID)) := by
  unfold BuildPokemon.movesLess
  by_cases h : a.LevelLearnedAt = b.LevelLearnedAt
  · simp [h]
  · simp only [ne_eq, h, not_false_eq_true, if_true, decide_eq_true_eq, false_and, or_false]

/-- When `less` is false the second entry comes first or ties in that order. -/
theorem movesLess_false_iff (a b : VersionedMoveEntry) :
    BuildPokemon.movesLess a b = false ↔
      (b.LevelLearnedAt < a.LevelLearnedAt ∨
        (b.LevelLearnedAt = a.LevelLearnedAt ∧ b.MoveID ≤ a.MoveID)) := by
  rw [← Bool.not_eq_true, movesLess_true_iff]
  omega

/-- The `less` function of the moves block is a transitive ordering in the sense
of the Go library: asymmetric, transitive, and transitive on its negation. -/
theorem movesLess_ordering :
    (∀ a b, BuildPokemon.movesLess a b = true → BuildPokemon.movesLess b a = false) ∧
    (∀ a b c, BuildPokemon.movesLess a b = true → BuildPokemon.movesLess b c = true →
      BuildPokemon.movesLess a c = true) ∧
    (∀ a b c, BuildPokemon.movesLess a b = false → BuildPokemon.movesLess b c = false →
      BuildPokemon.movesLess a c = false) := by
  refine ⟨?_, ?_, ?_⟩
  · intro a b
    rw [movesLess_true_iff, movesLess_false_iff]
    omega
  · intro a b c
    rw [movesLess_true_iff, movesLess_true_iff, movesLess_true_iff]
    omega
  · intro a b c
    rw [movesLess_false_iff, movesLess_false_iff, movesLess_false_iff]
    omega

/-- The inner loop of the insertion sort rearranges `x` and the sorted elements. -/
theorem shift_perm {α : Type} (less : α → α → Bool) (x : α) (l : List α) :
    (insertionSort_func.shift less x l).Perm (x :: l) := by
  induction l with
  | nil => exact List.Perm.refl _
  | cons y rest ih =>
    unfold insertionSort_func.shift
    by_cases h : less x y = true
    · rw [if_pos h]
      exact (List.Perm.cons y ih).trans (List.Perm.swap x y rest)
    · rw [if_neg h]

/-- The outer loop of the insertion sort rearranges its elements. -/
theorem run_perm {α : Type} (less : α → α → Bool) (l sorted : List α) :
    (insertionSort_func.run less l sorted).Perm (sorted ++ l) := by
  induction l generalizing sorted with
  | nil => simp [insertionSort_func.run]
  | cons x rest ih =>
    unfold insertionSort_func.run
    refine (ih _).trans ?_
    refine ((shift_perm less x sorted).append_right rest).trans ?_
    simpa using (@List.perm_middle α x sorted rest).symm

/-- The inner loop of the insertion sort keeps the elements to the left sorted. -/
theorem shift_sorted {α : Type} (less : α → α → Bool)
    (hasym : ∀ a b, less a b = true → less b a = false)
    (hneg : ∀ a b c, less a b = false → less b c = false → less a c = false)
    (x : α) (l : List α) (hl : l.Pairwise (fun a b => less a b = false)) :
    (insertionSort_func.shift less x l).Pairwise (fun a b => less a b = false) := by
  induction l with
  | nil => simp [insertionSort_func.shift]
  | cons y rest ih =>
    unfold insertionSort_func.shift
    rw [List.pairwise_cons] at hl
    by_cases h : less x y = true
    · rw [if_pos h, List.pairwise_cons]
      refine ⟨?_, ih hl.2⟩
      intro b hb
      rcases List.mem_cons.mp ((shift_perm less x rest).mem_iff.mp hb) with rfl | hbr
      · exact hasym _ y h
      · exact hl.1 b hbr
    · have hxy : less x y = false := by simpa using h
      rw [if_neg h, List.pairwise_cons]
      refine ⟨?_, List.pairwise_cons.mpr hl⟩
      intro b hb
      rcases List.mem_cons.mp hb with rfl | hbr
      · exact hxy
      · exact hneg x y b hxy (hl.1 b hbr)

/-- The outer loop of the insertion sort ends with a sorted list. -/
theorem run_sorted {α : Type} (less : α → α → Bool)
    (hasym : ∀ a b, less a b = true → less b a = false)
    (hneg : ∀ a b c, less a b = false → less b c = false → less a c = false)
    (l sorted : List α) (hs : sorted.Pairwise (fun a b => less a b = false)) :
    (insertionSort_func.run less l sorted).Pairwise (fun a b => less b a = false) := by
  induction l generalizing sorted with
  | nil =>
    unfold insertionSort_func.run
    exact List.pairwise_reverse.mpr hs
  | cons x rest ih =>
    unfold insertionSort_func.run
    exact ih _ (shift_sorted less hasym hneg x sorted hs)

/-- The insertion sort of the Go library does what the library documents of
`sort.Slice`. -/
theorem insertionSort_func_contract {α : Type} :
    SortSliceContract (insertionSort_func : (α → α → Bool) → List α → List α) := by
  intro less l
  refine ⟨by simpa [insertionSort_func] using run_perm less l [], ?_⟩
  intro hasym _ hneg
  exact run_sorted less hasym hneg l [] List.Pairwise.nil

/-- The list the moves block returns for a release is the sorted list of what
the grouping collected for it, and the nil slice for a release that is no key. -/
theorem versionedMoves_slice
    (sortSlice : (VersionedMoveEntry → VersionedMoveEntry → Bool) →
      List VersionedMoveEntry → List VersionedMoveEntry)
    (moves : List apiPokemonMove) (ver : String) :
    GoMap.slice (BuildPokemon.versionedMoves sortSlice moves) ver =
      match GoMap.lookup (BuildPokemon.moves moves []) ver with
      | some v => sortSlice BuildPokemon.movesLess v
      | none => [] := by
  unfold GoMap.slice BuildPokemon.versionedMoves
  rw [GoMap_lookup_map]
  cases GoMap.lookup (BuildPokemon.moves moves []) ver <;> rfl

/-- Under the documented behaviour of `sort.Slice`, the list of a release is a
rearrangement of the entries of the release and is sorted by `less`. -/
theorem versionedMoves_slice_sorted_perm
    (sortSlice : (VersionedMoveEntry → VersionedMoveEntry → Bool) →
      List VersionedMoveEntry → List VersionedMoveEntry)
    (hc : SortSliceContract sortSlice) (moves : List apiPokemonMove) (ver : String) :
    (GoMap.slice (BuildPokemon.versionedMoves sortSlice moves) ver).Perm
        (spec.entriesFor ver moves) ∧
      (GoMap.slice (BuildPokemon.versionedMoves sortSlice moves) ver).Pairwise
        (fun a b => BuildPokemon.movesLess b a = false) := by
  have hgroup := moves_slice moves [] ver
  rw [versionedMoves_slice]
  unfold GoMap.slice at hgroup
  rcases hl : GoMap.lookup (BuildPokemon.moves moves []) ver with _ | v
  · rw [hl] at hgroup
    simp only [GoMap.lookup, Option.getD_none, List.nil_append] at hgroup
    rw [← hgroup]
    exact ⟨List.Perm.refl _, List.Pairwise.nil⟩
  · rw [hl] at hgroup
    simp only [GoMap.lookup, Option.getD_some, Option.getD_none, List.nil_append] at hgroup
    rw [← hgroup]
    exact ⟨(hc _ v).1,
      (hc _ v).2 movesLess_ordering.1 movesLess_ordering.2.1 movesLess_ordering.2.2⟩

/-- C23: for every key of the `VersionedMoves` map of `BuildPokemon`, the list
is sorted by `LevelLearnedAt` ascending and, among entries with the same level,
by `MoveID` ascending; `sortSlice` is any function that does what the Go library
documents of `sort.Slice`. -/
theorem C23_learnsets_sorted
    (sortSlice : (VersionedMoveEntry → VersionedMoveEntry → Bool) →
      List VersionedMoveEntry → List VersionedMoveEntry)
    (hc : SortSliceContract sortSlice) (moves : List apiPokemonMove) :
    ∀ kv ∈ BuildPokemon.versionedMoves sortSlice moves,
      kv.2.Pairwise (fun a b =>
        a.LevelLearnedAt < b.LevelLearnedAt ∨
          (a.LevelLearnedAt = b.LevelLearnedAt ∧ a.MoveID ≤ b.MoveID)) := by
  intro kv hkv
  unfold BuildPokemon.versionedMoves at hkv
  rw [List.mem_map] at hkv
  obtain ⟨kv0, _, rfl⟩ := hkv
  have hs := (hc BuildPokemon.movesLess kv0.2).2 movesLess_ordering.1 movesLess_ordering.2.1
    movesLess_ordering.2.2
  refine hs.imp ?_
  intro a b hab
  exact (movesLess_false_iff b a).mp hab

/-- C23, on a record whose moves are listed out of order, with the insertion
sort of the library: the list of Red is Toxic (level 0), Tackle (level 1, move
33), Growl (level 1, move 45), Leech Seed (level 7). -/
theorem C23_learnsets_sorted_witness :
    (GoMap.slice (BuildPokemon.versionedMoves insertionSort_func sample.learnsetRaw.Moves)
        "GameRed").map (fun e => (e.LevelLearnedAt, e.MoveID)) =
      [(0, 92), (1, 33), (1, 45), (7, 73)] ∧
    (GoMap.slice (BuildPokemon.versionedMoves insertionSort_func sample.learnsetRaw.Moves)
        "GameRed").Pairwise (fun a b =>
        a.LevelLearnedAt < b.LevelLearnedAt ∨
          (a.LevelLearnedAt = b.LevelLearnedAt ∧ a.MoveID ≤ b.MoveID)) :=
  ⟨by decide,
   C23_learnsets_sorted insertionSort_func insertionSort_func_contract
     sample.learnsetRaw.Moves
     ("GameRed",
      GoMap.slice (BuildPokemon.versionedMoves insertionSort_func sample.learnsetRaw.Moves)
        "GameRed")
     (by decide)⟩

/-- Two moves lists that differ in the order of their entries, or in the order
of the details inside their moves, have the same (move, version-group detail)
pairs up to order. -/
theorem movePairs_perm (moves1 moves2 : List apiPokemonMove)
    (h : moves1.Perm moves2 ∨
      List.Forall₂ (fun a b => a.Move = b.Move ∧
        a.VersionGroupDetails.Perm b.VersionGroupDetails) moves1 moves2) :
    (spec.movePairs moves1).Perm (spec.movePairs moves2) := by
  rcases h with h | h
  · exact List.Perm.flatMap_right _ h
  · induction h with
    | nil => exact List.Perm.refl _
    | cons hab _ ih =>
      rename_i a b l1 l2
      unfold spec.movePairs at ih ⊢
      rw [List.flatMap_cons, List.flatMap_cons, hab.1]
      exact List.Perm.append (hab.2.map _) ih

/-- Two sorted rearrangements of the same entries are the same list when entries
that tie on level and move ID are equal. -/
theorem sorted_perm_unique (l1 l2 : List VersionedMoveEntry) (hp : l1.Perm l2)
    (h1 : l1.Pairwise (fun a b => BuildPokemon.movesLess b a = false))
    (h2 : l2.Pairwise (fun a b => BuildPokemon.movesLess b a = false))
    (htie : ∀ a ∈ l1, ∀ b ∈ l1,
      a.LevelLearnedAt = b.LevelLearnedAt → a.MoveID = b.MoveID → a = b) :
    l1 = l2 := by
  have hr : ∀ a ∈ l1, ∀ b ∈ l1, BuildPokemon.movesLess b a = false →
      (BuildPokemon.movesLess b a = false ∧ (BuildPokemon.movesLess a b = false → a = b)) := by
    intro a ha b hb hba
    refine ⟨hba, fun hab => ?_⟩
    rw [movesLess_false_iff] at hba hab
    exact htie a ha b hb (by omega) (by omega)
  have hanti : IsAntisymm VersionedMoveEntry (fun a b =>
      BuildPokemon.movesLess b a = false ∧ (BuildPokemon.movesLess a b = false → a = b)) :=
    ⟨fun a b hab hba => hab.2 hba.1⟩
  refine @List.eq_of_perm_of_sorted _ (fun a b =>
      BuildPokemon.movesLess b a = false ∧ (BuildPokemon.movesLess a b = false → a = b))
    hanti l1 l2 hp ?_ ?_
  · exact h1.imp_of_mem (fun ha hb hab => hr _ ha _ hb hab)
  · exact h2.imp_of_mem (fun ha hb hab =>
      hr _ (hp.mem_iff.mpr ha) _ (hp.mem_iff.mpr hb) hab)

/-- C24 fails as stated: with the insertion sort that `sort.Slice` runs on a
slice of two elements, two records that differ only in the order of the two
details of their one move (by machine, and as an egg move, both at level 0)
get different lists for Gold: the two entries tie on level and move ID and stay
in source order. -/
theorem C24_tied_entries_keep_source_order :
    sample.eggFirstRaw.Moves.map (fun m => (m.Move, m.VersionGroupDetails.reverse)) =
      sample.machineFirstRaw.Moves.map (fun m => (m.Move, m.VersionGroupDetails)) ∧
    (GoMap.slice (BuildPokemon.versionedMoves insertionSort_func sample.machineFirstRaw.Moves)
        "GameGold").map (fun e => e.Method) = ["LearnMachine", "LearnEgg"] ∧
    (GoMap.slice (BuildPokemon.versionedMoves insertionSort_func sample.eggFirstRaw.Moves)
        "GameGold").map (fun e => e.Method) = ["LearnEgg", "LearnMachine"] ∧
    GoMap.slice (BuildPokemon.versionedMoves insertionSort_func sample.machineFirstRaw.Moves)
        "GameGold" ≠
      GoMap.slice (BuildPokemon.versionedMoves insertionSort_func sample.eggFirstRaw.Moves)
        "GameGold" := by
  decide

/-- C24, amended: for two creature records that differ only in the order of the
entries of their moves list, or of the version-group details inside a move, the
acquisition lists `BuildPokemon` returns for a release hold the same entries,
and they are identical, entry for entry, whenever no two different entries of
the release have the same level and the same move identifier. `sortSlice` is any
function that does what the Go library documents of `sort.Slice`. -/
theorem C24_learnsets_up_to_ties
    (sortSlice : (VersionedMoveEntry → VersionedMoveEntry → Bool) →
      List VersionedMoveEntry → List VersionedMoveEntry)
    (hc : SortSliceContract sortSlice) (moves1 moves2 : List apiPokemonMove) (ver : String)
    (h : moves1.Perm moves2 ∨
      List.Forall₂ (fun a b => a.Move = b.Move ∧
        a.VersionGroupDetails.Perm b.VersionGroupDetails) moves1 moves2) :
    (GoMap.slice (BuildPokemon.versionedMoves sortSlice moves1) ver).Perm
        (GoMap.slice (BuildPokemon.versionedMoves sortSlice moves2) ver) ∧
    ((∀ a ∈ GoMap.slice (BuildPokemon.versionedMoves sortSlice moves1) ver,
        ∀ b ∈ GoMap.slice (BuildPokemon.versionedMoves sortSlice moves1) ver,
          a.LevelLearnedAt = b.LevelLearnedAt → a.MoveID = b.MoveID → a = b) →
      GoMap.slice (BuildPokemon.versionedMoves sortSlice moves1) ver =
        GoMap.slice (BuildPokemon.versionedMoves sortSlice moves2) ver) := by
  obtain ⟨hp1, hs1⟩ := versionedMoves_slice_sorted_perm sortSlice hc moves1 ver
  obtain ⟨hp2, hs2⟩ := versionedMoves_slice_sorted_perm sortSlice hc moves2 ver
  have hentries : (spec.entriesFor ver moves1).Perm (spec.entriesFor ver moves2) :=
    ((movePairs_perm moves1 moves2 h).filter _).map _
  have hperm := (hp1.trans hentries).trans hp2.symm
  exact ⟨hperm, fun htie => sorted_perm_unique _ _ hperm hs1 hs2 htie⟩

/-- C24 amended, on the out-of-order record and the same record with its moves
list reversed, with the insertion sort of the library: no two entries of Red tie
and the two lists of Red are identical. -/
theorem C24_learnsets_witness :
    GoMap.slice (BuildPokemon.versionedMoves insertionSort_func sample.learnsetRaw.Moves)
        "GameRed" =
      GoMap.slice (BuildPokemon.versionedMoves insertionSort_func
        sample.learnsetRaw.Moves.reverse) "GameRed" :=
  (C24_learnsets_up_to_ties insertionSort_func insertionSort_func_contract
    sample.learnsetRaw.Moves sample.learnsetRaw.Moves.reverse "GameRed"
    (Or.inl (List.reverse_perm _).symm)).2 (by decide)

/-- C25 fails as stated: a move whose locator has no number is dropped with all
its details. The record has one (move, version-group detail) pair whose release
group, red-blue, expands to a list containing Red, and the list of Red holds no
entry. -/
theorem C25_move_without_identifier_dropped :
    (spec.movePairs sample.moveWithoutNumberRaw.Moves).filter (fun pair =>
        decide ("GameRed" ∈ (ParseVersionGroup pair.2.VersionGroup.Name).1)) =
      [({ Name := "pound", URL := "https://pokeapi.co/api/v2/move/pound/" },
        { LevelLearnedAt := 1, MoveLearnMethod := { Name := "level-up", URL := "" }
          VersionGroup := { Name := "red-blue", URL := "" } })] ∧
    (idFromURL "https://pokeapi.co/api/v2/move/pound/").2 ≠ none ∧
    GoMap.slice (BuildPokemon.versionedMoves insertionSort_func
        sample.moveWithoutNumberRaw.Moves) "GameRed" = [] := by
  decide

/-- C25, amended: for every release, the acquisition list `BuildPokemon` returns
for it holds exactly one entry for each (move, version-group detail) pair whose
move has a parseable locator and whose release group expands under
`ParseVersionGroup` to a list containing the release, carrying the identifier of
the move, the folded learn method and the level of the detail (as stored in 8
bits), and no other entry; a detail whose release group is outside the seven
in-scope groups contributes to no release, and a name that is no in-scope
release has an empty list. `sortSlice` is any function that does what the Go
library documents of `sort.Slice`. -/
theorem C25_learnset_entries
    (sortSlice : (VersionedMoveEntry → VersionedMoveEntry → Bool) →
      List VersionedMoveEntry → List VersionedMoveEntry)
    (hc : SortSliceContract sortSlice) (moves : List apiPokemonMove) (ver : String) :
    (GoMap.slice (BuildPokemon.versionedMoves sortSlice moves) ver).Perm
        (spec.entriesFor ver moves) ∧
    (∀ group : String,
      group ∉ ["red-blue", "yellow", "gold-silver", "crystal", "ruby-sapphire", "emerald",
        "firered-leafgreen"] →
      ∀ r : String, r ∉ (ParseVersionGroup group).1) ∧
    (ver ∉ ["GameRed", "GameBlue", "GameYellow", "GameGold", "GameSilver", "GameCrystal",
        "GameRuby", "GameSapphire", "GameEmerald", "GameFireRed", "GameLeafGreen"] →
      GoMap.slice (BuildPokemon.versionedMoves sortSlice moves) ver = []) := by
  have hperm := (versionedMoves_slice_sorted_perm sortSlice hc moves ver).1
  refine ⟨hperm, ?_, ?_⟩
  · intro group hgroup r
    simp only [List.mem_cons, List.mem_singleton, List.not_mem_nil, or_false, not_or] at hgroup
    unfold ParseVersionGroup
    split <;> simp_all
  · intro hver
    have hnone : ∀ group : String, ver ∉ (ParseVersionGroup group).1 := by
      intro group hmem
      apply hver
      revert hmem
      unfold ParseVersionGroup
      split <;> simp only [List.mem_cons, List.mem_singleton, List.not_mem_nil, or_false] <;>
        tauto
    have hnil : spec.entriesFor ver moves = [] := by
      unfold spec.entriesFor
      rw [List.map_eq_nil_iff, List.filter_eq_nil_iff]
      intro pair _
      simp [hnone pair.2.VersionGroup.Name]
    rw [hnil] at hperm
    exact hperm.eq_nil

/-- C25 amended, on the out-of-order record with the insertion sort of the
library: the list of Gold holds the one entry of the gold-silver detail of
Tackle, and the later release group of Tackle contributes to no release. -/
theorem C25_learnset_entries_witness :
    spec.entriesFor "GameGold" sample.learnsetRaw.Moves =
      [{ GameVersion := "GameGold", MoveID := 33, Method := "LearnLevelUp"
         LevelLearnedAt := 1, MachineNumber := 0 }] ∧
    (GoMap.slice (BuildPokemon.versionedMoves insertionSort_func sample.learnsetRaw.Moves)
        "GameGold").Perm (spec.entriesFor "GameGold" sample.learnsetRaw.Moves) ∧
    (∀ r : String, r ∉ (ParseVersionGroup "diamond-pearl").1) :=
  ⟨by decide,
   (C25_learnset_entries insertionSort_func insertionSort_func_contract
     sample.learnsetRaw.Moves "GameGold").1,
   (C25_learnset_entries insertionSort_func insertionSort_func_contract
     sample.learnsetRaw.Moves "GameGold").2.1 "diamond-pearl" (by decide)⟩

/-! ## Claims about the collection passes -/

/-- The keys of a map after the assignment `m[k] = v`. -/
theorem GoMap_keys_insert {κ ν : Type} [DecidableEq κ] (m : List (κ × ν)) (k k' : κ) (v : ν) :
    k' ∈ (GoMap.insert m k v).map Prod.fst ↔ k' = k ∨ k' ∈ m.map Prod.fst := by
  induction m with
  | nil => simp [GoMap.insert]
  | cons kv rest ih =>
    obtain ⟨k0, v0⟩ := kv
    unfold GoMap.insert
    by_cases h0 : k0 = k
    · subst h0
      simp
    · rw [if_neg h0, List.map_cons, List.mem_cons, ih, List.map_cons, List.mem_cons]
      tauto

/-- The inner loop of the first pass of `CollectMoves` succeeds when every
locator parses, and adds the identifiers of the moves to the keys. -/
theorem moveIDs_ok (l : List apiPokemonMove) (ids : List (Int × Bool))
    (h : ∀ m ∈ l, (idFromURL m.Move.URL).2 = none) :
    ∃ ids', CollectMoves.moveIDs l ids = .ok ids' ∧
      ∀ id, id ∈ ids'.map Prod.fst ↔
        id ∈ ids.map Prod.fst ∨ id ∈ l.map (fun m => (idFromURL m.Move.URL).1) := by
  induction l generalizing ids with
  | nil => exact ⟨ids, rfl, by simp⟩
  | cons m rest ih =>
    have hm := h m (List.mem_cons_self _ _)
    unfold CollectMoves.moveIDs
    rcases hid : idFromURL m.Move.URL with ⟨mid, _ | e⟩
    · obtain ⟨ids', hok, hkeys⟩ :=
        ih (GoMap.insert ids mid true) (fun m' hm' => h m' (List.mem_cons_of_mem _ hm'))
      refine ⟨ids', hok, fun id => ?_⟩
      rw [hkeys, GoMap_keys_insert, List.map_cons, List.mem_cons, hid]
      tauto
    · rw [hid] at hm
      cases hm

/-- The first pass of `CollectMoves` succeeds when every creature file is
readable and every move locator parses, and adds the identifiers of the
referenced moves to the keys. -/
theorem CollectMoves_firstPass_ok (dir : DataDir) (pokemonIDs : List Int)
    (ids : List (Int × Bool))
    (h : ∀ pid ∈ pokemonIDs, ∃ p, dir.pokemon pid = .ok p ∧
      ∀ m ∈ p.Moves, (idFromURL m.Move.URL).2 = none) :
    ∃ ids', CollectMoves.firstPass dir pokemonIDs ids = .ok ids' ∧
      ∀ id, id ∈ ids'.map Prod.fst ↔
        id ∈ ids.map Prod.fst ∨ id ∈ spec.referencedMoves dir pokemonIDs := by
  induction pokemonIDs generalizing ids with
  | nil => exact ⟨ids, rfl, by simp [spec.referencedMoves]⟩
  | cons pid rest ih =>
    obtain ⟨p, hp, hmoves⟩ := h pid (List.mem_cons_self _ _)
    obtain ⟨ids1, hok1, hkeys1⟩ := moveIDs_ok p.Moves ids hmoves
    obtain ⟨ids2, hok2, hkeys2⟩ := ih ids1 (fun q hq => h q (List.mem_cons_of_mem _ hq))
    refine ⟨ids2, ?_, fun id => ?_⟩
    · unfold CollectMoves.firstPass
      simp only [hp, hok1]
      exact hok2
    · rw [hkeys2, hkeys1]
      unfold spec.referencedMoves
      rw [List.flatMap_cons, List.mem_append]
      simp only [hp]
      tauto

/-- What the second pass of `CollectMoves` leaves under an identifier: the
compiled move when the identifier is a key of the first pass and the move
builds, and what was there before otherwise. -/
theorem CollectMoves_secondPass_lookup (dir : DataDir) (ids : List (Int × Bool))
    (moves : List (Int × MoveData)) (id : Int) :
    GoMap.lookup (CollectMoves.secondPass dir ids moves) id =
      if id ∈ ids.map Prod.fst then
        match BuildMove.fromFile dir id with
        | .ok m => some m
        | .error _ => GoMap.lookup moves id
      else GoMap.lookup moves id := by
  induction ids generalizing moves with
  | nil => simp [CollectMoves.secondPass]
  | cons kv rest ih =>
    obtain ⟨k, b⟩ := kv
    unfold CollectMoves.secondPass
    rcases hk : BuildMove.fromFile dir k with e | m
    · simp only [ih, List.map_cons, List.mem_cons]
      by_cases hid : id = k
      · subst hid
        simp [hk]
      · simp [hid]
    · simp only [ih, List.map_cons, List.mem_cons, GoMap_lookup_insert]
      by_cases hid : id = k
      · subst hid
        simp [hk]
      · have hid' : ¬ k = id := fun h => hid h.symm
        simp [hid, hid']

/-- C29 fails as stated: `CollectMoves` does not succeed for every working set
in which a referenced move cannot be compiled. In both working sets creature 35
references the move 584, which `BuildMove` cannot compile; with creature 7,
whose file is missing, `CollectMoves` returns the error of reading that file,
and with creature 906, whose move has a locator without a number, it returns
the error of `idFromURL`. -/
theorem C29_CollectMoves_fails_in_first_pass :
    BuildMove.fromFile sample.collectDir 584 = .error (.unknownType "fairy") ∧
    spec.referencedMoves sample.collectDir [35, 7] = [44, 584] ∧
    CollectMoves sample.collectDir [35, 7] =
      .error (.wrap "reading pokemon" 7 (.readJSON "pokemon/index.json")) ∧
    BuildMove.fromFile sample.brokenLocatorDir 584 = .error (.unknownType "fairy") ∧
    CollectMoves sample.brokenLocatorDir [35, 906] = .error (.atoiSyntax "pound") :=
  ⟨rfl, by decide, rfl, rfl, rfl⟩

/-- C29, amended: when every creature file of the working set is readable and
every move locator parses, `CollectMoves` succeeds whether or not the referenced
moves compile; its result has no entry under the identifier of a move that
`BuildMove` cannot compile, holds every referenced move that compiles under its
identifier, and holds nothing under an identifier no creature references. -/
theorem C29_CollectMoves_drops_uncompilable (dir : DataDir) (pokemonIDs : List Int)
    (h : ∀ pid ∈ pokemonIDs, ∃ p, dir.pokemon pid = .ok p ∧
      ∀ m ∈ p.Moves, (idFromURL m.Move.URL).2 = none) :
    ∃ moves, CollectMoves dir pokemonIDs = .ok moves ∧
      ∀ id,
        (∀ err, BuildMove.fromFile dir id = .error err → GoMap.lookup moves id = none) ∧
        (∀ m, id ∈ spec.referencedMoves dir pokemonIDs →
          BuildMove.fromFile dir id = .ok m → GoMap.lookup moves id = some m) ∧
        (id ∉ spec.referencedMoves dir pokemonIDs → GoMap.lookup moves id = none) := by
  obtain ⟨ids, hok, hkeys⟩ := CollectMoves_firstPass_ok dir pokemonIDs [] h
  refine ⟨CollectMoves.secondPass dir ids [], ?_, fun id => ?_⟩
  · unfold CollectMoves
    rw [hok]
  · have hk : id ∈ ids.map Prod.fst ↔ id ∈ spec.referencedMoves dir pokemonIDs := by
      rw [hkeys]
      simp
    rw [CollectMoves_secondPass_lookup]
    refine ⟨fun err herr => ?_, fun m hmem hm => ?_, fun hmem => ?_⟩
    · rw [herr]
      simp [GoMap.lookup]
    · rw [if_pos (hk.mpr hmem), hm]
    · rw [if_neg (fun hin => hmem (hk.mp hin))]
      rfl

/-- C29 amended, on the sample directory and the working set of creatures 1 and 35: the
creature files are readable, creature 35 references Bite (44), which compiles,
and a move of a later era (584), which does not; the collection succeeds, has no
entry under 584 and holds the compiled Bite under 44. -/
theorem C29_CollectMoves_witness :
    spec.referencedMoves sample.collectDir [1, 35] = [44, 584] ∧
    BuildMove.fromFile sample.collectDir 584 = .error (.unknownType "fairy") ∧
    BuildMove.fromFile sample.collectDir 44 = .ok sample.biteData ∧
    ∃ moves, CollectMoves sample.collectDir [1, 35] = .ok moves ∧
      GoMap.lookup moves 584 = none ∧ GoMap.lookup moves 44 = some sample.biteData := by
  have hread : ∀ pid ∈ [1, 35], ∃ p, sample.collectDir.pokemon pid = .ok p ∧
      ∀ m ∈ p.Moves, (idFromURL m.Move.URL).2 = none := by
    intro pid hpid
    simp only [List.mem_cons, List.mem_singleton, List.not_mem_nil, or_false] at hpid
    rcases hpid with rfl | rfl
    · exact ⟨sample.bulbasaurRaw, rfl, by decide⟩
    · exact ⟨sample.clefairyRefsRaw, rfl, by decide⟩
  have h584 : BuildMove.fromFile sample.collectDir 584 = .error (.unknownType "fairy") := rfl
  have h44 : BuildMove.fromFile sample.collectDir 44 = .ok sample.biteData := rfl
  obtain ⟨moves, hok, hall⟩ := C29_CollectMoves_drops_uncompilable sample.collectDir [1, 35] hread
  exact ⟨by decide, h584, h44, moves, hok, (hall 584).1 _ h584,
    (hall 44).2.1 _ (by decide) h44⟩

/-- The inner loop of the first pass of `CollectAbilities` succeeds when the
locator of every trait that is not hidden parses, and adds the identifiers of
those traits to the keys. -/
theorem abilityIDs_ok (l : List apiAbilitySlot) (ids : List (Int × Bool))
    (h : ∀ a ∈ l, a.IsHidden = false → (idFromURL a.Ability.URL).2 = none) :
    ∃ ids', CollectAbilities.abilityIDs l ids = .ok ids' ∧
      ∀ id, id ∈ ids'.map Prod.fst ↔
        id ∈ ids.map Prod.fst ∨
          id ∈ (l.filter (fun a => !a.IsHidden)).map (fun a => (idFromURL a.Ability.URL).1) := by
  induction l generalizing ids with
  | nil => exact ⟨ids, rfl, by simp⟩
  | cons a rest ih =>
    have hrest : ∀ a' ∈ rest, a'.IsHidden = false → (idFromURL a'.Ability.URL).2 = none :=
      fun a' ha' => h a' (List.mem_cons_of_mem _ ha')
    unfold CollectAbilities.abilityIDs
    by_cases hh : a.IsHidden = true
    · obtain ⟨ids', hok, hkeys⟩ := ih ids hrest
      refine ⟨ids', ?_, fun id => ?_⟩
      · rw [if_pos hh]
        exact hok
      · rw [hkeys, List.filter_cons_of_neg (by simp [hh])]
    · have ha := h a (List.mem_cons_self _ _) (by simpa using hh)
      rw [if_neg hh]
      rcases hid : idFromURL a.Ability.URL with ⟨aid, _ | e⟩
      · obtain ⟨ids', hok, hkeys⟩ := ih (GoMap.insert ids aid true) hrest
        refine ⟨ids', hok, fun id => ?_⟩
        rw [hkeys, GoMap_keys_insert, List.filter_cons_of_pos (by simpa using hh),
          List.map_cons, List.mem_cons, hid]
        tauto
      · rw [hid] at ha
        cases ha

/-- The first pass of `CollectAbilities` succeeds when every creature file is
readable and the locator of every trait that is not hidden parses, and adds the
identifiers of the referenced traits to the keys. -/
theorem CollectAbilities_firstPass_ok (dir : DataDir) (pokemonIDs : List Int)
    (ids : List (Int × Bool))
    (h : ∀ pid ∈ pokemonIDs, ∃ p, dir.pokemon pid = .ok p ∧
      ∀ a ∈ p.Abilities, a.IsHidden = false → (idFromURL a.Ability.URL).2 = none) :
    ∃ ids', CollectAbilities.firstPass dir pokemonIDs ids = .ok ids' ∧
      ∀ id, id ∈ ids'.map Prod.fst ↔
        id ∈ ids.map Prod.fst ∨ id ∈ spec.referencedAbilities dir pokemonIDs := by
  induction pokemonIDs generalizing ids with
  | nil => exact ⟨ids, rfl, by simp [spec.referencedAbilities]⟩
  | cons pid rest ih =>
    obtain ⟨p, hp, habs⟩ := h pid (List.mem_cons_self _ _)
    obtain ⟨ids1, hok1, hkeys1⟩ := abilityIDs_ok p.Abilities ids habs
    obtain ⟨ids2, hok2, hkeys2⟩ := ih ids1 (fun q hq => h q (List.mem_cons_of_mem _ hq))
    refine ⟨ids2, ?_, fun id => ?_⟩
    · unfold CollectAbilities.firstPass
      simp only [hp, hok1]
      exact hok2
    · rw [hkeys2, hkeys1]
      unfold spec.referencedAbilities
      rw [List.flatMap_cons, List.mem_append]
      simp only [hp]
      tauto

/-- The second pass of `CollectAbilities` ends with the wrapped error of a trait
that does not build as soon as one of its keys is such a trait. -/
theorem CollectAbilities_secondPass_error (dir : DataDir) (ids : List (Int × Bool))
    (abilities : List (Int × AbilityData))
    (h : ∃ id ∈ ids.map Prod.fst, ∃ err, BuildAbility.fromFile dir id = .error err) :
    ∃ id ∈ ids.map Prod.fst, ∃ err, BuildAbility.fromFile dir id = .error err ∧
      CollectAbilities.secondPass dir ids abilities =
        .error (.wrap "building ability" id err) := by
  induction ids generalizing abilities with
  | nil =>
    obtain ⟨id, hid, _⟩ := h
    simp at hid
  | cons kv rest ih =>
    obtain ⟨k, b⟩ := kv
    unfold CollectAbilities.secondPass
    rcases hk : BuildAbility.fromFile dir k with e | a
    · exact ⟨k, by simp, e, hk, rfl⟩
    · have hrest : ∃ id ∈ rest.map Prod.fst, ∃ err,
          BuildAbility.fromFile dir id = .error err := by
        obtain ⟨id, hid, err, herr⟩ := h
        rw [List.map_cons, List.mem_cons] at hid
        rcases hid with hid | hid
        · rw [hid, hk] at herr
          cases herr
        · exact ⟨id, hid, err, herr⟩
      obtain ⟨id, hid, err, herr, hres⟩ := ih (GoMap.insert abilities k a) hrest
      exact ⟨id, List.mem_cons_of_mem _ hid, err, herr, hres⟩

/-- The second pass of `CollectAbilities` succeeds when every key builds, and
leaves under an identifier the compiled trait when the identifier is a key, and
what was there before otherwise. -/
theorem CollectAbilities_secondPass_ok (dir : DataDir) (ids : List (Int × Bool))
    (abilities : List (Int × AbilityData))
    (h : ∀ id ∈ ids.map Prod.fst, ∃ a, BuildAbility.fromFile dir id = .ok a) :
    ∃ abilities', CollectAbilities.secondPass dir ids abilities = .ok abilities' ∧
      ∀ id, GoMap.lookup abilities' id =
        if id ∈ ids.map Prod.fst then
          match BuildAbility.fromFile dir id with
          | .ok a => some a
          | .error _ => none
        else GoMap.lookup abilities id := by
  induction ids generalizing abilities with
  | nil => exact ⟨abilities, rfl, by simp⟩
  | cons kv rest ih =>
    obtain ⟨k, b⟩ := kv
    obtain ⟨a, hk⟩ := h k (by simp)
    obtain ⟨abilities', hok, hlook⟩ :=
      ih (GoMap.insert abilities k a) (fun id hid => h id (List.mem_cons_of_mem _ hid))
    refine ⟨abilities', ?_, fun id => ?_⟩
    · unfold CollectAbilities.secondPass
      simp only [hk]
      exact hok
    · rw [hlook, GoMap_lookup_insert]
      simp only [List.map_cons, List.mem_cons]
      by_cases hid : id = k
      · subst hid
        simp [hk]
      · have hid' : ¬ k = id := fun h => hid h.symm
        simp [hid, hid']

/-- C30 on the sample directory, where creature 35 references two traits that
are not hidden, Cute Charm (56), whose file compiles, and a trait (98) whose
file is missing: `CollectAbilities` aborts with the wrapped error of trait 98
and returns no table, so Cute Charm and Overgrow (65, referenced by creature 1)
are not returned either, where `CollectMoves` continues past a move that does
not compile. -/
theorem C30_CollectAbilities_aborts :
    spec.referencedAbilities sample.collectDir [1, 35] = [65, 56, 98] ∧
    BuildAbility.fromFile sample.collectDir 65 = .ok (BuildAbility sample.overgrowRaw) ∧
    BuildAbility.fromFile sample.collectDir 56 = .ok (BuildAbility sample.cuteCharmRaw) ∧
    BuildAbility.fromFile sample.collectDir 98 = .error (.readJSON "ability/index.json") ∧
    CollectAbilities sample.collectDir [1, 35] =
      .error (.wrap "building ability" 98 (.readJSON "ability/index.json")) :=
  ⟨by decide, rfl, rfl, rfl, rfl⟩

/-- What `CollectAbilities` does: when every creature file of the working set is
readable and the locator of every trait that is not hidden parses, it aborts
with the wrapped error of a referenced trait whenever some referenced trait that
is not hidden cannot be compiled by `BuildAbility`; it succeeds exactly when
every such trait compiles, and then its result holds every referenced trait
under its identifier and nothing under any other identifier. -/
theorem CollectAbilities_aborts_or_complete (dir : DataDir) (pokemonIDs : List Int)
    (h : ∀ pid ∈ pokemonIDs, ∃ p, dir.pokemon pid = .ok p ∧
      ∀ a ∈ p.Abilities, a.IsHidden = false → (idFromURL a.Ability.URL).2 = none) :
    ((∃ id ∈ spec.referencedAbilities dir pokemonIDs, ∃ err,
        BuildAbility.fromFile dir id = .error err) →
      ∃ id ∈ spec.referencedAbilities dir pokemonIDs, ∃ err,
        BuildAbility.fromFile dir id = .error err ∧
        CollectAbilities dir pokemonIDs = .error (.wrap "building ability" id err)) ∧
    ((∀ id ∈ spec.referencedAbilities dir pokemonIDs, ∃ a,
        BuildAbility.fromFile dir id = .ok a) →
      ∃ abilities, CollectAbilities dir pokemonIDs = .ok abilities ∧
        ∀ id,
          (∀ a, id ∈ spec.referencedAbilities dir pokemonIDs →
            BuildAbility.fromFile dir id = .ok a → GoMap.lookup abilities id = some a) ∧
          (id ∉ spec.referencedAbilities dir pokemonIDs → GoMap.lookup abilities id = none)) := by
  obtain ⟨ids, hok, hkeys⟩ := CollectAbilities_firstPass_ok dir pokemonIDs [] h
  have hk : ∀ id, id ∈ ids.map Prod.fst ↔ id ∈ spec.referencedAbilities dir pokemonIDs := by
    intro id
    rw [hkeys]
    simp
  constructor
  · rintro ⟨id, hid, err, herr⟩
    obtain ⟨id', hid', err', herr', hres⟩ :=
      CollectAbilities_secondPass_error dir ids [] ⟨id, (hk id).mpr hid, err, herr⟩
    refine ⟨id', (hk id').mp hid', err', herr', ?_⟩
    unfold CollectAbilities
    rw [hok]
    exact hres
  · intro hall
    obtain ⟨abilities, hres, hlook⟩ :=
      CollectAbilities_secondPass_ok dir ids [] (fun id hid => hall id ((hk id).mp hid))
    refine ⟨abilities, ?_, fun id => ⟨fun a hmem ha => ?_, fun hmem => ?_⟩⟩
    · unfold CollectAbilities
      rw [hok]
      exact hres
    · rw [hlook, if_pos ((hk id).mpr hmem), ha]
    · rw [hlook, if_neg (fun hin => hmem ((hk id).mp hin))]
      rfl

/-- The two cases of `CollectAbilities` on the sample directory: with the working
set of creature 1 alone, whose one trait that is not hidden compiles, the
collection succeeds and
holds Overgrow under 65 and nothing under the hidden trait 34; with creatures 1
and 35 it aborts with the wrapped error of a referenced trait. -/
theorem CollectAbilities_aborts_or_complete_sample :
    (∃ abilities, CollectAbilities sample.collectDir [1] = .ok abilities ∧
      GoMap.lookup abilities 65 = some (BuildAbility sample.overgrowRaw) ∧
      GoMap.lookup abilities 34 = none) ∧
    (∃ id ∈ spec.referencedAbilities sample.collectDir [1, 35], ∃ err,
      BuildAbility.fromFile sample.collectDir id = .error err ∧
      CollectAbilities sample.collectDir [1, 35] =
        .error (.wrap "building ability" id err)) := by
  have hread : ∀ pid ∈ [1, 35], ∃ p, sample.collectDir.pokemon pid = .ok p ∧
      ∀ a ∈ p.Abilities, a.IsHidden = false → (idFromURL a.Ability.URL).2 = none := by
    intro pid hpid
    simp only [List.mem_cons, List.mem_singleton, List.not_mem_nil, or_false] at hpid
    rcases hpid with rfl | rfl
    · exact ⟨sample.bulbasaurRaw, rfl, by decide⟩
    · exact ⟨sample.clefairyRefsRaw, rfl, by decide⟩
  have hread1 : ∀ pid ∈ [1], ∃ p, sample.collectDir.pokemon pid = .ok p ∧
      ∀ a ∈ p.Abilities, a.IsHidden = false → (idFromURL a.Ability.URL).2 = none :=
    fun pid hpid => hread pid (List.mem_cons.mpr (Or.inl (List.mem_singleton.mp hpid)))
  have hrefs : spec.referencedAbilities sample.collectDir [1] = [65] := by decide
  constructor
  · obtain ⟨abilities, hok, hall⟩ :=
      (CollectAbilities_aborts_or_complete sample.collectDir [1] hread1).2 (by
        intro id hid
        rw [hrefs, List.mem_singleton] at hid
        subst hid
        exact ⟨_, rfl⟩)
    exact ⟨abilities, hok, (hall 65).1 _ (by decide) rfl, (hall 34).2 (by decide)⟩
  · exact (CollectAbilities_aborts_or_complete sample.collectDir [1, 35] hread).1
      ⟨98, by decide, _, rfl⟩

/-! ## Claims about the move table lookup -/

/-- C31 fails as stated: `lm.Move()` is the bare index expression
`AllMoves[lm.MoveID]`. With the table never populated (the nil slice), and with
a table of 50 slots and the identifier 584, the lookup is out of range, which is
a run-time fault and not the nil result; only an empty slot inside the table
gives nil. -/
theorem C31_Move_faults_beyond_table :
    LearnedMove.Move [] sample.learnsBite = none ∧
    sample.allMovesTable.length = 50 ∧
    LearnedMove.Move sample.allMovesTable sample.learnsBeyondTable = none ∧
    LearnedMove.Move sample.allMovesTable sample.learnsEmptySlot = some none := by
  decide

/-- C31, amended: for an identifier below the length of the table `lm.Move()`
does not fault and returns the content of the slot, which is nil when the slot
is empty; for an identifier at or beyond the length of the table (in particular
for every identifier when the table is empty) the lookup is out of range and
faults. `renderMovesTab`, the caller of `Move`, skips an entry exactly when the
lookup would fault or give nil, so that every lookup it makes returns a move. -/
theorem C31_Move_in_range_or_fault (AllMoves : List (Option Move)) (lm : LearnedMove) :
    (∀ h : lm.MoveID < AllMoves.length,
      LearnedMove.Move AllMoves lm = some (AllMoves.get ⟨lm.MoveID, h⟩)) ∧
    (AllMoves.length ≤ lm.MoveID → LearnedMove.Move AllMoves lm = none) ∧
    (AllMoves = [] → LearnedMove.Move AllMoves lm = none) ∧
    (tui.renderMovesTab.skips AllMoves lm = false ↔
      ∃ mv, LearnedMove.Move AllMoves lm = some (some mv)) := by
  refine ⟨fun h => ?_, fun h => ?_, fun h => ?_, ?_⟩
  · unfold LearnedMove.Move
    rw [List.getElem?_eq_getElem h]
    rfl
  · unfold LearnedMove.Move
    exact List.getElem?_eq_none h
  · subst h
    rfl
  · unfold tui.renderMovesTab.skips LearnedMove.Move
    rcases hget : AllMoves[lm.MoveID]? with _ | _ | mv
    · simp
    · simp
    · have hlt : lm.MoveID < AllMoves.length := by
        by_contra hge
        rw [List.getElem?_eq_none (Nat.le_of_not_lt hge)] at hget
        cases hget
      have hne : AllMoves ≠ [] := by
        intro h
        rw [h] at hlt
        exact Nat.not_lt_zero _ hlt
      simp [hne, hlt]

/-- C31 amended, on the table of 50 slots: the lookup of Bite returns the move
of slot 44 and `renderMovesTab` does not skip it; the lookup of 584 faults. -/
theorem C31_Move_witness :
    LearnedMove.Move sample.allMovesTable sample.learnsBite = some (some sample.bite) ∧
    tui.renderMovesTab.skips sample.allMovesTable sample.learnsBite = false ∧
    LearnedMove.Move sample.allMovesTable sample.learnsBeyondTable = none :=
  ⟨(C31_Move_in_range_or_fault sample.allMovesTable sample.learnsBite).1 (by decide),
   by decide,
   (C31_Move_in_range_or_fault sample.allMovesTable sample.learnsBeyondTable).2.1 (by decide)⟩

/-! ## Claims about traits, numeric fields and the remaining enumerations -/

/-- The loop of `BuildAbility` computes the reference of the specification. -/
theorem shortDesc_eq (entries : List apiEffectEntry) :
    BuildAbility.shortDesc entries = spec.shortDescOf entries := by
  induction entries with
  | nil => rfl
  | cons e rest ih =>
    unfold BuildAbility.shortDesc spec.shortDescOf
    by_cases h : e.Language.Name = "en"
    · simp [h]
    · rw [if_neg h, ih]
      simp [spec.shortDescOf, h]

/-- C33: `BuildAbility` copies `ID` and `Name` from the record and sets
`ShortDesc` to the short effect of the first effect entry, in source order,
whose language name is "en": entries in other languages before it are passed
over, entries after it are not read, and the empty string is returned when no
entry is tagged "en". On a trait file it returns the error of reading the file
or this record. -/
theorem C33_BuildAbility_first_english (a : apiAbility) :
    BuildAbility a =
      { ID := a.ID, Name := a.Name, ShortDesc := spec.shortDescOf a.EffectEntries } ∧
    (∀ pre e post, a.EffectEntries = pre ++ e :: post →
      (∀ x ∈ pre, x.Language.Name ≠ "en") → e.Language.Name = "en" →
      (BuildAbility a).ShortDesc = e.ShortEffect) ∧
    ((∀ x ∈ a.EffectEntries, x.Language.Name ≠ "en") → (BuildAbility a).ShortDesc = "") ∧
    (∀ (dir : DataDir) (id : Int), dir.ability id = .ok a →
      BuildAbility.fromFile dir id = .ok (BuildAbility a)) := by
  have hdesc : (BuildAbility a).ShortDesc = spec.shortDescOf a.EffectEntries :=
    shortDesc_eq a.EffectEntries
  refine ⟨?_, ?_, ?_, ?_⟩
  · unfold BuildAbility
    rw [shortDesc_eq]
  · intro pre e post hsplit hpre he
    rw [hdesc, hsplit]
    unfold spec.shortDescOf
    have hfind : (pre ++ e :: post).find? (fun e => decide (e.Language.Name = "en")) =
        some e := by
      rw [List.find?_append]
      have hnone : pre.find? (fun e => decide (e.Language.Name = "en")) = none := by
        rw [List.find?_eq_none]
        intro x hx
        simpa using hpre x hx
      rw [hnone]
      simp [he]
    rw [hfind]
    rfl
  · intro hall
    rw [hdesc]
    unfold spec.shortDescOf
    have hnone : a.EffectEntries.find? (fun e => decide (e.Language.Name = "en")) = none := by
      rw [List.find?_eq_none]
      intro x hx
      simpa using hall x hx
    rw [hnone]
    rfl
  · intro dir id hfile
    unfold BuildAbility.fromFile
    rw [hfile]

/-- C33 on Overgrow, whose description in French comes before the one in
English, and on a record with no description in English. -/
theorem C33_BuildAbility_witness :
    (BuildAbility sample.overgrowRaw).ShortDesc = "Strengthens grass moves." ∧
    (BuildAbility sample.frenchOnlyRaw).ShortDesc = "" :=
  ⟨(C33_BuildAbility_first_english sample.overgrowRaw).2.1
      [{ Language := { Name := "fr", URL := "" }
         ShortEffect := "Renforce les capacités de type Plante." }]
      { Language := { Name := "en", URL := "" }, ShortEffect := "Strengthens grass moves." }
      [] rfl (by decide) rfl,
   (C33_BuildAbility_first_english sample.frenchOnlyRaw).2.2.1 (by decide)⟩

/-- The numeric fields of a record that compiles are the conversions to 8 bits of
the source fields, 0 for an absent field. -/
theorem BuildMove_numbers (m : apiMove) (d : MoveData) (h : BuildMove m = .ok d) :
    d.Power = (match m.Power with
      | some v => toUint8 v
      | none => 0) ∧
    d.Accuracy = (match m.Accuracy with
      | some v => toUint8 v
      | none => 0) ∧
    d.PP = (match m.PP with
      | some v => toUint8 v
      | none => 0) := by
  unfold BuildMove at h
  rcases hp : ParsePokeType m.Type_.Name with ⟨b, _ | e⟩
  · rcases hc : ParseDamageClass m.DamageClass.Name with ⟨c, _ | e⟩
    · rw [hp, hc] at h
      simp only [Except.ok.injEq] at h
      subst h
      exact ⟨rfl, rfl, rfl⟩
    · rw [hp, hc] at h
      cases h
  · rw [hp] at h
    cases h

/-- The conversion to 8 bits is the remainder modulo 256. -/
theorem toUint8_eq_emod (v : Int) : (toUint8 v : Int) = v % 256 := by
  unfold toUint8
  exact Int.toNat_of_nonneg (Int.emod_nonneg v (by decide))

/-- C34: for every raw move record that compiles, each of `Power`, `Accuracy`
and `PP` of the result is 0 when the source field is absent, is the source value
`v` when `0 ≤ v ≤ 255`, and in general is `v mod 256`, a value below 256. -/
theorem C34_BuildMove_numeric_fields (m : apiMove) (d : MoveData) (h : BuildMove m = .ok d) :
    (m.Power = none → d.Power = 0) ∧
    (m.Accuracy = none → d.Accuracy = 0) ∧
    (m.PP = none → d.PP = 0) ∧
    (∀ v, m.Power = some v → (d.Power : Int) = v % 256 ∧ d.Power < 256 ∧
      (0 ≤ v → v ≤ 255 → (d.Power : Int) = v)) ∧
    (∀ v, m.Accuracy = some v → (d.Accuracy : Int) = v % 256 ∧ d.Accuracy < 256 ∧
      (0 ≤ v → v ≤ 255 → (d.Accuracy : Int) = v)) ∧
    (∀ v, m.PP = some v → (d.PP : Int) = v % 256 ∧ d.PP < 256 ∧
      (0 ≤ v → v ≤ 255 → (d.PP : Int) = v)) := by
  obtain ⟨hpow, hacc, hpp⟩ := BuildMove_numbers m d h
  have key : ∀ v : Int, (toUint8 v : Int) = v % 256 ∧ toUint8 v < 256 ∧
      (0 ≤ v → v ≤ 255 → (toUint8 v : Int) = v) := by
    intro v
    have hmod := toUint8_eq_emod v
    refine ⟨hmod, ?_, fun h0 h1 => toUint8_of_inRange v h0 h1⟩
    have hlt : v % 256 < 256 := Int.emod_lt_of_pos v (by decide)
    omega
  refine ⟨fun hn => ?_, fun hn => ?_, fun hn => ?_, fun v hv => ?_, fun v hv => ?_,
    fun v hv => ?_⟩
  · rw [hpow, hn]
  · rw [hacc, hn]
  · rw [hpp, hn]
  · rw [hpow, hv]
    exact key v
  · rw [hacc, hv]
    exact key v
  · rw [hpp, hv]
    exact key v

/-- C34 on a record with no power, an accuracy of 100 and a PP value of 300: the
result has power 0, accuracy 100 and PP 44, which is 300 mod 256. -/
theorem C34_BuildMove_numeric_witness :
    ∃ d, BuildMove sample.wideNumbersRaw = .ok d ∧
      d.Power = 0 ∧ (d.Accuracy : Int) = 100 ∧ (d.PP : Int) = 300 % 256 := by
  obtain ⟨d, hd⟩ : ∃ d, BuildMove sample.wideNumbersRaw = .ok d := ⟨_, rfl⟩
  have h := C34_BuildMove_numeric_fields sample.wideNumbersRaw d hd
  exact ⟨d, hd, h.1 rfl, (h.2.2.2.2.1 100 rfl).2.2 (by decide) (by decide),
    (h.2.2.2.2.2 300 rfl).1⟩

/-- C35: `encounterMethodConstant` returns a constant name for every string:
`EncounterWalk` for walk, grass and tall-grass, `EncounterSurf` for surf and
water, their own constants for old-rod, good-rod, super-rod and rock-smash,
`EncounterHeadbutt` for the three headbutt names, and the default
`EncounterWalk` for every other string; the result always names one of the seven
`EncounterMethod` constants of package `data`, whose values are 0 to 6. -/
theorem C35_encounterMethodConstant_total (name : String) :
    encounterMethodConstant "walk" = "EncounterWalk" ∧
    encounterMethodConstant "grass" = "EncounterWalk" ∧
    encounterMethodConstant "tall-grass" = "EncounterWalk" ∧
    encounterMethodConstant "surf" = "EncounterSurf" ∧
    encounterMethodConstant "water" = "EncounterSurf" ∧
    encounterMethodConstant "old-rod" = "EncounterOldRod" ∧
    encounterMethodConstant "good-rod" = "EncounterGoodRod" ∧
    encounterMethodConstant "super-rod" = "EncounterSuperRod" ∧
    encounterMethodConstant "rock-smash" = "EncounterRockSmash" ∧
    encounterMethodConstant "headbutt" = "EncounterHeadbutt" ∧
    encounterMethodConstant "headbutt-normal" = "EncounterHeadbutt" ∧
    encounterMethodConstant "headbutt-special" = "EncounterHeadbutt" ∧
    (name ∉ ["walk", "grass", "tall-grass", "surf", "water", "old-rod", "good-rod",
        "super-rod", "rock-smash", "headbutt", "headbutt-normal", "headbutt-special"] →
      encounterMethodConstant name = "EncounterWalk") ∧
    encounterMethodConstant name ∈ ["EncounterWalk", "EncounterSurf", "EncounterOldRod",
      "EncounterGoodRod", "EncounterSuperRod", "EncounterRockSmash", "EncounterHeadbutt"] ∧
    (∃ e, encounterMethodOfConstant (encounterMethodConstant name) = some e ∧ e ≤ 6) ∧
    ["EncounterWalk", "EncounterSurf", "EncounterOldRod", "EncounterGoodRod",
      "EncounterSuperRod", "EncounterRockSmash", "EncounterHeadbutt"].map
        encounterMethodOfConstant =
      [some EncounterWalk, some EncounterSurf, some EncounterOldRod, some EncounterGoodRod,
        some EncounterSuperRod, some EncounterRockSmash, some EncounterHeadbutt] := by
  have hmem : encounterMethodConstant name ∈ ["EncounterWalk", "EncounterSurf",
      "EncounterOldRod", "EncounterGoodRod", "EncounterSuperRod", "EncounterRockSmash",
      "EncounterHeadbutt"] := by
    unfold encounterMethodConstant
    split <;> decide
  refine ⟨rfl, rfl, rfl, rfl, rfl, rfl, rfl, rfl, rfl, rfl, rfl, rfl, ?_, hmem, ?_, by decide⟩
  · intro hname
    simp only [List.mem_cons, List.mem_singleton, List.not_mem_nil, or_false, not_or] at hname
    unfold encounterMethodConstant
    split <;> simp_all
  · simp only [List.mem_cons, List.mem_singleton, List.not_mem_nil, or_false] at hmem
    rcases hmem with h | h | h | h | h | h | h <;> rw [h] <;> exact ⟨_, rfl, by decide⟩

/-- C35 on a method name of a later era, which is none of the twelve names. -/
theorem C35_encounterMethodConstant_witness :
    encounterMethodConstant "gift" = "EncounterWalk" :=
  (C35_encounterMethodConstant_total "gift").2.2.2.2.2.2.2.2.2.2.2.2.1 (by decide)

/-- C36: `GenForVersion` is 1 for Red, Blue and Yellow (1..3), 2 for Gold, Silver
and Crystal (4..6) and 3 for Ruby, Sapphire, Emerald, FireRed and LeafGreen
(7..11), and it is monotone non-decreasing in the release code. -/
theorem C36_GenForVersion_table (v w : Nat) :
    (1 ≤ v → v ≤ 3 → GenForVersion v = 1) ∧
    (4 ≤ v → v ≤ 6 → GenForVersion v = 2) ∧
    (7 ≤ v → v ≤ 11 → GenForVersion v = 3) ∧
    [GameRed, GameBlue, GameYellow, GameGold, GameSilver, GameCrystal, GameRuby, GameSapphire,
      GameEmerald, GameFireRed, GameLeafGreen].map GenForVersion =
      [1, 1, 1, 2, 2, 2, 3, 3, 3, 3, 3] ∧
    (v ≤ w → GenForVersion v ≤ GenForVersion w) := by
  have hdef : ∀ x : Nat, GenForVersion x = if x ≤ 3 then 1 else if x ≤ 6 then 2 else 3 :=
    fun _ => rfl
  refine ⟨fun _ h => ?_, fun h0 h => ?_, fun h0 _ => ?_, by decide, fun h => ?_⟩
  · rw [hdef, if_pos h]
  · rw [hdef, if_neg (by omega), if_pos h]
  · rw [hdef, if_neg (by omega), if_neg (by omega)]
  · rw [hdef, hdef]
    split_ifs <;> first | decide | omega

/-- C36 on Crystal (6) and Ruby (7). -/
theorem C36_GenForVersion_witness :
    GenForVersion GameCrystal = 2 ∧ GenForVersion GameRuby = 3 ∧
    GenForVersion GameCrystal ≤ GenForVersion GameRuby :=
  ⟨(C36_GenForVersion_table GameCrystal GameRuby).2.1 (by decide) (by decide),
   (C36_GenForVersion_table GameRuby GameRuby).2.2.1 (by decide) (by decide),
   (C36_GenForVersion_table GameCrystal GameRuby).2.2.2.2 (by decide)⟩

/-! ## Claims about the range of type codes and the monotonicity of the resolvers -/

/-- The type the move loop returns is the canonical type or the type of an
overlay. -/
theorem TypeForGen_loop_mem (gen : Generation) (canonical : PokeType) (l : List MoveTypePast) :
    Move.TypeForGen.loop gen canonical l = canonical ∨
      ∃ pt ∈ l, Move.TypeForGen.loop gen canonical l = pt.Type_ := by
  rcases Move_TypeForGen_loop_spec gen canonical l with ⟨pre, pt, post, hl, _, _, hres⟩ | ⟨_, hres⟩
  · exact Or.inr ⟨pt, by simp [hl], hres⟩
  · exact Or.inl hres

/-- C39: every type code the compiler can produce is at most 17: `ParsePokeType`
and `parsePokeTypeLenient` return a code in 0..17 for every string, and
`typeConstant` returns one of the 18 type constant names for every byte. For a
move whose type and overlay types are all at most 17, `CategoryForGen` and
`TypeForGen(g).String()` return a result for every generation: neither table
lookup is out of range. -/
theorem C39_type_codes_in_range (s : String) (t : Nat) (m : Move) (g : Generation) :
    (ParsePokeType s).1 ≤ 17 ∧
    parsePokeTypeLenient s ≤ 17 ∧
    typeConstant t ∈ ["TypeNone", "TypeNormal", "TypeFire", "TypeWater", "TypeGrass",
      "TypeElectric", "TypeIce", "TypeFighting", "TypePoison", "TypeGround", "TypeFlying",
      "TypePsychic", "TypeBug", "TypeRock", "TypeGhost", "TypeDragon", "TypeDark",
      "TypeSteel"] ∧
    (m.Type_ ≤ 17 → (∀ pt ∈ m.PastTypes, pt.Type_ ≤ 17) →
      m.TypeForGen g ≤ 17 ∧
      (∃ c, m.CategoryForGen g = some c) ∧
      (∃ name, PokeType.String (m.TypeForGen g) = some name)) := by
  have hparse : (ParsePokeType s).1 ≤ 17 := Nat.le_of_lt_succ (ParsePokeType_lt s)
  refine ⟨hparse, hparse, ?_, fun hcanon hover => ?_⟩
  · unfold typeConstant
    by_cases ht : t < 18
    · interval_cases t <;> decide
    · simp only [List.length_cons, List.length_nil]
      rw [dif_neg (by omega)]
      decide
  · have hres : m.TypeForGen g ≤ 17 := by
      unfold Move.TypeForGen
      rcases TypeForGen_loop_mem g m.Type_ m.PastTypes with h | ⟨pt, hpt, h⟩
      · rw [h]
        exact hcanon
      · rw [h]
        exact hover pt hpt
    have hlt : m.TypeForGen g < 18 := Nat.lt_succ_of_le hres
    refine ⟨hres, ?_, ?_⟩
    · unfold Move.CategoryForGen
      split_ifs
      · exact ⟨_, rfl⟩
      · exact ⟨_, rfl⟩
      · have hlen : m.TypeForGen g < preGen3PhysicalTypes.length := hlt
        rw [List.getElem?_eq_getElem hlen]
        cases preGen3PhysicalTypes[m.TypeForGen g] <;> exact ⟨_, rfl⟩
    · unfold PokeType.String
      have hlen : m.TypeForGen g < typeNames.length := hlt
      rw [List.getElem?_eq_getElem hlen]
      exact ⟨_, rfl⟩

/-- C39 on Bite, whose type and overlay type are Dark (16) and Normal (1): at
generation 1 its category is Physical and the name of its type is Normal. -/
theorem C39_type_codes_witness :
    sample.bite.CategoryForGen 1 = some CategoryPhysical ∧
    PokeType.String (sample.bite.TypeForGen 1) = some "Normal" ∧
    ∃ c, sample.bite.CategoryForGen 2 = some c :=
  ⟨by decide, by decide,
   ((C39_type_codes_in_range "dark" 16 sample.bite 2).2.2.2 (by decide) (by decide)).2.1⟩

/-- C40: the resolvers are monotone in the queried generation. For every overlay
list, in any order, and generations `g ≤ g'`: if no overlay applies at `g` then
none applies at `g'`, and both queries return the canonical value; if some
overlay applies at `g'` then some overlay applies at `g`, and the query at `g`
returns the value of an overlay. An overlay applies at a generation when the
generation is at most its `UntilGen`. This holds for `Move.TypeForGen` and for
`Pokemon.TypesForGen`. -/
theorem C40_resolvers_monotone (m : Move) (p : Pokemon) (g g' : Generation) (hg : g ≤ g') :
    ((∀ pt ∈ m.PastTypes, ¬ g ≤ pt.UntilGen) →
      (∀ pt ∈ m.PastTypes, ¬ g' ≤ pt.UntilGen) ∧
        m.TypeForGen g = m.Type_ ∧ m.TypeForGen g' = m.Type_) ∧
    ((∃ pt ∈ m.PastTypes, g' ≤ pt.UntilGen) →
      (∃ pt ∈ m.PastTypes, g ≤ pt.UntilGen) ∧
        ∃ pt ∈ m.PastTypes, g ≤ pt.UntilGen ∧ m.TypeForGen g = pt.Type_) ∧
    ((∀ pt ∈ p.PastTypes, ¬ g ≤ pt.UntilGen) →
      (∀ pt ∈ p.PastTypes, ¬ g' ≤ pt.UntilGen) ∧
        p.TypesForGen g = p.Types ∧ p.TypesForGen g' = p.Types) ∧
    ((∃ pt ∈ p.PastTypes, g' ≤ pt.UntilGen) →
      (∃ pt ∈ p.PastTypes, g ≤ pt.UntilGen) ∧
        ∃ pt ∈ p.PastTypes, g ≤ pt.UntilGen ∧ p.TypesForGen g = pt.Types) := by
  refine ⟨fun hnone => ?_, fun hsome => ?_, fun hnone => ?_, fun hsome => ?_⟩
  · have hnone' : ∀ pt ∈ m.PastTypes, ¬ g' ≤ pt.UntilGen :=
      fun pt hpt hle => hnone pt hpt (Nat.le_trans hg hle)
    refine ⟨hnone', ?_, ?_⟩
    · rcases Move_TypeForGen_loop_spec g m.Type_ m.PastTypes with
        ⟨pre, pt, post, hl, _, hpt, _⟩ | ⟨_, hres⟩
      · exact absurd hpt (hnone pt (by simp [hl]))
      · exact hres
    · rcases Move_TypeForGen_loop_spec g' m.Type_ m.PastTypes with
        ⟨pre, pt, post, hl, _, hpt, _⟩ | ⟨_, hres⟩
      · exact absurd hpt (hnone' pt (by simp [hl]))
      · exact hres
  · obtain ⟨q, hq, hle⟩ := hsome
    have hq' : g ≤ q.UntilGen := Nat.le_trans hg hle
    refine ⟨⟨q, hq, hq'⟩, ?_⟩
    rcases Move_TypeForGen_loop_spec g m.Type_ m.PastTypes with
      ⟨pre, pt, post, hl, _, hpt, hres⟩ | ⟨hall, _⟩
    · exact ⟨pt, by simp [hl], hpt, hres⟩
    · exact absurd hq' (Nat.not_le.mpr (hall q hq))
  · have hnone' : ∀ pt ∈ p.PastTypes, ¬ g' ≤ pt.UntilGen :=
      fun pt hpt hle => hnone pt hpt (Nat.le_trans hg hle)
    refine ⟨hnone', ?_, ?_⟩
    · rcases Pokemon_TypesForGen_loop_spec g p.Types p.PastTypes with
        ⟨pre, pt, post, hl, _, hpt, _⟩ | ⟨_, hres⟩
      · exact absurd hpt (hnone pt (by simp [hl]))
      · exact hres
    · rcases Pokemon_TypesForGen_loop_spec g' p.Types p.PastTypes with
        ⟨pre, pt, post, hl, _, hpt, _⟩ | ⟨_, hres⟩
      · exact absurd hpt (hnone' pt (by simp [hl]))
      · exact hres
  · obtain ⟨q, hq, hle⟩ := hsome
    have hq' : g ≤ q.UntilGen := Nat.le_trans hg hle
    refine ⟨⟨q, hq, hq'⟩, ?_⟩
    rcases Pokemon_TypesForGen_loop_spec g p.Types p.PastTypes with
      ⟨pre, pt, post, hl, _, hpt, hres⟩ | ⟨hall, _⟩
    · exact ⟨pt, by simp [hl], hpt, hres⟩
    · exact absurd hq' (Nat.not_le.mpr (hall q hq))

/-- C40 on Bite (overlay until generation 1) and Magnemite (overlay until
generation 1): no overlay applies at generation 2, so none applies at
generation 3 and both queries return the canonical value. -/
theorem C40_resolvers_witness :
    sample.bite.TypeForGen 2 = TypeDark ∧ sample.bite.TypeForGen 3 = TypeDark ∧
    sample.magnemite.TypesForGen 3 = sample.magnemite.Types :=
  ⟨((C40_resolvers_monotone sample.bite sample.magnemite 2 3 (by decide)).1
      (by decide)).2.1,
   ((C40_resolvers_monotone sample.bite sample.magnemite 2 3 (by decide)).1
      (by decide)).2.2,
   ((C40_resolvers_monotone sample.bite sample.magnemite 2 3 (by decide)).2.2.1
      (by decide)).2.2⟩

/-! ## Claims about the detail view -/

/-- The result of `wrapInt` is a Go `int`. -/
theorem wrapInt_range (v : Int) :
    -(2 : Int) ^ 63 ≤ tui.wrapInt v ∧ tui.wrapInt v < (2 : Int) ^ 63 := by
  unfold tui.wrapInt gen.intSize
  norm_num
  omega

/-- An `int` that does not overflow is not changed by `wrapInt`. -/
theorem wrapInt_of_inRange (v : Int) (h0 : -(2 : Int) ^ 63 ≤ v) (h1 : v < (2 : Int) ^ 63) :
    tui.wrapInt v = v := by
  unfold tui.wrapInt gen.intSize
  norm_num at h0 h1 ⊢
  omega

/-- Tab and Shift-Tab on one of the three tabs. -/
theorem tab_arith (t : Int) (h : t = 0 ∨ t = 1 ∨ t = 2) :
    Int.tmod (tui.wrapInt (t + 1)) 3 = (t + 1) % 3 ∧
    Int.tmod (tui.wrapInt (t + 2)) 3 = (t + 2) % 3 ∧
    Int.tmod (tui.wrapInt (Int.tmod (tui.wrapInt (t + 1)) 3 + 2)) 3 = t ∧
    Int.tmod (tui.wrapInt (Int.tmod (tui.wrapInt (t + 2)) 3 + 1)) 3 = t ∧
    Int.tmod (tui.wrapInt (Int.tmod (tui.wrapInt
      (Int.tmod (tui.wrapInt (t + 1)) 3 + 1)) 3 + 1)) 3 = t := by
  rcases h with rfl | rfl | rfl <;> decide

/-- What holds of every model the program can reach: the active tab is one of
the three tabs and the scroll offsets are Go `int` values. -/
theorem Update_invariant (m : tui.DetailModel) (msg : tui.Msg)
    (h : ((0 : Int) ≤ m.activeTab ∧ m.activeTab ≤ (2 : Int)) ∧
      (-(2 : Int) ^ 63 ≤ m.moveScroll ∧ m.moveScroll < (2 : Int) ^ 63) ∧
      (-(2 : Int) ^ 63 ≤ m.locationScroll ∧ m.locationScroll < (2 : Int) ^ 63)) :
    ((0 : Int) ≤ (m.Update msg).1.activeTab ∧ (m.Update msg).1.activeTab ≤ (2 : Int)) ∧
    (-(2 : Int) ^ 63 ≤ (m.Update msg).1.moveScroll ∧
      (m.Update msg).1.moveScroll < (2 : Int) ^ 63) ∧
    (-(2 : Int) ^ 63 ≤ (m.Update msg).1.locationScroll ∧
      (m.Update msg).1.locationScroll < (2 : Int) ^ 63) := by
  obtain ⟨pk, t, ver, ms, ls, w, ht⟩ := m
  simp only at h
  obtain ⟨ht, hms, hls⟩ := h
  have ht3 : (t : Int) = 0 ∨ t = 1 ∨ t = 2 := by omega
  have hzero : -(2 : Int) ^ 63 ≤ 0 ∧ (0 : Int) < (2 : Int) ^ 63 := by norm_num
  rcases msg with ⟨w', h'⟩ | ⟨key, runes⟩ | _
  · exact ⟨ht, hms, hls⟩
  · cases key
    · exact ⟨ht, hms, hls⟩
    · refine ⟨?_, hzero, hzero⟩
      show (0 : Int) ≤ Int.tmod (tui.wrapInt (t + 1)) 3 ∧
        Int.tmod (tui.wrapInt (t + 1)) 3 ≤ (2 : Int)
      rw [(tab_arith t ht3).1]
      omega
    · refine ⟨?_, hzero, hzero⟩
      show (0 : Int) ≤ Int.tmod (tui.wrapInt (t + 2)) 3 ∧
        Int.tmod (tui.wrapInt (t + 2)) 3 ≤ (2 : Int)
      rw [(tab_arith t ht3).2.1]
      omega
    · unfold tui.DetailModel.Update
      simp only
      split_ifs
      · exact ⟨ht, wrapInt_range _, hls⟩
      · exact ⟨ht, hms, hls⟩
      · exact ⟨ht, hms, wrapInt_range _⟩
      · exact ⟨ht, hms, hls⟩
      · exact ⟨ht, hms, hls⟩
    · unfold tui.DetailModel.Update
      simp only
      split_ifs
      · exact ⟨ht, wrapInt_range _, hls⟩
      · exact ⟨ht, hms, wrapInt_range _⟩
      · exact ⟨ht, hms, hls⟩
    · unfold tui.DetailModel.Update tui.DetailModel.Update.runes
      simp only
      split
      · split_ifs <;> exact ⟨ht, hms, hls⟩
      · exact ⟨ht, hms, hls⟩
    · exact ⟨ht, hms, hls⟩
  · exact ⟨ht, hms, hls⟩

/-- The invariant of `Update` holds along every sequence of messages. -/
theorem run_invariant (msgs : List tui.Msg) (m : tui.DetailModel)
    (h : ((0 : Int) ≤ m.activeTab ∧ m.activeTab ≤ (2 : Int)) ∧
      (-(2 : Int) ^ 63 ≤ m.moveScroll ∧ m.moveScroll < (2 : Int) ^ 63) ∧
      (-(2 : Int) ^ 63 ≤ m.locationScroll ∧ m.locationScroll < (2 : Int) ^ 63)) :
    ((0 : Int) ≤ (m.run msgs).activeTab ∧ (m.run msgs).activeTab ≤ (2 : Int)) ∧
    (-(2 : Int) ^ 63 ≤ (m.run msgs).moveScroll ∧ (m.run msgs).moveScroll < (2 : Int) ^ 63) ∧
    (-(2 : Int) ^ 63 ≤ (m.run msgs).locationScroll ∧
      (m.run msgs).locationScroll < (2 : Int) ^ 63) := by
  induction msgs generalizing m with
  | nil => exact h
  | cons msg rest ih =>
    unfold tui.DetailModel.run
    rw [List.foldl_cons]
    exact ih _ (Update_invariant m msg h)

/-- The Up key leaves a scroll offset that is not negative not negative. -/
theorem Update_up_nonneg (m : tui.DetailModel) (runes : List Char)
    (hms : -(2 : Int) ^ 63 ≤ m.moveScroll ∧ m.moveScroll < (2 : Int) ^ 63)
    (hls : -(2 : Int) ^ 63 ≤ m.locationScroll ∧ m.locationScroll < (2 : Int) ^ 63) :
    ((0 : Int) ≤ m.moveScroll → (0 : Int) ≤ (m.Update (.KeyMsg .KeyUp runes)).1.moveScroll) ∧
    ((0 : Int) ≤ m.locationScroll →
      (0 : Int) ≤ (m.Update (.KeyMsg .KeyUp runes)).1.locationScroll) := by
  obtain ⟨pk, t, ver, ms, ls, w, ht⟩ := m
  simp only at hms hls
  unfold tui.DetailModel.Update
  simp only
  constructor
  · intro h0
    split_ifs with h1 h2
    · show (0 : Int) ≤ tui.wrapInt (ms - 1)
      rw [wrapInt_of_inRange _ (by omega) (by omega)]
      omega
    all_goals exact h0
  · intro h0
    split_ifs with h1 h2 h3 h4
    · exact h0
    · exact h0
    · show (0 : Int) ≤ tui.wrapInt (ls - 1)
      rw [wrapInt_of_inRange _ (by omega) (by omega)]
      omega
    all_goals exact h0

/-- C38: for every model `m` the program can reach (a model of `NewDetailModel`
after any sequence of messages), the active tab is one of Stats (0), Moves (1)
and Locations (2); Tab maps the active tab `t` to `(t+1) mod 3` and Shift-Tab
maps it to `(t+2) mod 3`; Shift-Tab after Tab, and Tab after Shift-Tab, restore
the active tab, and three Tabs return to it; both keys reset `moveScroll` and
`locationScroll` to 0; and after the Up key a scroll offset that was not
negative is not negative. -/
theorem C38_tab_cycle (ByID : Nat → Option Pokemon) (pokemonID : Nat) (width height : Int)
    (msgs : List tui.Msg) (runes : List Char) :
    let m := (tui.NewDetailModel ByID pokemonID width height).run msgs
    let tab := fun (x : tui.DetailModel) => (x.Update (.KeyMsg .KeyTab runes)).1
    let shiftTab := fun (x : tui.DetailModel) => (x.Update (.KeyMsg .KeyShiftTab runes)).1
    let up := fun (x : tui.DetailModel) => (x.Update (.KeyMsg .KeyUp runes)).1
    (m.activeTab = tui.tabStats ∨ m.activeTab = tui.tabMoves ∨
      m.activeTab = tui.tabLocations) ∧
    (tab m).activeTab = (m.activeTab + 1) % 3 ∧
    (shiftTab m).activeTab = (m.activeTab + 2) % 3 ∧
    (shiftTab (tab m)).activeTab = m.activeTab ∧
    (tab (shiftTab m)).activeTab = m.activeTab ∧
    (tab (tab (tab m))).activeTab = m.activeTab ∧
    (tab m).moveScroll = 0 ∧ (tab m).locationScroll = 0 ∧
    (shiftTab m).moveScroll = 0 ∧ (shiftTab m).locationScroll = 0 ∧
    ((0 : Int) ≤ m.moveScroll → (0 : Int) ≤ (up m).moveScroll) ∧
    ((0 : Int) ≤ m.locationScroll → (0 : Int) ≤ (up m).locationScroll) := by
  intro m tab shiftTab up
  obtain ⟨hrange, hms, hls⟩ :=
    run_invariant msgs (tui.NewDetailModel ByID pokemonID width height)
      (by norm_num [tui.NewDetailModel])
  have hrange' : (0 : Int) ≤ m.activeTab ∧ m.activeTab ≤ (2 : Int) := hrange
  have ht3 : m.activeTab = 0 ∨ m.activeTab = 1 ∨ m.activeTab = 2 := by omega
  obtain ⟨h1, h2, h3, h4, h5⟩ := tab_arith m.activeTab ht3
  have hup := Update_up_nonneg m runes hms hls
  exact ⟨ht3, h1, h2, h3, h4, h5, rfl, rfl, rfl, rfl, hup.1, hup.2⟩

/-- C38 on the model of creature 81 after Tab, Down, Down: the active tab is
Moves and the scroll offset 2; Shift-Tab after Tab restores the tab, Tab resets
the scroll offset, and Up leaves the offset at 1. -/
theorem C38_tab_cycle_witness :
    ((tui.NewDetailModel (fun _ => some sample.magnemite) 81 80 24).run
      [.KeyMsg .KeyTab [], .KeyMsg .KeyDown [], .KeyMsg .KeyDown []]).activeTab = 1 ∧
    ((tui.NewDetailModel (fun _ => some sample.magnemite) 81 80 24).run
      [.KeyMsg .KeyTab [], .KeyMsg .KeyDown [], .KeyMsg .KeyDown []]).moveScroll = 2 ∧
    (((((tui.NewDetailModel (fun _ => some sample.magnemite) 81 80 24).run
      [.KeyMsg .KeyTab [], .KeyMsg .KeyDown [], .KeyMsg .KeyDown []]).Update
        (.KeyMsg .KeyTab [])).1).Update (.KeyMsg .KeyShiftTab [])).1.activeTab = 1 ∧
    (0 : Int) ≤ (((tui.NewDetailModel (fun _ => some sample.magnemite) 81 80 24).run
      [.KeyMsg .KeyTab [], .KeyMsg .KeyDown [], .KeyMsg .KeyDown []]).Update
        (.KeyMsg .KeyUp [])).1.moveScroll :=
  ⟨by decide, by decide,
   (C38_tab_cycle (fun _ => some sample.magnemite) 81 80 24
      [.KeyMsg .KeyTab [], .KeyMsg .KeyDown [], .KeyMsg .KeyDown []] []).2.2.2.1,
   (C38_tab_cycle (fun _ => some sample.magnemite) 81 80 24
      [.KeyMsg .KeyTab [], .KeyMsg .KeyDown [], .KeyMsg .KeyDown []] []).2.2.2.2.2.2.2.2.2.2.1
      (by decide)⟩

/-! ## Claims about the order of the emitted tables -/

/-- The assignment `m[k] = v` keeps the keys of a map distinct. -/
theorem GoMap_insert_nodup {κ ν : Type} [DecidableEq κ] (m : List (κ × ν)) (k : κ) (v : ν)
    (h : (m.map Prod.fst).Nodup) : ((GoMap.insert m k v).map Prod.fst).Nodup := by
  induction m with
  | nil => simp [GoMap.insert]
  | cons kv rest ih =>
    obtain ⟨k0, v0⟩ := kv
    rw [List.map_cons, List.nodup_cons] at h
    unfold GoMap.insert
    by_cases h0 : k0 = k
    · subst h0
      rw [if_pos rfl, List.map_cons, List.nodup_cons]
      exact h
    · rw [if_neg h0, List.map_cons, List.nodup_cons]
      refine ⟨fun hmem => ?_, ih h.2⟩
      rcases (GoMap_keys_insert rest k k0 v).mp hmem with heq | hin
      · exact h0 heq
      · exact h.1 hin

/-- The second pass of `CollectMoves` keeps the keys of the result distinct. -/
theorem CollectMoves_secondPass_nodup (dir : DataDir) (ids : List (Int × Bool))
    (moves : List (Int × MoveData)) (h : (moves.map Prod.fst).Nodup) :
    ((CollectMoves.secondPass dir ids moves).map Prod.fst).Nodup := by
  induction ids generalizing moves with
  | nil => exact h
  | cons kv rest ih =>
    obtain ⟨k, b⟩ := kv
    unfold CollectMoves.secondPass
    rcases BuildMove.fromFile dir k with e | m
    · exact ih moves h
    · exact ih _ (GoMap_insert_nodup moves k m h)

/-- The second pass of `CollectAbilities` keeps the keys of the result
distinct. -/
theorem CollectAbilities_secondPass_nodup (dir : DataDir) (ids : List (Int × Bool))
    (abilities result : List (Int × AbilityData)) (h : (abilities.map Prod.fst).Nodup)
    (hres : CollectAbilities.secondPass dir ids abilities = .ok result) :
    (result.map Prod.fst).Nodup := by
  induction ids generalizing abilities with
  | nil =>
    unfold CollectAbilities.secondPass at hres
    cases hres
    exact h
  | cons kv rest ih =>
    obtain ⟨k, b⟩ := kv
    unfold CollectAbilities.secondPass at hres
    rcases hk : BuildAbility.fromFile dir k with e | a
    · rw [hk] at hres
      cases hres
    · rw [hk] at hres
      exact ih _ (GoMap_insert_nodup abilities k a h) hres

/-- The identifiers an emitter goes through are the keys of its map, in strictly
ascending order. -/
theorem emitMoves_ids_sorted {ν : Type} (table : List (Int × ν))
    (h : (table.map Prod.fst).Nodup) :
    (emitMoves.ids table).Pairwise (fun a b => a < b) ∧
    (emitMoves.ids table).Perm (table.map Prod.fst) := by
  have hperm : (emitMoves.ids table).Perm (table.map Prod.fst) :=
    List.perm_insertionSort _ _
  have hsorted : (emitMoves.ids table).Sorted (fun a b => a ≤ b) :=
    List.sorted_insertionSort _ _
  exact ⟨hsorted.lt_of_le (hperm.nodup_iff.mpr h), hperm⟩

/-- The loop of `Run` over the creatures appends, in the order of the
identifiers, the record compiled from the file of each. -/
theorem Run_allPokemon_ok (dir : DataDir) (ids : List Int) (acc out : List PokemonData)
    (h : Run.allPokemon dir ids acc = .ok out) :
    ∃ built, out = acc ++ built ∧
      List.Forall₂ (fun id pk => BuildPokemon.fromFile dir id = .ok pk) ids built := by
  induction ids generalizing acc with
  | nil =>
    unfold Run.allPokemon at h
    cases h
    exact ⟨[], by simp, List.Forall₂.nil⟩
  | cons id rest ih =>
    unfold Run.allPokemon at h
    rcases hb : BuildPokemon.fromFile dir id with e | pk
    · rw [hb] at h
      cases h
    · rw [hb] at h
      obtain ⟨built, hout, hall⟩ := ih _ h
      exact ⟨pk :: built, by simp [hout], List.Forall₂.cons hb hall⟩

/-- The identifiers 1 to `n` are in strictly ascending order. -/
theorem range_succ_sorted (n : Nat) :
    ((List.range n).map (fun (i : Nat) => (i : Int) + 1)).Pairwise (fun a b => a < b) := by
  rw [List.pairwise_map]
  refine (List.pairwise_lt_range n).imp ?_
  intro a b h
  have h' : a < b := h
  show (a : Int) + 1 < (b : Int) + 1
  omega

/-- The default identifiers of `Run` are in strictly ascending order. -/
theorem Run_defaultIDs_sorted : Run.defaultIDs.Pairwise (fun a b => a < b) :=
  range_succ_sorted 386

/-- A key of a map has a value. -/
theorem GoMap_lookup_of_mem {κ ν : Type} [DecidableEq κ] (m : List (κ × ν)) (k : κ)
    (h : k ∈ m.map Prod.fst) : ∃ v, GoMap.lookup m k = some v := by
  induction m with
  | nil => simp at h
  | cons kv rest ih =>
    obtain ⟨k0, v0⟩ := kv
    unfold GoMap.lookup
    by_cases h0 : k0 = k
    · exact ⟨v0, by rw [if_pos h0]⟩
    · rw [if_neg h0]
      rw [List.map_cons, List.mem_cons] at h
      rcases h with h | h
      · exact absurd h.symm h0
      · exact ih h

/-- A compiled move carries the `ID` of its record. -/
theorem BuildMove_fromFile_ID (dir : DataDir) (id : Int) (d : MoveData)
    (h : BuildMove.fromFile dir id = .ok d) : ∃ raw, dir.move id = .ok raw ∧ d.ID = raw.ID := by
  unfold BuildMove.fromFile at h
  rcases hraw : dir.move id with e | raw
  · rw [hraw] at h
    cases h
  · rw [hraw] at h
    refine ⟨raw, rfl, ?_⟩
    replace h : BuildMove raw = .ok d := h
    unfold BuildMove at h
    rcases hp : ParsePokeType raw.Type_.Name with ⟨b, _ | e⟩
    · rcases hc : ParseDamageClass raw.DamageClass.Name with ⟨c, _ | e⟩
      · rw [hp, hc] at h
        simp only [Except.ok.injEq] at h
        subst h
        rfl
      · rw [hp, hc] at h
        cases h
    · rw [hp] at h
      cases h

/-- What the second pass of `CollectAbilities` returns under an identifier was
there before or is the trait compiled from the file of the identifier. -/
theorem CollectAbilities_secondPass_value (dir : DataDir) (ids : List (Int × Bool))
    (abilities result : List (Int × AbilityData))
    (hres : CollectAbilities.secondPass dir ids abilities = .ok result) (id : Int)
    (a : AbilityData) (h : GoMap.lookup result id = some a) :
    GoMap.lookup abilities id = some a ∨ BuildAbility.fromFile dir id = .ok a := by
  induction ids generalizing abilities with
  | nil =>
    unfold CollectAbilities.secondPass at hres
    cases hres
    exact Or.inl h
  | cons kv rest ih =>
    obtain ⟨k, b⟩ := kv
    unfold CollectAbilities.secondPass at hres
    rcases hk : BuildAbility.fromFile dir k with e | a0
    · rw [hk] at hres
      cases hres
    · rw [hk] at hres
      rcases ih _ hres with hl | hr
      · rw [GoMap_lookup_insert] at hl
        by_cases hkid : k = id
        · rw [if_pos hkid] at hl
          cases hl
          exact Or.inr (hkid ▸ hk)
        · rw [if_neg hkid] at hl
          exact Or.inl hl
      · exact Or.inr hr

/-- The identifiers printed for the records built from a list of creature files
whose `ID` is the identifier of the file. -/
theorem built_IDs (dir : DataDir) (ids : List Int) (built : List PokemonData)
    (hid : ∀ id raw, dir.pokemon id = .ok raw → raw.ID = id)
    (h : List.Forall₂ (fun id pk => BuildPokemon.fromFile dir id = .ok pk) ids built) :
    built.map (fun pk => pk.ID) = ids := by
  induction h with
  | nil => rfl
  | @cons id pk ids' built' hb _ ih =>
    rw [List.map_cons, ih]
    unfold BuildPokemon.fromFile at hb
    rcases hraw : dir.pokemon id with e | raw
    · rw [hraw] at hb
      cases hb
    · rw [hraw] at hb
      simp only [Except.ok.injEq] at hb
      subst hb
      have : (BuildPokemon raw).ID = raw.ID := rfl
      rw [this, hid id raw hraw]

/-- C32 on the sample directory, for the creature table: `Run` with the explicit
list 35, 1 emits the creatures in that order, 35 before 1, and with the list
1, 1 it compiles and emits creature 1 twice; the emitters of the move table and
of the trait table sort their identifiers. -/
theorem C32_creature_table_keeps_given_order :
    (∃ out, Run sample.runStat sample.runDir { PokemonIDs := some [35, 1] } = .ok out ∧
      out.pokemon.map (fun pk => pk.ID) = [35, 1]) ∧
    (∃ out, Run sample.runStat sample.runDir { PokemonIDs := some [1, 1] } = .ok out ∧
      out.pokemon.map (fun pk => pk.ID) = [1, 1]) :=
  ⟨⟨_, rfl, by decide⟩, ⟨_, rfl, by decide⟩⟩

/-- The order of the tables of `Run`: for every Config it accepts, the move table
and the trait table list their entries in strictly ascending order of identifier, one
entry per identifier of the collected map. The creature table lists, in the
order of `Config.PokemonIDs` and with its repetitions, the identifiers whose
file exists; it is in strictly ascending order when `Config.PokemonIDs` is nil
(the scan of 1 to 386) or is itself in strictly ascending order. The identifier
printed in an entry is the `ID` field of the record; when the `ID` of every
record is the identifier of its file, the printed identifiers are the
identifiers above. -/
theorem Run_tables_order (stat : Int → Bool) (dir : DataDir) (cfg : Config)
    (out : Run.Output) (h : Run stat dir cfg = .ok out) :
    (∃ moves, CollectMoves dir ((cfg.PokemonIDs.getD Run.defaultIDs).filter stat) = .ok moves ∧
      out.moves.2 = (emitMoves.ids moves).map (fun id => emitMoves.entry (emitMoves.at moves id)) ∧
      (emitMoves.ids moves).Pairwise (fun a b => a < b) ∧
      (emitMoves.ids moves).Perm (moves.map Prod.fst) ∧
      ((∀ id raw, dir.move id = .ok raw → raw.ID = id) →
        out.moves.2.map (fun e => e.ID) = emitMoves.ids moves)) ∧
    (∃ abilities,
      CollectAbilities dir ((cfg.PokemonIDs.getD Run.defaultIDs).filter stat) = .ok abilities ∧
      out.abilities.2 = (emitMoves.ids abilities).map (emitAbilities.at abilities) ∧
      (emitMoves.ids abilities).Pairwise (fun a b => a < b) ∧
      (emitMoves.ids abilities).Perm (abilities.map Prod.fst) ∧
      ((∀ id raw, dir.ability id = .ok raw → raw.ID = id) →
        out.abilities.2.map (fun e => e.ID) = emitMoves.ids abilities)) ∧
    List.Forall₂ (fun id pk => BuildPokemon.fromFile dir id = .ok pk)
      ((cfg.PokemonIDs.getD Run.defaultIDs).filter stat) out.pokemon ∧
    ((∀ id raw, dir.pokemon id = .ok raw → raw.ID = id) →
      out.pokemon.map (fun pk => pk.ID) = (cfg.PokemonIDs.getD Run.defaultIDs).filter stat) ∧
    (cfg.PokemonIDs = none →
      ((cfg.PokemonIDs.getD Run.defaultIDs).filter stat).Pairwise (fun a b => a < b)) ∧
    (∀ l, cfg.PokemonIDs = some l → l.Pairwise (fun a b => a < b) →
      ((cfg.PokemonIDs.getD Run.defaultIDs).filter stat).Pairwise (fun a b => a < b)) := by
  have hids : (match cfg.PokemonIDs with
      | none => Run.defaultIDs
      | some ids => ids) = cfg.PokemonIDs.getD Run.defaultIDs := by
    cases cfg.PokemonIDs <;> rfl
  have hnone : cfg.PokemonIDs = none →
      ((cfg.PokemonIDs.getD Run.defaultIDs).filter stat).Pairwise (fun a b => a < b) := by
    intro hcfg
    rw [hcfg]
    exact Run_defaultIDs_sorted.filter _
  have hsome : ∀ l, cfg.PokemonIDs = some l → l.Pairwise (fun a b => a < b) →
      ((cfg.PokemonIDs.getD Run.defaultIDs).filter stat).Pairwise (fun a b => a < b) := by
    intro l hcfg hl
    rw [hcfg]
    exact hl.filter _
  refine ⟨?_, ?_, ?_, ?_, hnone, hsome⟩ <;> clear hnone hsome
  all_goals
    unfold Run at h
    simp only [hids] at h
    generalize (cfg.PokemonIDs.getD Run.defaultIDs).filter stat = ids at h ⊢
    rcases hm : CollectMoves dir ids with e | moves
    · rw [hm] at h
      cases h
    rcases ha : CollectAbilities dir ids with e | abilities
    · rw [hm, ha] at h
      cases h
    rcases hp : Run.allPokemon dir ids [] with e | allPokemon
    · rw [hm, ha, hp] at h
      cases h
    rw [hm, ha, hp] at h
    simp only [Except.ok.injEq] at h
    subst h
  · have hmoves : ∃ moveIDs, moves = CollectMoves.secondPass dir moveIDs [] := by
      unfold CollectMoves at hm
      rcases hf : CollectMoves.firstPass dir ids [] with e | moveIDs
      · rw [hf] at hm
        cases hm
      · rw [hf] at hm
        simp only [Except.ok.injEq] at hm
        exact ⟨moveIDs, hm.symm⟩
    obtain ⟨moveIDs, hmoves⟩ := hmoves
    have hnodup : (moves.map Prod.fst).Nodup := by
      rw [hmoves]
      exact CollectMoves_secondPass_nodup dir moveIDs [] List.nodup_nil
    obtain ⟨hsorted, hperm⟩ := emitMoves_ids_sorted moves hnodup
    refine ⟨moves, rfl, rfl, hsorted, hperm, fun hid => ?_⟩
    show ((emitMoves.ids moves).map
      (fun id => emitMoves.entry (emitMoves.at moves id))).map (fun e => e.ID) = _
    rw [List.map_map]
    conv_rhs => rw [← List.map_id (emitMoves.ids moves)]
    refine List.map_congr_left (fun id hmem => ?_)
    obtain ⟨m, hlook⟩ := GoMap_lookup_of_mem moves id (hperm.mem_iff.mp hmem)
    have hfile : BuildMove.fromFile dir id = .ok m := by
      have hl := hlook
      rw [hmoves, CollectMoves_secondPass_lookup] at hl
      split_ifs at hl with hin
      · rcases hb : BuildMove.fromFile dir id with e | m'
        · rw [hb] at hl
          cases hl
        · rw [hb] at hl
          cases hl
          rfl
      · cases hl
    obtain ⟨raw, hraw, hID⟩ := BuildMove_fromFile_ID dir id m hfile
    show (emitMoves.entry (emitMoves.at moves id)).ID = id
    unfold emitMoves.at emitMoves.entry
    rw [hlook]
    show m.ID = id
    rw [hID, hid id raw hraw]
  · have hsecond : ∃ abilityIDs,
        CollectAbilities.secondPass dir abilityIDs [] = .ok abilities := by
      unfold CollectAbilities at ha
      rcases hf : CollectAbilities.firstPass dir ids [] with e | abilityIDs
      · rw [hf] at ha
        cases ha
      · rw [hf] at ha
        exact ⟨abilityIDs, ha⟩
    obtain ⟨abilityIDs, hsecond⟩ := hsecond
    have hnodup : (abilities.map Prod.fst).Nodup :=
      CollectAbilities_secondPass_nodup dir abilityIDs [] abilities List.nodup_nil hsecond
    obtain ⟨hsorted, hperm⟩ := emitMoves_ids_sorted abilities hnodup
    refine ⟨abilities, rfl, rfl, hsorted, hperm, fun hid => ?_⟩
    show ((emitMoves.ids abilities).map (emitAbilities.at abilities)).map (fun e => e.ID) = _
    rw [List.map_map]
    conv_rhs => rw [← List.map_id (emitMoves.ids abilities)]
    refine List.map_congr_left (fun id hmem => ?_)
    obtain ⟨a, hlook⟩ := GoMap_lookup_of_mem abilities id (hperm.mem_iff.mp hmem)
    have hfile : BuildAbility.fromFile dir id = .ok a := by
      rcases CollectAbilities_secondPass_value dir abilityIDs [] abilities hsecond id a hlook
        with hl | hr
      · cases hl
      · exact hr
    show (emitAbilities.at abilities id).ID = id
    unfold emitAbilities.at
    rw [hlook]
    show a.ID = id
    unfold BuildAbility.fromFile at hfile
    rcases hraw : dir.ability id with e | raw
    · rw [hraw] at hfile
      cases hfile
    · rw [hraw] at hfile
      simp only [Except.ok.injEq] at hfile
      subst hfile
      exact hid id raw hraw
  · obtain ⟨built, hout, hall⟩ := Run_allPokemon_ok dir ids [] allPokemon hp
    rw [List.nil_append] at hout
    subst hout
    exact hall
  · intro hid
    obtain ⟨built, hout, hall⟩ := Run_allPokemon_ok dir ids [] allPokemon hp
    rw [List.nil_append] at hout
    subst hout
    exact built_IDs dir ids _ hid hall

/-- The tables of `Run` on the sample directory with the list 1, 35, 150, of which the
files 1 and 35 exist: `Run` accepts it, the trait table is in the order 56, 65,
98, the move table holds Bite (44), the move of a later era being dropped, and
the creature table is 1, 35, each compiled from its file. -/
theorem Run_tables_order_sample :
    ∃ out, Run sample.runStat sample.runDir { PokemonIDs := some [1, 35, 150] } = .ok out ∧
      out.abilities.2.map (fun e => e.ID) = [56, 65, 98] ∧
      out.moves.2.map (fun e => e.ID) = [44] ∧
      out.pokemon.map (fun pk => pk.ID) = [1, 35] ∧
      List.Forall₂ (fun id pk => BuildPokemon.fromFile sample.runDir id = .ok pk)
        [1, 35] out.pokemon :=
  ⟨_, rfl, by decide, by decide, by decide,
   (Run_tables_order sample.runStat sample.runDir { PokemonIDs := some [1, 35, 150] } _
      rfl).2.2.1⟩

/-! ## Claims about the search -/

/-- The scores `scoreMatch` returns. -/
theorem scoreMatch_range (name query : String) :
    search.scoreMatch name query = 100 ∨ search.scoreMatch name query = 80 ∨
    search.scoreMatch name query = 60 ∨ search.scoreMatch name query = 40 ∨
    search.scoreMatch name query = 0 := by
  unfold search.scoreMatch search.scoreExact search.scorePrefix search.scoreContains
    search.scoreSubseq search.scoreNoMatch
  split_ifs <;> simp

/-- The `less` function of `filterOver` is the order by score descending, then by
index ascending. -/
theorem filterOver_less_true_iff (a b : search.scored) :
    search.filterOver.less a b = true ↔
      (b.score < a.score ∨ (a.score = b.score ∧ a.idx < b.idx)) := by
  unfold search.filterOver.less
  by_cases h : a.score = b.score
  · simp [h]
  · simp only [ne_eq, h, not_false_eq_true, if_true, decide_eq_true_eq, false_and, or_false,
      gt_iff_lt]

/-- When `less` is false the second element scores higher, or ties and does not
come later in the slice. -/
theorem filterOver_less_false_iff (a b : search.scored) :
    search.filterOver.less a b = false ↔
      (a.score < b.score ∨ (a.score = b.score ∧ b.idx ≤ a.idx)) := by
  rw [← Bool.not_eq_true, filterOver_less_true_iff]
  omega

/-- The `less` function of `filterOver` is a transitive ordering. -/
theorem filterOver_less_ordering :
    (∀ a b, search.filterOver.less a b = true → search.filterOver.less b a = false) ∧
    (∀ a b c, search.filterOver.less a b = true → search.filterOver.less b c = true →
      search.filterOver.less a c = true) ∧
    (∀ a b c, search.filterOver.less a b = false → search.filterOver.less b c = false →
      search.filterOver.less a c = false) := by
  refine ⟨?_, ?_, ?_⟩
  · intro a b
    rw [filterOver_less_true_iff, filterOver_less_false_iff]
    omega
  · intro a b c
    rw [filterOver_less_true_iff, filterOver_less_true_iff, filterOver_less_true_iff]
    omega
  · intro a b c
    rw [filterOver_less_false_iff, filterOver_less_false_iff, filterOver_less_false_iff]
    omega

/-- Two rearrangements of the same elements that are both in the order of `less`
are the same list when elements that tie are equal. -/
theorem sorted_perm_eq {α : Type} (less : α → α → Bool) (l1 l2 : List α) (hp : l1.Perm l2)
    (h1 : l1.Pairwise (fun a b => less b a = false))
    (h2 : l2.Pairwise (fun a b => less b a = false))
    (htie : ∀ a ∈ l1, ∀ b ∈ l1, less a b = false → less b a = false → a = b) :
    l1 = l2 := by
  have hanti : IsAntisymm α (fun a b => less b a = false ∧ (less a b = false → a = b)) :=
    ⟨fun a b hab hba => hab.2 hba.1⟩
  refine @List.eq_of_perm_of_sorted _ (fun a b => less b a = false ∧ (less a b = false → a = b))
    hanti l1 l2 hp ?_ ?_
  · exact h1.imp_of_mem (fun ha hb hab => ⟨hab, fun hba => htie _ ha _ hb hba hab⟩)
  · exact h2.imp_of_mem (fun ha hb hab =>
      ⟨hab, fun hba => htie _ (hp.mem_iff.mpr ha) _ (hp.mem_iff.mpr hb) hba hab⟩)

/-- The slice `matches` of `filterOver`: every element added has the score of its
name, above 0, and an index from `i` on; the indices are in ascending order; and
the elements of a score above 0 are, after those found before, the entries of
the list with that score, in the order of the list. -/
theorem filterOver_matches_spec (toLower : String → String) (q : String)
    (l : List Pokemon) (i : Int) (found : List search.scored) :
    (∀ e ∈ search.filterOver.matches toLower q l i found,
      e ∈ found ∨ (e.score = search.scoreMatch (toLower e.p.Name) q ∧ 0 < e.score ∧
        i ≤ e.idx)) ∧
    (found.Pairwise (fun a b => a.idx < b.idx) → (∀ e ∈ found, e.idx < i) →
      (search.filterOver.matches toLower q l i found).Pairwise (fun a b => a.idx < b.idx)) ∧
    (∀ t : Int, 0 < t →
      ((search.filterOver.matches toLower q l i found).filter
          (fun e => decide (e.score = t))).map (fun e => e.p) =
        (found.filter (fun e => decide (e.score = t))).map (fun e => e.p) ++
          l.filter (fun p => decide (search.scoreMatch (toLower p.Name) q = t))) := by
  induction l generalizing i found with
  | nil =>
    refine ⟨fun e he => Or.inl he, fun h _ => h, fun t _ => ?_⟩
    simp [search.filterOver.matches]
  | cons p rest ih =>
    unfold search.filterOver.matches
    simp only [search.scoreNoMatch]
    by_cases hs : search.scoreMatch (toLower p.Name) q > 0
    · rw [if_pos hs]
      obtain ⟨ih1, ih2, ih3⟩ := ih (i + 1)
        (found ++ [{ p := p, score := search.scoreMatch (toLower p.Name) q, idx := i }])
      refine ⟨fun e he => ?_, fun hpw hlt => ?_, fun t ht => ?_⟩
      · rcases ih1 e he with hmem | ⟨h1, h2, h3⟩
        · rcases List.mem_append.mp hmem with hmem | hmem
          · exact Or.inl hmem
          · rw [List.mem_singleton] at hmem
            subst hmem
            exact Or.inr ⟨rfl, hs, Int.le_refl _⟩
        · exact Or.inr ⟨h1, h2, by omega⟩
      · refine ih2 ?_ ?_
        · rw [List.pairwise_append]
          refine ⟨hpw, List.pairwise_singleton _ _, fun a ha b hb => ?_⟩
          rw [List.mem_singleton] at hb
          subst hb
          exact hlt a ha
        · intro e he
          rcases List.mem_append.mp he with he | he
          · have := hlt e he
            omega
          · rw [List.mem_singleton] at he
            subst he
            show i < i + 1
            omega
      · rw [ih3 t ht, List.filter_append, List.map_append, List.append_assoc]
        congr 1
        by_cases hst : search.scoreMatch (toLower p.Name) q = t
        · simp [hst]
        · simp [hst]
    · rw [if_neg hs]
      obtain ⟨ih1, ih2, ih3⟩ := ih (i + 1) found
      refine ⟨fun e he => ?_, fun hpw hlt => ?_, fun t ht => ?_⟩
      · rcases ih1 e he with hmem | ⟨h1, h2, h3⟩
        · exact Or.inl hmem
        · exact Or.inr ⟨h1, h2, by omega⟩
      · exact ih2 hpw (fun e he => by have := hlt e he; omega)
      · rw [ih3 t ht]
        congr 1
        have hst : ¬ search.scoreMatch (toLower p.Name) q = t := by
          intro h
          rw [h] at hs
          exact hs ht
        simp [hst]

/-- The elements of the four scores, one score after the other, are a
rearrangement of a slice whose elements all have one of the four scores. -/
theorem tiers_perm (found : List search.scored)
    (h : ∀ e ∈ found, e.score = 100 ∨ e.score = 80 ∨ e.score = 60 ∨ e.score = 40) :
    (([100, 80, 60, 40] : List Int).flatMap (fun t =>
      found.filter (fun e => decide (e.score = t)))).Perm found := by
  induction found with
  | nil => simp
  | cons e rest ih =>
    have ih' := ih (fun x hx => h x (List.mem_cons_of_mem _ hx))
    simp only [List.flatMap_cons, List.flatMap_nil, List.append_nil] at ih' ⊢
    rcases h e (List.mem_cons_self _ _) with he | he | he | he
    · simp only [List.filter_cons, he]
      simpa using List.Perm.cons e ih'
    · simp only [List.filter_cons, he]
      simp only [show ¬ ((80 : Int) = 100) by decide, show ¬ ((80 : Int) = 60) by decide,
        show ¬ ((80 : Int) = 40) by decide, decide_False, decide_True, if_true,
        Bool.false_eq_true, if_false]
      exact List.perm_middle.trans (List.Perm.cons e ih')
    · simp only [List.filter_cons, he]
      simp only [show ¬ ((60 : Int) = 100) by decide, show ¬ ((60 : Int) = 80) by decide,
        show ¬ ((60 : Int) = 40) by decide, decide_False, decide_True, if_true,
        Bool.false_eq_true, if_false]
      rw [← List.append_assoc]
      exact List.perm_middle.trans (List.Perm.cons e (by rwa [List.append_assoc]))
    · simp only [List.filter_cons, he]
      simp only [show ¬ ((40 : Int) = 100) by decide, show ¬ ((40 : Int) = 80) by decide,
        show ¬ ((40 : Int) = 60) by decide, decide_False, decide_True, if_true,
        Bool.false_eq_true, if_false]
      rw [← List.append_assoc, ← List.append_assoc]
      exact List.perm_middle.trans
        (List.Perm.cons e (by rwa [List.append_assoc, List.append_assoc]))

/-- The elements of one score, in the order of a slice with ascending indices,
are in the order of `less`. -/
theorem tier_sorted (found : List search.scored) (t : Int)
    (h : found.Pairwise (fun a b => a.idx < b.idx)) :
    (found.filter (fun e => decide (e.score = t))).Pairwise
      (fun a b => search.filterOver.less b a = false) := by
  have hf := h.filter (fun e => decide (e.score = t))
  refine hf.imp_of_mem ?_
  intro a b ha hb hab
  have hsa : a.score = t := by simpa using (List.mem_filter.mp ha).2
  have hsb : b.score = t := by simpa using (List.mem_filter.mp hb).2
  rw [filterOver_less_false_iff]
  omega

/-- The elements of the four scores, one score after the other and each score in
the order of a slice with ascending indices, are in the order of `less`. -/
theorem tiers_sorted (found : List search.scored)
    (h : found.Pairwise (fun a b => a.idx < b.idx)) :
    (([100, 80, 60, 40] : List Int).flatMap (fun t =>
      found.filter (fun e => decide (e.score = t)))).Pairwise
        (fun a b => search.filterOver.less b a = false) := by
  simp only [List.flatMap_cons, List.flatMap_nil, List.append_nil]
  have hmem : ∀ (t : Int) (e : search.scored),
      e ∈ found.filter (fun e => decide (e.score = t)) → e.score = t := by
    intro t e he
    simpa using (List.mem_filter.mp he).2
  have hcross : ∀ a b : search.scored, b.score < a.score →
      search.filterOver.less b a = false := by
    intro a b hab
    rw [filterOver_less_false_iff]
    exact Or.inl hab
  refine List.pairwise_append.mpr ⟨tier_sorted found 100 h, ?_, ?_⟩
  · refine List.pairwise_append.mpr ⟨tier_sorted found 80 h, ?_, ?_⟩
    · refine List.pairwise_append.mpr ⟨tier_sorted found 60 h, tier_sorted found 40 h, ?_⟩
      intro a ha b hb
      exact hcross a b (by rw [hmem 60 a ha, hmem 40 b hb]; decide)
    · intro a ha b hb
      rcases List.mem_append.mp hb with hb | hb
      · exact hcross a b (by rw [hmem 80 a ha, hmem 60 b hb]; decide)
      · exact hcross a b (by rw [hmem 80 a ha, hmem 40 b hb]; decide)
  · intro a ha b hb
    rcases List.mem_append.mp hb with hb | hb
    · exact hcross a b (by rw [hmem 100 a ha, hmem 80 b hb]; decide)
    · rcases List.mem_append.mp hb with hb | hb
      · exact hcross a b (by rw [hmem 100 a ha, hmem 60 b hb]; decide)
      · exact hcross a b (by rw [hmem 100 a ha, hmem 40 b hb]; decide)

/-- In a slice with ascending indices, elements with the same index are the same
element. -/
theorem idx_unique (found : List search.scored)
    (h : found.Pairwise (fun a b => a.idx < b.idx)) :
    ∀ a ∈ found, ∀ b ∈ found, a.idx = b.idx → a = b := by
  induction found with
  | nil => intro a ha; simp at ha
  | cons e rest ih =>
    rw [List.pairwise_cons] at h
    intro a ha b hb hab
    rcases List.mem_cons.mp ha with hae | har
    · rcases List.mem_cons.mp hb with hbe | hbr
      · rw [hae, hbe]
      · have := h.1 b hbr
        rw [hae] at hab
        omega
    · rcases List.mem_cons.mp hb with hbe | hbr
      · have := h.1 a har
        rw [hbe] at hab
        omega
      · exact ih h.2 a har b hbr hab

/-- The structure of `filterOver`: for the empty query the list itself, and
otherwise the entries whose lower-cased name `scoreMatch` scores 100 against the
lower-cased query, then those it scores 80, 60 and 40, each group in the order
of the list: the matches in the order of their score, ties in list order. -/
theorem filterOver_eq_tiers (toLower : String → String) (pokemon : List Pokemon)
    (query : String) :
    search.filterOver toLower pokemon query =
      if query = "" then pokemon
      else
        ([100, 80, 60, 40] : List Int).flatMap (fun tier =>
          pokemon.filter (fun p =>
            decide (search.scoreMatch (toLower p.Name) (toLower query) = tier))) := by
  unfold search.filterOver
  by_cases hq : query = ""
  · rw [if_pos hq, if_pos hq]
  · rw [if_neg hq, if_neg hq]
    obtain ⟨hscore, hidx, htier⟩ :=
      filterOver_matches_spec toLower (toLower query) pokemon 0 []
    have hpw := hidx List.Pairwise.nil (fun e he => by simp at he)
    have hrange : ∀ e ∈ search.filterOver.matches toLower (toLower query) pokemon 0 [],
        e.score = 100 ∨ e.score = 80 ∨ e.score = 60 ∨ e.score = 40 := by
      intro e he
      rcases hscore e he with hmem | ⟨h1, h2, _⟩
      · simp at hmem
      · rcases scoreMatch_range (toLower e.p.Name) (toLower query) with h | h | h | h | h
        · exact Or.inl (h1.trans h)
        · exact Or.inr (Or.inl (h1.trans h))
        · exact Or.inr (Or.inr (Or.inl (h1.trans h)))
        · exact Or.inr (Or.inr (Or.inr (h1.trans h)))
        · rw [h1, h] at h2
          exact absurd h2 (by decide)
    have hcontract := insertionSort_func_contract search.filterOver.less
      (search.filterOver.matches toLower (toLower query) pokemon 0 [])
    have hsorted := hcontract.2 filterOver_less_ordering.1 filterOver_less_ordering.2.1
      filterOver_less_ordering.2.2
    have heq : search.SliceStable search.filterOver.less
          (search.filterOver.matches toLower (toLower query) pokemon 0 []) =
        ([100, 80, 60, 40] : List Int).flatMap (fun t =>
          (search.filterOver.matches toLower (toLower query) pokemon 0 []).filter
            (fun e => decide (e.score = t))) := by
      refine sorted_perm_eq search.filterOver.less _ _
        (hcontract.1.trans (tiers_perm _ hrange).symm) hsorted (tiers_sorted _ hpw) ?_
      intro a ha b hb hab hba
      rw [filterOver_less_false_iff] at hab hba
      exact idx_unique _ hpw a (hcontract.1.mem_iff.mp ha) b (hcontract.1.mem_iff.mp hb)
        (by omega)
    show (search.SliceStable search.filterOver.less
      (search.filterOver.matches toLower (toLower query) pokemon 0 [])).map (fun m => m.p) = _
    rw [heq]
    simp only [List.flatMap_cons, List.flatMap_nil, List.append_nil, List.map_append]
    rw [htier 100 (by decide), htier 80 (by decide), htier 60 (by decide),
      htier 40 (by decide)]
    simp

/-- Runes with the same code are the same rune. -/
theorem toNat_eq_iff (c d : Char) : c.toNat = d.toNat ↔ c = d :=
  ⟨fun h => Char.ext (UInt32.ext h), fun h => by rw [h]⟩

/-- The encoding of a rune of ASCII is its code. -/
theorem utf8Bytes_ascii (c : Char) (h : c.toNat < 128) : search.utf8Bytes c = [c.toNat] := by
  unfold search.utf8Bytes
  simp only
  rw [if_pos h]

/-- The encoding of a rune outside ASCII starts with a byte from 128 on and has
only such bytes. -/
theorem utf8Bytes_high (c : Char) (h : 128 ≤ c.toNat) :
    ∃ b bs, search.utf8Bytes c = b :: bs ∧ 128 ≤ b ∧ ∀ x ∈ bs, 128 ≤ x := by
  unfold search.utf8Bytes
  simp only
  rw [if_neg (by omega)]
  split_ifs
  · exact ⟨_, _, rfl, by omega, by
      intro x hx
      simp only [List.mem_singleton] at hx
      omega⟩
  · exact ⟨_, _, rfl, by omega, by
      intro x hx
      simp only [List.mem_cons, List.mem_singleton, List.not_mem_nil, or_false] at hx
      omega⟩
  · exact ⟨_, _, rfl, by omega, by
      intro x hx
      simp only [List.mem_cons, List.mem_singleton, List.not_mem_nil, or_false] at hx
      omega⟩

/-- The bytes of a text in ASCII are the codes of its characters. -/
theorem bytes_ascii (qs : List Char) (h : ∀ c ∈ qs, c.toNat < 128) :
    qs.flatMap search.utf8Bytes = qs.map Char.toNat := by
  induction qs with
  | nil => rfl
  | cons c rest ih =>
    rw [List.flatMap_cons, List.map_cons, utf8Bytes_ascii c (h c (List.mem_cons_self _ _)),
      ih (fun x hx => h x (List.mem_cons_of_mem _ hx))]
    rfl

/-- A text in ASCII is a prefix of the bytes of a name exactly when it is a
prefix of its characters. -/
theorem isPrefixOf_bytes (qs ns : List Char) (h : ∀ c ∈ qs, c.toNat < 128) :
    (qs.map Char.toNat).isPrefixOf (ns.flatMap search.utf8Bytes) = qs.isPrefixOf ns := by
  induction qs generalizing ns with
  | nil => simp
  | cons c rest ih =>
    have hc := h c (List.mem_cons_self _ _)
    have hrest : ∀ x ∈ rest, x.toNat < 128 := fun x hx => h x (List.mem_cons_of_mem _ hx)
    cases ns with
    | nil => simp
    | cons d ds =>
      rw [List.flatMap_cons, List.map_cons]
      by_cases hd : d.toNat < 128
      · rw [utf8Bytes_ascii d hd]
        show (c.toNat :: rest.map Char.toNat).isPrefixOf (d.toNat :: ds.flatMap search.utf8Bytes) = _
        rw [List.isPrefixOf_cons₂, List.isPrefixOf_cons₂, ih ds hrest]
        congr 1
        by_cases hcd : c = d
        · simp [hcd]
        · have : ¬ c.toNat = d.toNat := fun hn => hcd ((toNat_eq_iff c d).mp hn)
          simp [hcd, this]
      · obtain ⟨b, bs, henc, hb, _⟩ := utf8Bytes_high d (by omega)
        rw [henc]
        show (c.toNat :: rest.map Char.toNat).isPrefixOf (b :: (bs ++ ds.flatMap search.utf8Bytes))
          = _
        rw [List.isPrefixOf_cons₂, List.isPrefixOf_cons₂]
        have h1 : ¬ c.toNat = b := by omega
        have h2 : ¬ c = d := by
          intro hcd
          rw [hcd] at hc
          exact hd hc
        rw [beq_false_of_ne h1, beq_false_of_ne h2, Bool.false_and, Bool.false_and]

/-- The search of `Contains` from a position on tests the position, then goes on
from the next. -/
theorem scan_cons (qb : List Nat) (b : Nat) (rest : List Nat) :
    search.Contains.scan qb (b :: rest) =
      (qb.isPrefixOf (b :: rest) || search.Contains.scan qb rest) := rfl

/-- A text found at a position is found by the search from that position on. -/
theorem scan_absorb (qb rest : List Nat) :
    (qb.isPrefixOf rest || search.Contains.scan qb rest) = search.Contains.scan qb rest := by
  cases rest with
  | nil =>
    show (qb.isPrefixOf [] || qb.isPrefixOf []) = qb.isPrefixOf []
    exact Bool.or_self _
  | cons b bs =>
    rw [scan_cons, ← Bool.or_assoc, Bool.or_self]

/-- The search of `Contains` does not find a text in ASCII at a position inside a
run of bytes from 128 on, unless it finds it at the start of the run. -/
theorem scan_high (qb enc rest : List Nat) (hq : ∀ x ∈ qb, x < 128)
    (henc : ∀ x ∈ enc, 128 ≤ x) :
    search.Contains.scan qb (enc ++ rest) =
      (qb.isPrefixOf (enc ++ rest) || search.Contains.scan qb rest) := by
  induction enc with
  | nil =>
    rw [List.nil_append, scan_absorb]
  | cons b bs ih =>
    rw [List.cons_append, scan_cons, ih (fun x hx => henc x (List.mem_cons_of_mem _ hx))]
    cases bs with
    | nil => rw [List.nil_append, scan_absorb]
    | cons b2 bs2 =>
      cases qb with
      | nil => rfl
      | cons x xs =>
        have hx := hq x (List.mem_cons_self _ _)
        have hb2 := henc b2 (by simp)
        have hne : ¬ x = b2 := by omega
        rw [List.cons_append, List.isPrefixOf_cons₂ (a := x) (b := b2), beq_false_of_ne hne,
          Bool.false_and, Bool.false_or]

/-- The search of `Contains` on the bytes of a name finds a text in ASCII
exactly when the text is a run of consecutive characters of the name. -/
theorem scan_bytes (qs ns : List Char) (h : ∀ c ∈ qs, c.toNat < 128) :
    search.Contains.scan (qs.map Char.toNat) (ns.flatMap search.utf8Bytes) =
      spec.isInfix qs ns := by
  have hq : ∀ x ∈ qs.map Char.toNat, x < 128 := by
    intro x hx
    obtain ⟨c, hc, rfl⟩ := List.mem_map.mp hx
    exact h c hc
  induction ns with
  | nil =>
    show search.Contains.scan (qs.map Char.toNat) [] = spec.isInfix qs []
    unfold search.Contains.scan spec.isInfix
    cases qs <;> rfl
  | cons d ds ih =>
    rw [List.flatMap_cons]
    unfold spec.isInfix
    rw [← ih, ← isPrefixOf_bytes qs (d :: ds) h, List.flatMap_cons]
    by_cases hd : d.toNat < 128
    · rw [utf8Bytes_ascii d hd]
      exact scan_cons _ _ _
    · obtain ⟨b, bs, henc, hb, hbs⟩ := utf8Bytes_high d (by omega)
      rw [henc]
      refine scan_high _ _ _ hq ?_
      intro x hx
      rcases List.mem_cons.mp hx with rfl | hx
      · exact hb
      · exact hbs x hx

/-- The loop of `isSubsequence` on a query in ASCII ends at the length of the
query exactly when the characters of the query still to be found occur, in
order, in the runes still to be visited. -/
theorem isSubsequence_loop_iff (qs cs : List Char) (qi : Nat) (hqi : qi ≤ qs.length) :
    search.isSubsequence.loop (qs.map Char.toNat) cs qi = qs.length ↔
      spec.isSubseq (qs.drop qi) cs = true := by
  induction cs generalizing qi with
  | nil =>
    unfold search.isSubsequence.loop
    by_cases hlt : qi < qs.length
    · rw [List.drop_eq_getElem_cons hlt]
      unfold spec.isSubseq
      constructor
      · intro h
        omega
      · intro h
        cases h
    · have heq : qi = qs.length := by omega
      rw [heq, List.drop_length]
      unfold spec.isSubseq
      simp
  | cons c rest ih =>
    unfold search.isSubsequence.loop
    rw [List.length_map, List.getElem?_map]
    by_cases hlt : qi < qs.length
    · rw [List.drop_eq_getElem_cons hlt, List.getElem?_eq_getElem hlt]
      unfold spec.isSubseq
      by_cases hc : qs[qi] = c
      · rw [if_pos ⟨hlt, by rw [hc]; rfl⟩, if_pos hc]
        exact ih (qi + 1) hlt
      · have hne : ¬ (Option.map Char.toNat (some qs[qi]) = some c.toNat) := by
          intro h
          simp only [Option.map_some', Option.some.injEq] at h
          exact hc ((toNat_eq_iff _ _).mp h)
        rw [if_neg (fun h => hne h.2), if_neg hc, ← List.drop_eq_getElem_cons hlt]
        exact ih qi hqi
    · have heq : qi = qs.length := by omega
      rw [if_neg (fun h => hlt h.1)]
      have := ih qi hqi
      rw [heq, List.drop_length] at this ⊢
      rw [this]
      unfold spec.isSubseq
      cases rest <;> simp

/-- On a query in ASCII `scoreMatch` is the score of the claim. -/
theorem scoreMatch_eq_score (name query : String) (h : ∀ c ∈ query.data, c.toNat < 128) :
    search.scoreMatch name query = spec.score name query := by
  have hbytes : search.bytes query = query.data.map Char.toNat := bytes_ascii _ h
  have hpre : search.HasPrefix name query = query.data.isPrefixOf name.data := by
    unfold search.HasPrefix
    rw [hbytes]
    exact isPrefixOf_bytes _ _ h
  have hcontains : search.Contains name query = spec.isInfix query.data name.data := by
    unfold search.Contains
    rw [hbytes]
    exact scan_bytes _ _ h
  have hsub : search.isSubsequence name query = spec.isSubseq query.data name.data := by
    unfold search.isSubsequence
    rw [hbytes, List.length_map]
    have := isSubsequence_loop_iff query.data name.data 0 (Nat.zero_le _)
    rw [List.drop_zero] at this
    by_cases hs : spec.isSubseq query.data name.data = true
    · rw [hs, decide_eq_true_eq]
      exact this.mpr hs
    · rw [Bool.not_eq_true] at hs
      rw [hs, decide_eq_false_iff_not]
      intro hl
      have := this.mp hl
      rw [hs] at this
      cases this
  unfold search.scoreMatch spec.score search.scoreExact search.scorePrefix search.scoreContains
    search.scoreSubseq search.scoreNoMatch
  rw [hpre, hcontains, hsub]

/-- On a query whose lower-cased form is in ASCII, `filterOver` is the reference
of the claim, for every injected slice and every lower-casing function. -/
theorem filterOver_eq_reference_of_ascii (toLower : String → String) (pokemon : List Pokemon)
    (query : String) (h : ∀ c ∈ (toLower query).data, c.toNat < 128) :
    search.filterOver toLower pokemon query = spec.filterReference toLower pokemon query := by
  rw [filterOver_eq_tiers]
  unfold spec.filterReference
  by_cases hq : query = ""
  · rw [if_pos hq, if_pos hq]
  · rw [if_neg hq, if_neg hq]
    simp only [scoreMatch_eq_score _ _ h]

/-- What follows from the structure of `filterOver`, for every query that is not
empty: when the lower-cased name of some entry is the lower-cased query, the
first result is such an entry; when no entry scores above 0 the result is the
empty list; and two queries with the same lower-cased form give the same
result. -/
theorem filterOver_consequences (toLower : String → String) (pokemon : List Pokemon)
    (query : String) (hq : query ≠ "") :
    ((∃ p ∈ pokemon, toLower p.Name = toLower query) →
      ∃ p, (search.filterOver toLower pokemon query).head? = some p ∧
        toLower p.Name = toLower query) ∧
    ((∀ p ∈ pokemon, search.scoreMatch (toLower p.Name) (toLower query) = 0) →
      search.filterOver toLower pokemon query = []) ∧
    (∀ query' : String, query' ≠ "" → toLower query' = toLower query →
      search.filterOver toLower pokemon query' = search.filterOver toLower pokemon query) := by
  refine ⟨?_, ?_, ?_⟩
  · rintro ⟨p, hp, hname⟩
    rw [filterOver_eq_tiers, if_neg hq]
    simp only [List.flatMap_cons, List.flatMap_nil, List.append_nil]
    have hexact : ∀ x : Pokemon,
        search.scoreMatch (toLower x.Name) (toLower query) = 100 ↔
          toLower x.Name = toLower query := by
      intro x
      unfold search.scoreMatch search.scoreExact search.scorePrefix search.scoreContains
        search.scoreSubseq search.scoreNoMatch
      split_ifs with h1 <;> simp [h1]
    have hmem : p ∈ pokemon.filter (fun p =>
        decide (search.scoreMatch (toLower p.Name) (toLower query) = 100)) := by
      rw [List.mem_filter]
      exact ⟨hp, by simpa using (hexact p).mpr hname⟩
    rcases hf : pokemon.filter (fun p =>
        decide (search.scoreMatch (toLower p.Name) (toLower query) = 100)) with _ | ⟨x, xs⟩
    · rw [hf] at hmem
      simp at hmem
    · have hx : x ∈ pokemon.filter (fun p =>
          decide (search.scoreMatch (toLower p.Name) (toLower query) = 100)) := by
        rw [hf]
        exact List.mem_cons_self _ _
      refine ⟨x, by rw [hf]; rfl, ?_⟩
      have := (List.mem_filter.mp hx).2
      exact (hexact x).mp (by simpa using this)
  · intro hall
    rw [filterOver_eq_tiers, if_neg hq]
    simp only [List.flatMap_cons, List.flatMap_nil, List.append_nil, List.append_eq_nil,
      List.filter_eq_nil_iff]
    refine ⟨?_, ?_, ?_, ?_⟩ <;>
    · intro p hp
      rw [hall p hp]
      decide
  · intro query' hq' hlow
    rw [filterOver_eq_tiers, filterOver_eq_tiers, if_neg hq, if_neg hq', hlow]

/-- C37 on the injected slice with the one name "flabébé" and the query "fbé",
whose characters occur in the name in order: `isSubsequence` compares the bytes
of the query with the runes of the name, the two bytes of "é" are not the rune
"é", and `filterOver` returns the empty list, where the reference returns the
entry with the score of a subsequence; the query "flb", in ASCII, finds it. On
the fixture of the tests `filterOver` and the reference agree. -/
theorem C37_subsequence_bytes_against_runes :
    search.bytes "fbé" = [102, 98, 195, 169] ∧
    "flabébé".data.map Char.toNat = [102, 108, 97, 98, 233, 98, 233] ∧
    search.isSubsequence "flabébé" "fbé" = false ∧
    spec.isSubseq "fbé".data "flabébé".data = true ∧
    search.scoreMatch "flabébé" "fbé" = 0 ∧
    spec.score "flabébé" "fbé" = 40 ∧
    search.filterOver search.ToLower sample.accentedFixture "fbé" = [] ∧
    spec.filterReference search.ToLower sample.accentedFixture "fbé" = sample.accentedFixture ∧
    search.filterOver search.ToLower sample.accentedFixture "flb" = sample.accentedFixture ∧
    search.filterOver search.ToLower sample.fixture "CHAR" =
      spec.filterReference search.ToLower sample.fixture "CHAR" := by
  decide

end Pokedex
